import Mathlib

/-!
Verification of the cops-and-robbers pursuit engine.

This file gives a shallow embedding of the parts of the engine that the
checked properties talk about, translated from the Python sources:

* `src/shared/status.py`, `src/shared/game.py` (game status finality)
* `src/engine/modules/minimax/zobrist.py` (Zobrist hashing and storage)
* `src/engine/modules/minimax/alpha_beta.py` (alpha-beta minimax leaves)
* `src/engine/modules/minimax/engine.py` (contour expansion)
* `src/engine/cops.py` (cop allocation over components)
* `src/engine/modules/util/search.py` (penalised A-star pursuit)
* `src/engine/modules/abstraction/pooling.py` (vertex pooling)
* `src/engine/modules/abstraction/hierarchy.py` (abstraction hierarchy)

Mutable state is embedded by explicit state passing; Python dicts become
functions with pointwise update; wall-clock checks become Boolean oracle
parameters.  All definitions are executable.
-/

/-! ### Game status (`src/shared/status.py`, `src/shared/game.py`) -/

/-- The game status enum from `src/shared/status.py`. -/
inductive Status where
  | COPS_EXCEPTION
  | COPS_TIMEOUT
  | COPS_INVALID_STEP
  | COPS_OUT_OF_STEPS
  | GAME_CONTINUES
  | ROBBER_CAUGHT
  | ROBBER_INVALID_STEP
  | ROBBER_TIMEOUT
  | ROBBER_EXCEPTION
deriving DecidableEq, Repr

/-- The `status` property setter of `Game` (`src/shared/game.py` lines
330-341): the new value is stored only while the current status is
`GAME_CONTINUES`. -/
def Game.setStatus (current new : Status) : Status :=
  if current = Status.GAME_CONTINUES then new else current

/-- A sequence of assignments to the `status` property, oldest first,
starting from `current`. -/
def Game.setStatusAll (current : Status) (writes : List Status) : Status :=
  writes.foldl Game.setStatus current

/-- C10: once the status has been set to any value other than
`GAME_CONTINUES`, every subsequent assignment through the `status` setter
leaves it unchanged: the first terminal status of a match is final. -/
theorem Game.status_final (current : Status) (writes : List Status)
    (h : current ≠ Status.GAME_CONTINUES) :
    Game.setStatusAll current writes = current := by
  induction writes with
  | nil => rfl
  | cons w rest ih =>
      simp only [Game.setStatusAll, List.foldl_cons] at *
      rw [Game.setStatus, if_neg h]
      exact ih

/-- Witness for C10 at a concrete input: a caught status survives a later
timeout and exception write. -/
theorem Game.status_final_witness :
    Status.ROBBER_CAUGHT ≠ Status.GAME_CONTINUES ∧
      Game.setStatusAll Status.ROBBER_CAUGHT
        [Status.COPS_TIMEOUT, Status.ROBBER_EXCEPTION] = Status.ROBBER_CAUGHT :=
  ⟨by decide, Game.status_final Status.ROBBER_CAUGHT
    [Status.COPS_TIMEOUT, Status.ROBBER_EXCEPTION] (by decide)⟩

/-! ### Zobrist transposition table (`src/engine/modules/minimax/zobrist.py`)

A move stored in the table is either a robber node or a list of cop nodes
(`Move = int | list[int]` in the source). -/

/-- `Move = int | list[int]` from `zobrist.py`. -/
inductive ZMove where
  | robber (position : Nat)
  | cops (positions : List Nat)
deriving DecidableEq, Repr

/-- `ZobristTranspositionTable.key` (`zobrist.py` lines 30-56): the xor of
one key per distinct cop position (indexed by the multiplicity of cops on
that position), the robber key and the turn key.  `Counter(cop_positions)`
iterates over the distinct cop positions; here the distinct positions are
obtained with `List.dedup` — xor folding makes the enumeration order
irrelevant.  The random 64-bit keys are abstracted as arbitrary `Nat`-valued
key families. -/
def zobristKey (copKeys : Nat → Nat → Nat) (robberKeys : Nat → Nat)
    (copTurnKey : Bool → Nat) (copPositions : List Nat)
    (robberPosition : Nat) (copTurn : Bool) : Nat :=
  (((copPositions.dedup).map
      (fun position => copKeys position (copPositions.count position - 1))).foldl
    Nat.xor 0) ^^^ robberKeys robberPosition ^^^ copTurnKey copTurn

theorem foldl_xor_perm {l₁ l₂ : List Nat} (h : l₁.Perm l₂) (i : Nat) :
    l₁.foldl Nat.xor i = l₂.foldl Nat.xor i := by
  induction h generalizing i with
  | nil => rfl
  | cons x _ ih => simp only [List.foldl_cons]; exact ih _
  | swap x y l =>
      simp only [List.foldl_cons]
      have : Nat.xor (Nat.xor i y) x = Nat.xor (Nat.xor i x) y := by
        change i ^^^ y ^^^ x = i ^^^ x ^^^ y
        rw [Nat.xor_assoc, Nat.xor_assoc, Nat.xor_comm y x]
      rw [this]
  | trans _ _ ih₁ ih₂ => exact (ih₁ i).trans (ih₂ i)

/-- C6: the Zobrist hash key is invariant under any permutation of the cop
position list, including when several cops share a node
(multiplicity-aware folding). -/
theorem zobristKey_perm_invariant (copKeys : Nat → Nat → Nat)
    (robberKeys : Nat → Nat) (copTurnKey : Bool → Nat)
    (cops₁ cops₂ : List Nat) (robberPosition : Nat) (copTurn : Bool)
    (h : cops₁.Perm cops₂) :
    zobristKey copKeys robberKeys copTurnKey cops₁ robberPosition copTurn =
      zobristKey copKeys robberKeys copTurnKey cops₂ robberPosition copTurn := by
  unfold zobristKey
  have hcount : ∀ p, cops₁.count p = cops₂.count p := fun p => h.count_eq p
  have hmap :
      (cops₁.dedup.map (fun p => copKeys p (cops₁.count p - 1))).Perm
        (cops₂.dedup.map (fun p => copKeys p (cops₂.count p - 1))) := by
    have hd : cops₁.dedup.Perm cops₂.dedup := h.dedup
    have : (fun p => copKeys p (cops₁.count p - 1)) =
        (fun p => copKeys p (cops₂.count p - 1)) := by
      funext p; rw [hcount p]
    rw [this]
    exact hd.map _
  rw [foldl_xor_perm hmap]

/-- Witness for C6 at a concrete input: two cops on nodes 3 and 5 in both
orders, with key families that distinguish positions and multiplicities. -/
theorem zobristKey_perm_invariant_witness :
    ([3, 5] : List Nat).Perm [5, 3] ∧
      zobristKey (fun p k => p * 10 + k) (fun r => r + 100) (fun t => cond t 1 2)
          [3, 5] 7 true =
        zobristKey (fun p k => p * 10 + k) (fun r => r + 100) (fun t => cond t 1 2)
          [5, 3] 7 true :=
  ⟨List.Perm.swap 5 3 [], zobristKey_perm_invariant _ _ _ [3, 5] [5, 3] 7 true
    (List.Perm.swap 5 3 [])⟩

/-- A transposition-table entry: remaining depth, stored move, evaluation. -/
def ZEntry : Type := Int × ZMove × ℚ

/-- The depth of a stored entry. -/
def ZEntry.depth (e : ZEntry) : Int := e.1

/-- `ZobristTranspositionTable.__setitem__` (`zobrist.py` lines 91-109): a
fresh entry is stored as is; against a prior entry the source keeps
`max(prior, new, key=lambda v: v[0])`, and Python's `max` returns the first
argument on ties, so the new entry replaces the prior one exactly when its
depth is strictly larger. -/
def zobristSetItem (table : Nat → Option ZEntry) (key : Nat)
    (depth : Int) (move : ZMove) (evaluation : ℚ) : Nat → Option ZEntry :=
  fun k =>
    if k = key then
      match table key with
      | none => some (depth, move, evaluation)
      | some prior =>
          some (if prior.depth < depth then (depth, move, evaluation) else prior)
    else table k

/-- C7: after writing `(d₁, m₁, v₁)` and then `(d₂, m₂, v₂)` to the same
hash key of an empty slot, the stored entry has depth `max d₁ d₂`, it is the
entry of the max-depth write (the first one when depths tie), and the second
write replaces the first exactly when `d₁ < d₂`. -/
theorem zobristSetItem_depth_rule (table : Nat → Option ZEntry) (key : Nat)
    (d₁ d₂ : Int) (m₁ m₂ : ZMove) (v₁ v₂ : ℚ)
    (h : table key = none) :
    zobristSetItem (zobristSetItem table key d₁ m₁ v₁) key d₂ m₂ v₂ key =
        some (if d₁ < d₂ then (d₂, m₂, v₂) else (d₁, m₁, v₁)) ∧
      (zobristSetItem (zobristSetItem table key d₁ m₁ v₁) key d₂ m₂ v₂ key).map
          ZEntry.depth = some (max d₁ d₂) := by
  constructor
  · simp [zobristSetItem, h, ZEntry.depth]
  · simp only [zobristSetItem, if_pos rfl, h]
    by_cases hlt : d₁ < d₂
    · simp [hlt, ZEntry.depth, max_eq_right (le_of_lt hlt)]
    · simp [hlt, ZEntry.depth, max_eq_left (le_of_not_lt hlt)]

/-- Witness for C7 at a concrete input: writes of depth 2 then depth 1 keep
the depth-2 entry and record depth `max 2 1`. -/
theorem zobristSetItem_depth_rule_witness :
    (fun _ : Nat => (none : Option ZEntry)) 9 = none ∧
      zobristSetItem (zobristSetItem (fun _ => none) 9 2 (ZMove.robber 4) 1) 9 1
          (ZMove.robber 6) 0 9 =
        some (if 2 < 1 then (1, ZMove.robber 6, (0 : ℚ)) else (2, ZMove.robber 4, 1)) :=
  ⟨rfl, (zobristSetItem_depth_rule (fun _ => none) 9 2 1 (ZMove.robber 4)
    (ZMove.robber 6) 1 0 rfl).1⟩

/-! ### Alpha-beta minimax (`src/engine/modules/minimax/alpha_beta.py`)

The transition generators `cop_transitions` / `robber_transitions` are
function parameters in the source and stay parameters here.  The wall-clock
deadline check of line 51 (`finish_time - time.time() <= 0.001 /
(remaining_depth + 1)`) is an external-time effect and is abstracted as a
Boolean oracle `timeUp` on the call arguments.  The mutated transposition
dict is threaded as explicit state. -/

/-- `is_terminal` (`alpha_beta.py` lines 7-8). -/
def isTerminal (copPositions : List Nat) (robberPosition : Nat) : Bool :=
  robberPosition ∈ copPositions

/-- `key in transposition` (`zobrist.py` `__contains__` lines 75-89): an entry
exists for the hash key and its stored depth is at least the query depth. -/
def zobristContains (table : Nat → Option ZEntry) (key : Nat) (depth : Int) : Bool :=
  match table key with
  | none => false
  | some entry => depth ≤ entry.1

/-- `transposition[item]` (`zobrist.py` `__getitem__` lines 58-73): the stored
move and evaluation, whatever the stored depth.  A missing key raises in
Python; that case is unreachable at every call site below (the table is
always written at the key first), and is given a dummy value here. -/
def zobristGetItem (table : Nat → Option ZEntry) (key : Nat) : ZMove × ℚ :=
  match table key with
  | none => (ZMove.robber 0, 0)
  | some (_, move, evaluation) => (move, evaluation)

/-- Termination weight for the mutual minimax recursion: cop nodes at
remaining depth `d` weigh `6d`, robber nodes `6d + 3`, and the two
transition loops sit strictly between a parent node and its children. -/
def minimaxWeight (copTurn : Bool) (depth : Int) : Nat :=
  (if copTurn then 6 * depth else 6 * depth + 3).toNat

mutual

/-- `minimax_alpha_beta` (`alpha_beta.py` lines 11-112), with the
transposition dict threaded as state.  Returns the updated table together
with the `(best_move, evaluation)` pair the Python function returns. -/
def minimaxAlphaBeta (keyFn : List Nat → Nat → Bool → Nat)
    (copTransitions : List Nat → Nat → List (List Nat))
    (robberTransitions : List Nat → Nat → List Nat)
    (timeUp : List Nat → Nat → Bool → Int → Bool)
    (table : Nat → Option ZEntry) (copPositions : List Nat)
    (robberPosition : Nat) (copTurn : Bool) (remainingDepth : Int)
    (alpha beta : ℚ) : (Nat → Option ZEntry) × ZMove × ℚ :=
  let key := keyFn copPositions robberPosition copTurn
  if zobristContains table key remainingDepth then
    (table, zobristGetItem table key)
  else
    let bestMove := if copTurn then ZMove.cops copPositions
      else ZMove.robber robberPosition
    if hleaf : isTerminal copPositions robberPosition ∨ remainingDepth ≤ 0 then
      let evaluation : ℚ := if isTerminal copPositions robberPosition then 1 else 0
      let table' := zobristSetItem table key remainingDepth bestMove evaluation
      (table', zobristGetItem table' key)
    else if timeUp copPositions robberPosition copTurn remainingDepth then
      (table, bestMove, 1 / 2)
    else if hc : copTurn then
      let result :=
        minimaxCopLoop keyFn copTransitions robberTransitions timeUp table
          (copTransitions copPositions robberPosition) robberPosition
          (remainingDepth - 1) alpha beta alpha bestMove
      let table'' := zobristSetItem result.1 key remainingDepth result.2.1 result.2.2
      (table'', zobristGetItem table'' key)
    else
      let result :=
        minimaxRobberLoop keyFn copTransitions robberTransitions timeUp table
          copPositions (robberTransitions copPositions robberPosition)
          remainingDepth alpha beta beta bestMove
      let table'' := zobristSetItem result.1 key remainingDepth result.2.1 result.2.2
      (table'', zobristGetItem table'' key)
termination_by (minimaxWeight copTurn remainingDepth, 0)
decreasing_by
  · apply Prod.Lex.left
    simp [minimaxWeight, hc]
    omega
  · apply Prod.Lex.left
    have hb : copTurn = false := by revert hc; cases copTurn <;> simp
    simp [minimaxWeight, hb]
    omega

/-- The cop-turn successor loop of `minimax_alpha_beta` (lines 56-80):
maximise over cop joint transitions, update `alpha`, cut when the value
reaches `beta`.  `childDepth` is the parent's `remaining_depth - 1`. -/
def minimaxCopLoop (keyFn : List Nat → Nat → Bool → Nat)
    (copTransitions : List Nat → Nat → List (List Nat))
    (robberTransitions : List Nat → Nat → List Nat)
    (timeUp : List Nat → Nat → Bool → Int → Bool)
    (table : Nat → Option ZEntry) (successors : List (List Nat))
    (robberPosition : Nat) (childDepth : Int) (alpha beta evaluation : ℚ)
    (bestMove : ZMove) : (Nat → Option ZEntry) × ZMove × ℚ :=
  match successors with
  | [] => (table, bestMove, evaluation)
  | successorPositions :: rest =>
      let result :=
        minimaxAlphaBeta keyFn copTransitions robberTransitions timeUp table
          successorPositions robberPosition false childDepth alpha beta
      let successorEvaluation := result.2.2
      let ev := if evaluation < successorEvaluation then
          (successorEvaluation, ZMove.cops successorPositions)
        else (evaluation, bestMove)
      let alpha' := max alpha ev.1
      if beta ≤ ev.1 then (result.1, ev.2, ev.1)
      else
        minimaxCopLoop keyFn copTransitions robberTransitions timeUp result.1
          rest robberPosition childDepth alpha' beta ev.1 ev.2
termination_by ((6 * childDepth + 4).toNat + 1, successors.length)
decreasing_by
  · simp_wf
    apply Prod.Lex.left
    simp [minimaxWeight]
    omega
  · simp_wf
    apply Prod.Lex.right
    omega

/-- The robber-turn successor loop of `minimax_alpha_beta` (lines 84-108):
minimise over the robber's moves, update `beta`, cut when the value drops
to `alpha`.  `childDepth` is the parent's unchanged `remaining_depth`. -/
def minimaxRobberLoop (keyFn : List Nat → Nat → Bool → Nat)
    (copTransitions : List Nat → Nat → List (List Nat))
    (robberTransitions : List Nat → Nat → List Nat)
    (timeUp : List Nat → Nat → Bool → Int → Bool)
    (table : Nat → Option ZEntry) (copPositions : List Nat)
    (successors : List Nat) (childDepth : Int) (alpha beta evaluation : ℚ)
    (bestMove : ZMove) : (Nat → Option ZEntry) × ZMove × ℚ :=
  match successors with
  | [] => (table, bestMove, evaluation)
  | successorPosition :: rest =>
      let result :=
        minimaxAlphaBeta keyFn copTransitions robberTransitions timeUp table
          copPositions successorPosition true childDepth alpha beta
      let successorEvaluation := result.2.2
      let ev := if successorEvaluation < evaluation then
          (successorEvaluation, ZMove.robber successorPosition)
        else (evaluation, bestMove)
      let beta' := min beta ev.1
      if ev.1 ≤ alpha then (result.1, ev.2, ev.1)
      else
        minimaxRobberLoop keyFn copTransitions robberTransitions timeUp result.1
          copPositions rest childDepth alpha beta' ev.1 ev.2
termination_by ((6 * childDepth + 1).toNat + 1, successors.length)
decreasing_by
  · simp_wf
    apply Prod.Lex.left
    simp [minimaxWeight]
    omega
  · simp_wf
    apply Prod.Lex.right
    omega

end

/-- Writing to a key that `__contains__` reports absent (no entry, or an
entry of strictly smaller depth) always installs the new entry, and the
lookup the search returns afterwards yields exactly the new move and
evaluation. -/
theorem zobristGetItem_setItem_of_not_contains (table : Nat → Option ZEntry)
    (key : Nat) (depth : Int) (move : ZMove) (evaluation : ℚ)
    (h : zobristContains table key depth = false) :
    zobristGetItem (zobristSetItem table key depth move evaluation) key =
      (move, evaluation) := by
  unfold zobristContains at h
  unfold zobristGetItem zobristSetItem
  cases htab : table key with
  | none => simp [htab]
  | some prior =>
      rw [htab] at h
      have hlt : prior.1 < depth := by
        by_contra hge
        simp [decide_eq_true_eq] at h
        omega
      simp [htab, ZEntry.depth, hlt]

/-- C5: on a state whose hash key has no transposition entry of depth at
least `remaining_depth`, `minimax_alpha_beta` returns the stay-in-place
move with value 1 when the robber stands on a cop position, and the
stay-in-place move with value 0 when the state is not terminal and the
remaining depth is at most 0 — whatever `alpha` and `beta` are. -/
theorem minimaxAlphaBeta_leaf (keyFn : List Nat → Nat → Bool → Nat)
    (copTransitions : List Nat → Nat → List (List Nat))
    (robberTransitions : List Nat → Nat → List Nat)
    (timeUp : List Nat → Nat → Bool → Int → Bool)
    (table : Nat → Option ZEntry) (copPositions : List Nat)
    (robberPosition : Nat) (copTurn : Bool) (remainingDepth : Int)
    (alpha beta : ℚ)
    (hnc : zobristContains table
      (keyFn copPositions robberPosition copTurn) remainingDepth = false) :
    (robberPosition ∈ copPositions →
      (minimaxAlphaBeta keyFn copTransitions robberTransitions timeUp table
          copPositions robberPosition copTurn remainingDepth alpha beta).2 =
        (if copTurn then ZMove.cops copPositions else ZMove.robber robberPosition,
          (1 : ℚ))) ∧
    (robberPosition ∉ copPositions → remainingDepth ≤ 0 →
      (minimaxAlphaBeta keyFn copTransitions robberTransitions timeUp table
          copPositions robberPosition copTurn remainingDepth alpha beta).2 =
        (if copTurn then ZMove.cops copPositions else ZMove.robber robberPosition,
          (0 : ℚ))) := by
  constructor
  · intro hmem
    have hterm : isTerminal copPositions robberPosition = true := by
      simp [isTerminal, hmem]
    rw [minimaxAlphaBeta]
    simp only [hnc, Bool.false_eq_true, if_false, hterm, true_or, dif_pos,
      if_true]
    rw [zobristGetItem_setItem_of_not_contains _ _ _ _ _ hnc]
  · intro hmem hdepth
    have hterm : isTerminal copPositions robberPosition = false := by
      simp [isTerminal, hmem]
    rw [minimaxAlphaBeta]
    simp only [hnc, Bool.false_eq_true, if_false, hterm, hdepth, or_true,
      dif_pos, if_true]
    rw [zobristGetItem_setItem_of_not_contains _ _ _ _ _ hnc]

/-- Witness for C5 at concrete inputs: with an empty table, a terminal state
(robber on a cop node) evaluates to 1 and a depth-0 non-terminal state to 0,
both with the stay-in-place move, at bounds `alpha = 1/4`, `beta = 3/4`. -/
theorem minimaxAlphaBeta_leaf_witness :
    zobristContains (fun _ => none) 0 3 = false ∧
      ((2 : Nat) ∈ [2, 5] ∧
        (minimaxAlphaBeta (fun _ _ _ => 0) (fun _ _ => []) (fun _ _ => [])
            (fun _ _ _ _ => false) (fun _ => none) [2, 5] 2 true 3
            (1 / 4) (3 / 4)).2 = (ZMove.cops [2, 5], 1)) ∧
      ((4 : Nat) ∉ [2, 5] ∧ (0 : Int) ≤ 0 ∧
        (minimaxAlphaBeta (fun _ _ _ => 0) (fun _ _ => []) (fun _ _ => [])
            (fun _ _ _ _ => false) (fun _ => none) [2, 5] 4 false 0
            (1 / 4) (3 / 4)).2 = (ZMove.robber 4, 0)) := by
  refine ⟨rfl, ⟨by decide, ?_⟩, ⟨by decide, le_refl 0, ?_⟩⟩
  · exact (minimaxAlphaBeta_leaf (fun _ _ _ => 0) (fun _ _ => []) (fun _ _ => [])
      (fun _ _ _ _ => false) (fun _ => none) [2, 5] 2 true 3 (1 / 4) (3 / 4)
      rfl).1 (by decide)
  · exact (minimaxAlphaBeta_leaf (fun _ _ _ => 0) (fun _ _ => []) (fun _ _ => [])
      (fun _ _ _ _ => false) (fun _ => none) [2, 5] 4 false 0 (1 / 4) (3 / 4)
      rfl).2 (by decide) (le_refl 0)

/-! ### Cop allocation over components (`src/engine/cops.py` lines 54-74)

A component is represented by its index in `self.components`; `sizes`
lists the node counts and `props` the proportions from
`component_cop_distribution` (normalised demands, so they are nonnegative
and sum to 1).  Python's stable `sorted` by one key coincides with sorting
by the key paired lexicographically with the list position. -/

/-- The stable ascending-size order used by `sorted(self.components,
key=lambda c: c.graph.number_of_nodes())`. -/
def sizeOrder (sizes : List Nat) (i j : Nat) : Prop :=
  sizes.getD i 0 < sizes.getD j 0 ∨ (sizes.getD i 0 = sizes.getD j 0 ∧ i ≤ j)

/-- The stable descending-proportion order used by
`nlargest(n_remaining_cops, self.components, key=self.cop_distribution.get)`. -/
def propOrder (props : List ℚ) (i j : Nat) : Prop :=
  props.getD j 0 < props.getD i 0 ∨ (props.getD i 0 = props.getD j 0 ∧ i ≤ j)

instance (sizes : List Nat) : DecidableRel (sizeOrder sizes) := fun i j => by
  unfold sizeOrder; infer_instance

instance (props : List ℚ) : DecidableRel (propOrder props) := fun i j => by
  unfold propOrder; infer_instance

instance (sizes : List Nat) : IsTotal Nat (sizeOrder sizes) where
  total i j := by unfold sizeOrder; omega

instance (sizes : List Nat) : IsTrans Nat (sizeOrder sizes) where
  trans i j k hij hjk := by
    unfold sizeOrder at *; omega

instance (props : List ℚ) : IsTotal Nat (propOrder props) where
  total i j := by
    unfold propOrder
    rcases lt_trichotomy (props.getD i 0) (props.getD j 0) with h | h | h
    · exact Or.inr (Or.inl h)
    · rcases Nat.le_total i j with hij | hij
      · exact Or.inl (Or.inr ⟨h, hij⟩)
      · exact Or.inr (Or.inr ⟨h.symm, hij⟩)
    · exact Or.inl (Or.inl h)

instance (props : List ℚ) : IsTrans Nat (propOrder props) where
  trans i j k hij hjk := by
    unfold propOrder at *
    rcases hij with h | ⟨he, hi⟩ <;> rcases hjk with h2 | ⟨he2, hi2⟩
    · exact Or.inl (h2.trans h)
    · exact Or.inl (he2 ▸ h)
    · exact Or.inl (he ▸ h2)
    · exact Or.inr ⟨he.trans he2, hi.trans hi2⟩

/-- The cop-allocation computation of `Cops.__init__` (`src/engine/cops.py`
lines 54-74), per component index, in the order of `self.components`.

* With fewer cops than components, one cop goes to each of the
  `cops_count` smallest components (stable ascending sort by node count).
* Otherwise every component starts with one cop, receives
  `math.floor(n_remaining_cops * proportion)` more, and the left-over cops
  go one each to the `nlargest` components by proportion. -/
def copAllocation (sizes : List Nat) (props : List ℚ) (copsCount : Nat) :
    List ℤ :=
  let n := sizes.length
  if copsCount < n then
    let sortedIdx := (List.range n).insertionSort (sizeOrder sizes)
    (List.range n).map (fun i => if i ∈ sortedIdx.take copsCount then (1 : ℤ) else 0)
  else
    let m : ℤ := (copsCount : ℤ) - n
    let base : Nat → ℤ := fun i => 1 + ⌊(m : ℚ) * props.getD i 0⌋
    let remaining : ℤ := (copsCount : ℤ) - ((List.range n).map base).sum
    let fillIdx := ((List.range n).insertionSort (propOrder props)).take remaining.toNat
    (List.range n).map (fun i => base i + if i ∈ fillIdx then 1 else 0)

theorem list_map_range_sum {M : Type} [AddCommMonoid M] (f : Nat → M) (n : Nat) :
    ((List.range n).map f).sum = ∑ i in Finset.range n, f i := by
  induction n with
  | zero => rfl
  | succ k ih =>
      rw [List.range_succ, List.map_append, List.sum_append,
        Finset.sum_range_succ, ih]
      simp

theorem list_sum_eq_range_getD (l : List ℚ) :
    ∑ i in Finset.range l.length, l.getD i 0 = l.sum := by
  induction l with
  | nil => rfl
  | cons a t ih =>
      rw [List.sum_cons, List.length_cons, Finset.sum_range_succ']
      simp only [List.getD_cons_succ, List.getD_cons_zero, ih]
      ring

theorem sum_indicator_take {l t : List Nat} (hperm : t.Perm l)
    (hnodup : l.Nodup) (k : Nat) :
    (l.map (fun i => if i ∈ t.take k then (1 : ℤ) else 0)).sum =
      (t.take k).length := by
  have hnd : t.Nodup := hperm.nodup_iff.mpr hnodup
  have hsum : ∀ (l' : List Nat), l'.Nodup →
      (l'.map (fun i => if i ∈ t.take k then (1 : ℤ) else 0)).sum =
        ((l'.filter (fun i => i ∈ t.take k)).length : ℤ) := by
    intro l' hl'
    induction l' with
    | nil => rfl
    | cons a rest ih =>
        have hrest : rest.Nodup := (List.nodup_cons.mp hl').2
        by_cases hmem : a ∈ t.take k
        · simp [hmem, ih hrest, List.filter_cons]
          ring
        · simp [hmem, ih hrest, List.filter_cons]
  rw [hsum l hnodup]
  have hfilterperm : (l.filter (fun i => i ∈ t.take k)).Perm
      (t.filter (fun i => i ∈ t.take k)) := (hperm.filter _).symm
  have hsplit : t.filter (fun i => decide (i ∈ t.take k)) =
      (t.take k).filter (fun i => decide (i ∈ t.take k)) ++
        (t.drop k).filter (fun i => decide (i ∈ t.take k)) := by
    rw [← List.filter_append, List.take_append_drop]
  have h1 : (t.take k).filter (fun i => decide (i ∈ t.take k)) = t.take k := by
    apply List.filter_eq_self.mpr
    intro x hx; simpa using hx
  have h2 : (t.drop k).filter (fun i => decide (i ∈ t.take k)) = [] := by
    apply List.filter_eq_nil_iff.mpr
    intro x hx
    have hdisj := List.disjoint_take_drop (l := t) hnd (le_refl k)
    simp only [decide_eq_true_eq]
    exact fun hmem => hdisj hmem hx
  have hlen : (l.filter (fun i => decide (i ∈ t.take k))).length =
      (t.take k).length := by
    rw [hfilterperm.length_eq, hsplit, h1, h2, List.length_append,
      List.length_nil, Nat.add_zero]
  exact_mod_cast hlen

theorem map_range_getD {M : Type} [Inhabited M] (g : Nat → M) {i n : Nat}
    (h : i < n) (d : M) : (((List.range n).map g).getD i d) = g i := by
  rw [List.getD_eq_getElem?_getD, List.getElem?_map, List.getElem?_range h]
  rfl

/-- C9 counterexample: with proportions `[1/2, 3/10, 1/5]` and 12 cops over
3 components, 9 cops remain after the one-per-component base; the floors
give `[4, 2, 1]` and two cops are left over.  Component 2 has the strictly
largest fractional remainder (0.8), yet the code hands the left-over cops
to components 0 and 1 — the largest proportions — so the result is
`[6, 4, 2]` and not the biggest-remainder fill `[5, 4, 3]`. -/
theorem copAllocation_remainder_fill_false :
    copAllocation [10, 6, 4] [1/2, 3/10, 1/5] 12 = [6, 4, 2] ∧
      Int.fract ((9 : ℚ) * (1/2)) < Int.fract ((9 : ℚ) * (1/5)) ∧
      Int.fract ((9 : ℚ) * (3/10)) < Int.fract ((9 : ℚ) * (1/5)) ∧
      (copAllocation [10, 6, 4] [1/2, 3/10, 1/5] 12).getD 2 0 ≠
        1 + ⌊(9 : ℚ) * (1/5)⌋ + 1 := by
  have heval : copAllocation [10, 6, 4] [1/2, 3/10, 1/5] 12 = [6, 4, 2] := by
    norm_num [copAllocation, propOrder, List.insertionSort, List.orderedInsert,
      List.range_succ, List.getD, List.getElem?_cons]
    decide
  refine ⟨heval, by norm_num [Int.fract], by norm_num [Int.fract], ?_⟩
  rw [heval]
  norm_num [List.getD]

theorem take_mem_cross {α : Type} {r : α → α → Prop} {S : List α} (k : Nat)
    (hsort : List.Pairwise r S) {x y : α} (hx : x ∈ S.take k)
    (hy : y ∈ S.drop k) : r x y := by
  rw [← List.take_append_drop k S] at hsort
  exact (List.pairwise_append.mp hsort).2.2 x hx y hy

/-- C9 (amended): in `Cops.__init__`, with at least as many cops as
components, every component receives at least one cop and the assignments
sum to exactly `cops_count`; after the one-per-component base and the
proportional floors, the left-over cops go one each to the components with
the *largest proportions* (stable order, not the largest fractional
remainders).  With fewer cops than components, the assignments are 0/1,
sum to `cops_count`, and every component that receives a cop precedes every
component that does not in the stable ascending-size order. -/
theorem copAllocation_amended (sizes : List Nat) (props : List ℚ)
    (copsCount : Nat) (hlen : props.length = sizes.length)
    (hsum : props.sum = 1) (hpos : ∀ p ∈ props, 0 ≤ p)
    (hn : 1 ≤ sizes.length) :
    (sizes.length ≤ copsCount →
      (copAllocation sizes props copsCount).sum = copsCount ∧
      (∀ x ∈ copAllocation sizes props copsCount, 1 ≤ x) ∧
      (∀ i j, i < sizes.length → j < sizes.length →
        (copAllocation sizes props copsCount).getD i 0 =
          2 + ⌊((copsCount : ℤ) - sizes.length : ℤ) * (props.getD i 0 : ℚ)⌋ →
        (copAllocation sizes props copsCount).getD j 0 =
          1 + ⌊((copsCount : ℤ) - sizes.length : ℤ) * (props.getD j 0 : ℚ)⌋ →
        propOrder props i j)) ∧
    (copsCount < sizes.length →
      (copAllocation sizes props copsCount).sum = copsCount ∧
      (∀ x ∈ copAllocation sizes props copsCount, x = 0 ∨ x = 1) ∧
      (∀ i j, i < sizes.length → j < sizes.length →
        (copAllocation sizes props copsCount).getD i 0 = 1 →
        (copAllocation sizes props copsCount).getD j 0 = 0 →
        sizeOrder sizes i j)) := by
  set n := sizes.length with hn_def
  constructor
  · -- at least as many cops as components
    intro hc
    have hnotlt : ¬ copsCount < n := not_lt.mpr hc
    set m : ℤ := (copsCount : ℤ) - n with hm_def
    set base : Nat → ℤ := fun i => 1 + ⌊(m : ℚ) * props.getD i 0⌋ with hbase_def
    set S := (List.range n).insertionSort (propOrder props) with hS_def
    set B : ℤ := ((List.range n).map base).sum with hB_def
    set rem : ℤ := (copsCount : ℤ) - B with hrem_def
    set fill := S.take rem.toNat with hfill_def
    have hresult : copAllocation sizes props copsCount =
        (List.range n).map (fun i => base i + if i ∈ fill then 1 else 0) := by
      rw [copAllocation]
      simp only [← hn_def, hnotlt, if_false]
    have hSperm : S.Perm (List.range n) := List.perm_insertionSort _ _
    have hSlen : S.length = n := hSperm.length_eq.trans (List.length_range n)
    set F : ℤ := ∑ i in Finset.range n, ⌊(m : ℚ) * props.getD i 0⌋ with hF_def
    have hB : B = n + F := by
      rw [hB_def, list_map_range_sum, hbase_def]
      rw [Finset.sum_add_distrib, Finset.sum_const, Finset.card_range]
      simp [hF_def]
    have hpropsum : ∑ i in Finset.range n, props.getD i 0 = 1 := by
      have := list_sum_eq_range_getD props
      rw [hlen, hsum] at this
      exact this
    have hgetD_nonneg : ∀ i, (0 : ℚ) ≤ props.getD i 0 := by
      intro i
      by_cases hi : i < props.length
      · exact hpos _ (List.getD_eq_getElem props 0 hi ▸ List.getElem_mem hi)
      · rw [List.getD_eq_default props 0 (not_lt.mp hi)]
    have hm_nonneg : (0 : ℤ) ≤ m := by
      have : (n : ℤ) ≤ (copsCount : ℤ) := by exact_mod_cast hc
      rw [hm_def]; omega
    have hF_le : F ≤ m := by
      have hq : (F : ℚ) ≤ (m : ℚ) := by
        rw [hF_def]
        push_cast
        calc ∑ i in Finset.range n, (⌊(m : ℚ) * props.getD i 0⌋ : ℚ)
            ≤ ∑ i in Finset.range n, (m : ℚ) * props.getD i 0 :=
              Finset.sum_le_sum fun i _ => Int.floor_le _
          _ = (m : ℚ) * ∑ i in Finset.range n, props.getD i 0 := by
              rw [Finset.mul_sum]
          _ = (m : ℚ) := by rw [hpropsum, mul_one]
      exact_mod_cast hq
    have hmF_lt : m - F < n := by
      have hq : ((m - F : ℤ) : ℚ) < (n : ℚ) := by
        push_cast
        rw [hF_def]
        push_cast
        have hrw : (m : ℚ) - ∑ i in Finset.range n, (⌊(m : ℚ) * props.getD i 0⌋ : ℚ)
            = ∑ i in Finset.range n,
                ((m : ℚ) * props.getD i 0 - ⌊(m : ℚ) * props.getD i 0⌋) := by
          rw [Finset.sum_sub_distrib, ← Finset.mul_sum, hpropsum, mul_one]
        rw [hrw]
        calc ∑ i in Finset.range n,
              ((m : ℚ) * props.getD i 0 - ⌊(m : ℚ) * props.getD i 0⌋)
            < ∑ _i in Finset.range n, (1 : ℚ) := by
              apply Finset.sum_lt_sum_of_nonempty
              · exact Finset.nonempty_range_iff.mpr (by omega)
              · intro i _
                have := Int.fract_lt_one ((m : ℚ) * props.getD i 0)
                rw [Int.fract] at this
                exact this
          _ = (n : ℚ) := by rw [Finset.sum_const, Finset.card_range]; simp
      exact_mod_cast hq
    have hrem : rem = m - F := by
      rw [hrem_def, hB, hm_def]; ring
    have hrem_nonneg : 0 ≤ rem := by omega
    have hrem_lt : rem < n := by omega
    have hfill_len : (fill.length : ℤ) = rem := by
      rw [hfill_def, List.length_take, hSlen]
      have : rem.toNat ≤ n := by omega
      rw [min_eq_left this]
      omega
    have hrangeNodup : (List.range n).Nodup := List.nodup_range n
    refine ⟨?_, ?_, ?_⟩
    · -- the assignments sum to cops_count
      rw [hresult]
      have hsplit : ((List.range n).map
          (fun i => base i + if i ∈ fill then 1 else 0)).sum =
          ((List.range n).map base).sum +
            ((List.range n).map (fun i => if i ∈ fill then (1 : ℤ) else 0)).sum := by
        rw [list_map_range_sum, list_map_range_sum, list_map_range_sum,
          Finset.sum_add_distrib]
      rw [hsplit, hfill_def, sum_indicator_take hSperm hrangeNodup rem.toNat,
        ← hfill_def, ← hB_def, hfill_len]
      omega
    · -- every component receives at least one cop
      intro x hx
      rw [hresult] at hx
      obtain ⟨i, _, hxi⟩ := List.mem_map.mp hx
      have hfloor_nonneg : (0 : ℤ) ≤ ⌊(m : ℚ) * props.getD i 0⌋ :=
        Int.floor_nonneg.mpr (mul_nonneg (by exact_mod_cast hm_nonneg)
          (hgetD_nonneg i))
      rw [← hxi, hbase_def]
      dsimp only
      split <;> omega
    · -- the left-over cops go to the largest proportions
      intro i j hi hj hgi hgj
      have hgi' : (copAllocation sizes props copsCount).getD i 0 =
          base i + if i ∈ fill then 1 else 0 := by
        rw [hresult, map_range_getD _ hi]
      have hgj' : (copAllocation sizes props copsCount).getD j 0 =
          base j + if j ∈ fill then 1 else 0 := by
        rw [hresult, map_range_getD _ hj]
      have hbi : base i = 1 + ⌊(m : ℚ) * props.getD i 0⌋ := by
        simp only [hbase_def]
      have hbj : base j = 1 + ⌊(m : ℚ) * props.getD j 0⌋ := by
        simp only [hbase_def]
      have hiFill : i ∈ fill := by
        by_contra hnot
        rw [hgi', hbi, if_neg hnot] at hgi
        omega
      have hjFill : j ∉ fill := by
        intro hmem
        rw [hgj', hbj, if_pos hmem] at hgj
        omega
      have hjS : j ∈ S := hSperm.mem_iff.mpr (List.mem_range.mpr hj)
      have hjDrop : j ∈ S.drop rem.toNat := by
        rcases (List.mem_append.mp ((List.take_append_drop rem.toNat S) ▸ hjS))
          with h | h
        · exact absurd h (hfill_def ▸ hjFill)
        · exact h
      have hsort : List.Pairwise (propOrder props) S :=
        List.sorted_insertionSort (propOrder props) (List.range n)
      exact take_mem_cross rem.toNat hsort (hfill_def ▸ hiFill) hjDrop
  · -- fewer cops than components
    intro hc
    set S := (List.range n).insertionSort (sizeOrder sizes) with hS_def
    set picked := S.take copsCount with hpicked_def
    have hresult : copAllocation sizes props copsCount =
        (List.range n).map (fun i => if i ∈ picked then (1 : ℤ) else 0) := by
      rw [copAllocation]
      simp only [← hn_def, hc, if_true]
    have hSperm : S.Perm (List.range n) := List.perm_insertionSort _ _
    have hSlen : S.length = n := hSperm.length_eq.trans (List.length_range n)
    have hrangeNodup : (List.range n).Nodup := List.nodup_range n
    refine ⟨?_, ?_, ?_⟩
    · rw [hresult, hpicked_def, sum_indicator_take hSperm hrangeNodup copsCount]
      rw [List.length_take, hSlen, min_eq_left (le_of_lt hc)]
    · intro x hx
      rw [hresult] at hx
      obtain ⟨i, _, hxi⟩ := List.mem_map.mp hx
      rw [← hxi]
      split <;> simp
    · intro i j hi hj hgi hgj
      have hgi' : (copAllocation sizes props copsCount).getD i 0 =
          if i ∈ picked then (1 : ℤ) else 0 := by
        rw [hresult, map_range_getD _ hi]
      have hgj' : (copAllocation sizes props copsCount).getD j 0 =
          if j ∈ picked then (1 : ℤ) else 0 := by
        rw [hresult, map_range_getD _ hj]
      have hiPick : i ∈ picked := by
        by_contra hnot
        rw [hgi', if_neg hnot] at hgi
        omega
      have hjPick : j ∉ picked := by
        intro hmem
        rw [hgj', if_pos hmem] at hgj
        omega
      have hjS : j ∈ S := hSperm.mem_iff.mpr (List.mem_range.mpr hj)
      have hjDrop : j ∈ S.drop copsCount := by
        rcases (List.mem_append.mp ((List.take_append_drop copsCount S) ▸ hjS))
          with h | h
        · exact absurd h (hpicked_def ▸ hjPick)
        · exact h
      have hsort : List.Pairwise (sizeOrder sizes) S :=
        List.sorted_insertionSort (sizeOrder sizes) (List.range n)
      exact take_mem_cross copsCount hsort (hpicked_def ▸ hiPick) hjDrop

/-- Witness for C9 (amended) at a concrete input: three components of sizes
`[10, 6, 4]`, proportions `[1/2, 3/10, 1/5]`, and 12 cops. -/
theorem copAllocation_amended_witness :
    ([1/2, 3/10, 1/5] : List ℚ).length = ([10, 6, 4] : List Nat).length ∧
      ([1/2, 3/10, 1/5] : List ℚ).sum = 1 ∧
      (copAllocation [10, 6, 4] [1/2, 3/10, 1/5] 12).sum = 12 := by
  refine ⟨rfl, by norm_num, ?_⟩
  exact ((copAllocation_amended [10, 6, 4] [1/2, 3/10, 1/5] 12 rfl (by norm_num)
    (by intro p hp; fin_cases hp <;> norm_num) (by norm_num)).1
    (by norm_num)).1

/-! ### Graphs

A networkx `Graph` is embedded as a node list and an edge list; neighbours
are read off the edge list, and adjacency is the symmetric closure of edge
membership. -/

/-- A finite undirected graph: the node list and the edge list it was built
from. -/
structure SGraph where
  nodes : List Nat
  edges : List (Nat × Nat)
deriving DecidableEq, Repr

/-- `graph.neighbors(v)`: the other endpoints of the edges incident to
`v`, in edge-list order. -/
def SGraph.neighbors (g : SGraph) (v : Nat) : List Nat :=
  g.edges.filterMap (fun e =>
    if e.1 = v then some e.2 else if e.2 = v then some e.1 else none)

/-- `graph.has_edge(u, v)` as a relation (symmetric by construction). -/
def SGraph.Adj (g : SGraph) (u v : Nat) : Prop :=
  (u, v) ∈ g.edges ∨ (v, u) ∈ g.edges

instance (g : SGraph) : DecidableRel g.Adj := fun u v => by
  unfold SGraph.Adj; infer_instance

theorem SGraph.adj_symm {g : SGraph} {u v : Nat} (h : g.Adj u v) : g.Adj v u :=
  h.elim Or.inr Or.inl

theorem SGraph.mem_neighbors {g : SGraph} {u v : Nat} :
    v ∈ g.neighbors u ↔ g.Adj u v := by
  unfold SGraph.neighbors SGraph.Adj
  rw [List.mem_filterMap]
  constructor
  · rintro ⟨⟨a, b⟩, hmem, hval⟩
    dsimp only at hval
    by_cases ha : a = u
    · rw [if_pos ha] at hval
      obtain rfl := Option.some_injective _ hval
      exact Or.inl (ha ▸ hmem)
    · rw [if_neg ha] at hval
      by_cases hb : b = u
      · rw [if_pos hb] at hval
        obtain rfl := Option.some_injective _ hval
        exact Or.inr (hb ▸ hmem)
      · rw [if_neg hb] at hval
        exact absurd hval (Option.noConfusion)
  · rintro (h | h)
    · exact ⟨(u, v), h, by simp⟩
    · refine ⟨(v, u), h, ?_⟩
      dsimp only
      by_cases hvu : v = u
      · rw [if_pos hvu, hvu]
      · rw [if_neg hvu, if_pos rfl]

/-- Reachability along edges. -/
def SGraph.Reaches (g : SGraph) (u v : Nat) : Prop :=
  Relation.ReflTransGen g.Adj u v

/-! ### Contour expansion (`src/engine/modules/minimax/engine.py` lines
10-57)

`effective_game_graph` is a generator; its sequence of yields is embedded
as a list.  Each yielded pair is the node set of the yielded sub-graph
(`graph.subgraph(visited_nodes | next_contour)`) and the yielded
`hidden_cops` set.  The `while contour` loop increments `radius` every
iteration and stops once `radius > max_radius`, so it is structural in the
number of radii still allowed (`left = max_radius - radius + 1`). -/

def effectiveGameGraphLoop (g : SGraph) :
    Finset Nat → Finset Nat → Finset Nat → Nat → List (Finset Nat × Finset Nat)
  | _, _, _, 0 => []
  | contour, visited, hiddenCops, left + 1 =>
    if contour = ∅ then []
    else
      let visited' := visited ∪ contour
      let nextContour := contour.biUnion (fun node =>
        ((g.neighbors node).filter (fun w => w ∉ visited')).toFinset)
      let newlyFoundCops := hiddenCops ∩ nextContour
      if newlyFoundCops = ∅ then
        effectiveGameGraphLoop g nextContour visited' hiddenCops left
      else
        let hidden' := hiddenCops \ newlyFoundCops
        (visited' ∪ nextContour, hidden') ::
          effectiveGameGraphLoop g nextContour visited' hidden' left

/-- `effective_game_graph` (`engine.py` lines 10-57).  Note the source
initialises `hidden_cops = set(range(n_cops)) - contour`: a set of cop
*indices*, from which the robber's *node* is removed, and which is later
intersected with contours of *node* identifiers. -/
def effectiveGameGraph (g : SGraph) (copPositions : List Nat)
    (robberPosition : Nat) (maxRadius : Nat) : List (Finset Nat × Finset Nat) :=
  let hiddenCops := (Finset.range copPositions.length) \ {robberPosition}
  effectiveGameGraphLoop g {robberPosition} ∅ hiddenCops (maxRadius + 1)

/-- C3 is a code bug: on the path `10 — 11 — 12` with the single cop on
node 12 and the robber on node 10, the growing frontier absorbs the cop's
position at radius 2, yet the generator never yields, because it compares
the cop index 0 against node identifiers.  Conversely, on the path
`0 — 1 — 2 — 3 — 4 — 5` with the single cop on node 5 and the robber on
node 1, the generator yields the radius-1 sub-graph `{0, 1, 2}` with an
empty hidden-cop set — no cop position was absorbed, and the yielded set
fails to name cop 0, whose position 5 lies outside the sub-graph. -/
theorem effectiveGameGraph_index_bug :
    effectiveGameGraph ⟨[10, 11, 12], [(10, 11), (11, 12)]⟩ [12] 10 10 = [] ∧
      effectiveGameGraph ⟨[0, 1, 2, 3, 4, 5],
          [(0, 1), (1, 2), (2, 3), (3, 4), (4, 5)]⟩ [5] 1 10 =
        [({0, 1, 2}, ∅)] ∧
      (5 : Nat) ∉ ({0, 1, 2} : Finset Nat) := by
  refine ⟨by decide, by decide, by decide⟩

/-! ### Penalised A-star pursuit (`src/engine/modules/util/search.py`)

`penalty_astar` calls the library routine `networkx.astar_path` with unit
edge weights and the penalty dictionary as heuristic.  The library routine
is modelled here after its documented behaviour and implementation: a
best-first search over a `heapq` priority queue of entries
`(dist + h, push_counter, node, dist, parent)` (so pops follow the
`(priority, counter)` lexicographic minimum), with an `enqueued` map
recording the cheapest cost pushed per node, an `explored` map recording
parents, re-expansion allowed when a cheaper path appears, and the path
reconstructed through the parent map on reaching the target.  The `heapq`
heap is embedded as the list of live entries with a minimum-extraction
function, and the search loop recurses on a lexicographic measure instead
of Python's unbounded `while`. -/

/-- A priority-queue entry `(priority, counter, node, dist, parent)`. -/
structure AEntry where
  f : Nat
  c : Nat
  node : Nat
  dist : Nat
  parent : Option Nat
deriving DecidableEq, Repr

/-- `heapq` pop order: priority first, push counter as tie break. -/
def AEntry.before (a b : AEntry) : Bool :=
  a.f < b.f || (a.f = b.f && a.c ≤ b.c)

/-- Extract the entry that `heappop` would return: the `(f, c)`-least one
(push counters are distinct, so this is unambiguous). -/
def popMin : List AEntry → Option (AEntry × List AEntry)
  | [] => none
  | e :: rest =>
      match popMin rest with
      | none => some (e, [])
      | some (m, rest') =>
          if e.before m then some (e, rest) else some (m, e :: rest')

theorem popMin_none_iff (l : List AEntry) : popMin l = none ↔ l = [] := by
  cases l with
  | nil => simp [popMin]
  | cons e rest =>
      simp only [popMin]
      constructor
      · intro h
        cases hrest : popMin rest with
        | none => rw [hrest] at h; exact absurd h (by simp)
        | some p =>
            rw [hrest] at h
            obtain ⟨m, rest'⟩ := p
            by_cases hb : e.before m <;> simp [hb] at h
      · intro h; exact absurd h (by simp)

theorem popMin_length {l : List AEntry} {e : AEntry} {rest : List AEntry}
    (h : popMin l = some (e, rest)) : l.length = rest.length + 1 := by
  induction l generalizing e rest with
  | nil => exact absurd h (by simp [popMin])
  | cons a tail ih =>
      simp only [popMin] at h
      cases htail : popMin tail with
      | none =>
          rw [htail] at h
          obtain rfl : tail = [] := (popMin_none_iff tail).mp htail
          obtain ⟨rfl, rfl⟩ := Prod.mk.injEq .. ▸ (Option.some_injective _ h)
          rfl
      | some p =>
          obtain ⟨m, rest'⟩ := p
          rw [htail] at h
          dsimp only at h
          by_cases hb : a.before m
          · rw [if_pos hb] at h
            obtain ⟨rfl, rfl⟩ := Prod.mk.injEq .. ▸ (Option.some_injective _ h)
            rfl
          · rw [if_neg hb] at h
            obtain ⟨rfl, rfl⟩ := Prod.mk.injEq .. ▸ (Option.some_injective _ h)
            simp [List.length_cons, ih htail]

theorem popMin_mem {l : List AEntry} {e : AEntry} {rest : List AEntry}
    (h : popMin l = some (e, rest)) : e ∈ l := by
  induction l generalizing e rest with
  | nil => exact absurd h (by simp [popMin])
  | cons a tail ih =>
      simp only [popMin] at h
      cases htail : popMin tail with
      | none =>
          rw [htail] at h
          obtain ⟨rfl, rfl⟩ := Prod.mk.injEq .. ▸ (Option.some_injective _ h)
          exact List.mem_cons_self a tail
      | some p =>
          obtain ⟨m, rest'⟩ := p
          rw [htail] at h
          dsimp only at h
          by_cases hb : a.before m
          · rw [if_pos hb] at h
            obtain ⟨rfl, rfl⟩ := Prod.mk.injEq .. ▸ (Option.some_injective _ h)
            exact List.mem_cons_self a tail
          · rw [if_neg hb] at h
            obtain ⟨rfl, rfl⟩ := Prod.mk.injEq .. ▸ (Option.some_injective _ h)
            exact List.mem_cons_of_mem a (ih htail)

theorem popMin_rest_subset {l : List AEntry} {e : AEntry} {rest : List AEntry}
    (h : popMin l = some (e, rest)) : ∀ x ∈ rest, x ∈ l := by
  induction l generalizing e rest with
  | nil => exact absurd h (by simp [popMin])
  | cons a tail ih =>
      simp only [popMin] at h
      cases htail : popMin tail with
      | none =>
          rw [htail] at h
          obtain ⟨rfl, rfl⟩ := Prod.mk.injEq .. ▸ (Option.some_injective _ h)
          intro x hx; exact absurd hx (by simp)
      | some p =>
          obtain ⟨m, rest'⟩ := p
          rw [htail] at h
          dsimp only at h
          by_cases hb : a.before m
          · rw [if_pos hb] at h
            obtain ⟨rfl, rfl⟩ := Prod.mk.injEq .. ▸ (Option.some_injective _ h)
            intro x hx; exact List.mem_cons_of_mem a hx
          · rw [if_neg hb] at h
            obtain ⟨rfl, rfl⟩ := Prod.mk.injEq .. ▸ (Option.some_injective _ h)
            intro x hx
            rcases List.mem_cons.mp hx with rfl | hx'
            · exact List.mem_cons_self x tail
            · exact List.mem_cons_of_mem a (ih htail x hx')

/-- The search state: live queue entries, the cheapest-cost-pushed map
`enqueued` (storing `(cost, cached heuristic)`), the parent map
`explored`, and the `heapq` push counter. -/
structure AState where
  queue : List AEntry
  enqueued : Nat → Option (Nat × Nat)
  explored : Nat → Option (Option Nat)
  counter : Nat

/-- The neighbour loop of one expansion: each neighbour is pushed with cost
`dist + 1` (unit weights) unless it was already enqueued at most as
cheaply; pushing records the new cheapest cost and the cached heuristic
value. -/
def pushNeighbors (hfun : Nat → Nat) (unode dist : Nat) :
    List Nat → (Nat → Option (Nat × Nat)) → Nat → List AEntry →
      (Nat → Option (Nat × Nat)) × Nat × List AEntry
  | [], enq, counter, queue => (enq, counter, queue)
  | n :: rest, enq, counter, queue =>
      match enq n with
      | some (qcost, h) =>
          if qcost ≤ dist + 1 then
            pushNeighbors hfun unode dist rest enq counter queue
          else
            pushNeighbors hfun unode dist rest
              (Function.update enq n (some (dist + 1, h))) (counter + 1)
              (queue ++ [⟨dist + 1 + h, counter, n, dist + 1, some unode⟩])
      | none =>
          pushNeighbors hfun unode dist rest
            (Function.update enq n (some (dist + 1, hfun n))) (counter + 1)
            (queue ++ [⟨dist + 1 + hfun n, counter, n, dist + 1, some unode⟩])

/-- Expansion of a popped entry: record its parent and push its
neighbours. -/
def astarExpand (g : SGraph) (hfun : Nat → Nat) (e : AEntry)
    (q' : List AEntry) (s : AState) : AState :=
  let explored' := Function.update s.explored e.node (some e.parent)
  let (enq', counter', queue'') :=
    pushNeighbors hfun e.node e.dist (g.neighbors e.node) s.enqueued s.counter q'
  ⟨queue'', enq', explored', counter'⟩

/-- One iteration of the `networkx.astar_path` main loop. -/
inductive AStepResult where
  | done (result : Option (List Nat))
  | next (s : AState)

/-- Walk the `explored` parent map back from a parent pointer, prepending
each node; the Python loop appends and reverses, which yields the same
list.  The fuel argument replaces Python's unbounded loop; under the
search invariant the parent chain is strictly shorter than the fuel
supplied at the return site. -/
def walkParents (explored : Nat → Option (Option Nat)) :
    Option Nat → List Nat → Nat → Option (List Nat)
  | none, acc, _ => some acc
  | some _, _, 0 => none
  | some p, acc, fuel + 1 =>
      match explored p with
      | none => none
      | some pp => walkParents explored pp (p :: acc) fuel

/-- One iteration of the search: pop the `(priority, counter)`-least entry;
return the reconstructed path on reaching the target; skip stale entries
and re-pops of the start node; otherwise expand.  An empty queue means no
path exists (`NetworkXNoPath`). -/
def astarStep (g : SGraph) (target : Nat) (hfun : Nat → Nat) (s : AState) :
    AStepResult :=
  match popMin s.queue with
  | none => .done none
  | some (e, q') =>
      if e.node = target then
        .done (walkParents s.explored e.parent [e.node] (e.dist + 1))
      else
        match s.explored e.node with
        | some parentOpt =>
            if parentOpt = none then
              .next ⟨q', s.enqueued, s.explored, s.counter⟩
            else
              match s.enqueued e.node with
              | some (qcost, _) =>
                  if qcost < e.dist then
                    .next ⟨q', s.enqueued, s.explored, s.counter⟩
                  else .next (astarExpand g hfun e q' s)
              | none => .next (astarExpand g hfun e q' s)
        | none => .next (astarExpand g hfun e q' s)

/-- Nodes that can ever be enqueued: the graph's nodes and every edge
endpoint (the start node is pushed separately and never enters
`enqueued` through the initial push). -/
def carrier (g : SGraph) : List Nat :=
  (g.nodes ++ g.edges.flatMap (fun e => [e.1, e.2])).dedup

theorem neighbors_subset_carrier (g : SGraph) (u : Nat) :
    ∀ n ∈ g.neighbors u, n ∈ carrier g := by
  intro n hn
  unfold SGraph.neighbors at hn
  rw [List.mem_filterMap] at hn
  obtain ⟨⟨a, b⟩, hmem, hval⟩ := hn
  unfold carrier
  rw [List.mem_dedup, List.mem_append]
  right
  rw [List.mem_flatMap]
  refine ⟨(a, b), hmem, ?_⟩
  dsimp only at hval ⊢
  by_cases ha : a = u
  · rw [if_pos ha] at hval
    obtain rfl := Option.some_injective _ hval
    simp
  · rw [if_neg ha] at hval
    by_cases hb : b = u
    · rw [if_pos hb] at hval
      obtain rfl := Option.some_injective _ hval
      simp
    · rw [if_neg hb] at hval
      exact absurd hval Option.noConfusion

/-- Number of carrier nodes never enqueued. -/
def measureA (g : SGraph) (s : AState) : Nat :=
  (carrier g).countP (fun v => (s.enqueued v).isNone)

/-- Total enqueued cost over the carrier nodes. -/
def measureB (g : SGraph) (s : AState) : Nat :=
  ((carrier g).map (fun v =>
    match s.enqueued v with
    | some (c, _) => c
    | none => 0)).sum

theorem countP_lt_of_flip {l : List Nat} {p q : Nat → Bool}
    (himp : ∀ a, q a = true → p a = true) {x : Nat} (hx : x ∈ l)
    (hpx : p x = true) (hqx : q x = false) : l.countP q < l.countP p := by
  induction l with
  | nil => exact absurd hx (by simp)
  | cons a rest ih =>
      rw [List.countP_cons, List.countP_cons]
      rcases List.mem_cons.mp hx with rfl | hx'
      · have hle : rest.countP q ≤ rest.countP p :=
          List.countP_mono_left (fun a _ ha => himp a ha)
        rw [if_pos hpx, if_neg (by rw [hqx]; exact Bool.false_ne_true)]
        omega
      · have hlt := ih hx'
        by_cases hqa : q a = true
        · rw [if_pos hqa, if_pos (himp a hqa)]; omega
        · rw [if_neg hqa]
          by_cases hpa : p a = true
          · rw [if_pos hpa]; omega
          · rw [if_neg hpa]; omega

theorem countP_congr_ext {l : List Nat} {p q : Nat → Bool}
    (h : ∀ a ∈ l, p a = q a) : l.countP p = l.countP q := by
  induction l with
  | nil => rfl
  | cons a rest ih =>
      rw [List.countP_cons, List.countP_cons, h a (by simp),
        ih (fun x hx => h x (List.mem_cons_of_mem a hx))]

theorem map_sum_lt_of_point {l : List Nat} (hl : l.Nodup) {f g : Nat → Nat}
    {n : Nat} (hn : n ∈ l) (hsame : ∀ v ∈ l, v ≠ n → f v = g v)
    (hlt : f n < g n) : (l.map f).sum < (l.map g).sum := by
  induction l with
  | nil => exact absurd hn (by simp)
  | cons a rest ih =>
      rw [List.map_cons, List.map_cons, List.sum_cons, List.sum_cons]
      have hrest_nd : rest.Nodup := (List.nodup_cons.mp hl).2
      rcases List.mem_cons.mp hn with rfl | hn'
      · have hna : n ∉ rest := (List.nodup_cons.mp hl).1
        have : rest.map f = rest.map g := by
          apply List.map_congr_left
          intro v hv
          exact hsame v (List.mem_cons_of_mem n hv) (fun hvn => hna (hvn ▸ hv))
        rw [this]
        omega
      · have hfa : f a = g a := by
          apply hsame a (List.mem_cons_self a rest)
          intro han
          exact (List.nodup_cons.mp hl).1 (han ▸ hn')
        have := ih hrest_nd hn'
          (fun v hv hvn => hsame v (List.mem_cons_of_mem a hv) hvn)
        omega

/-- The measure pair used for termination: enqueued-cost updates only
improve it lexicographically, and strictly when anything is pushed. -/
theorem pushNeighbors_measure (g : SGraph) (hfun : Nat → Nat)
    (unode dist : Nat) :
    ∀ (ns : List Nat) (enq : Nat → Option (Nat × Nat)) (counter : Nat)
      (queue : List AEntry), (∀ n ∈ ns, n ∈ carrier g) →
      ((carrier g).countP
          (fun v => ((pushNeighbors hfun unode dist ns enq counter queue).1 v).isNone) <
        (carrier g).countP (fun v => (enq v).isNone)) ∨
      ((carrier g).countP
          (fun v => ((pushNeighbors hfun unode dist ns enq counter queue).1 v).isNone) =
        (carrier g).countP (fun v => (enq v).isNone) ∧
        ((carrier g).map (fun v =>
          match (pushNeighbors hfun unode dist ns enq counter queue).1 v with
          | some (c, _) => c
          | none => 0)).sum <
        ((carrier g).map (fun v => match enq v with
          | some (c, _) => c
          | none => 0)).sum) ∨
      ((pushNeighbors hfun unode dist ns enq counter queue).1 = enq ∧
        (pushNeighbors hfun unode dist ns enq counter queue).2.2 = queue) := by
  intro ns
  induction ns with
  | nil =>
      intro enq counter queue _
      exact Or.inr (Or.inr ⟨rfl, rfl⟩)
  | cons n rest ih =>
      intro enq counter queue hns
      have hncar : n ∈ carrier g := hns n (by simp)
      have hrest : ∀ x ∈ rest, x ∈ carrier g :=
        fun x hx => hns x (List.mem_cons_of_mem n hx)
      cases henq : enq n with
      | some p =>
          obtain ⟨qcost, h⟩ := p
          by_cases hle : qcost ≤ dist + 1
          · have hres : pushNeighbors hfun unode dist (n :: rest) enq counter queue =
                pushNeighbors hfun unode dist rest enq counter queue := by
              simp only [pushNeighbors, henq, if_pos hle]
            rw [hres]
            exact ih enq counter queue hrest
          · have hres : pushNeighbors hfun unode dist (n :: rest) enq counter queue =
                pushNeighbors hfun unode dist rest
                  (Function.update enq n (some (dist + 1, h))) (counter + 1)
                  (queue ++ [⟨dist + 1 + h, counter, n, dist + 1, some unode⟩]) := by
              simp only [pushNeighbors, henq, if_neg hle]
            rw [hres]
            set enq₁ := Function.update enq n (some (dist + 1, h)) with henq₁
            have hA : (carrier g).countP (fun v => (enq₁ v).isNone) =
                (carrier g).countP (fun v => (enq v).isNone) := by
              apply countP_congr_ext
              intro a _
              by_cases han : a = n
              · subst han
                rw [henq₁, Function.update_same, henq]
                rfl
              · rw [henq₁, Function.update_noteq han]
            have hB : ((carrier g).map (fun v => match enq₁ v with
                | some (c, _) => c
                | none => 0)).sum <
                ((carrier g).map (fun v => match enq v with
                | some (c, _) => c
                | none => 0)).sum := by
              apply map_sum_lt_of_point (List.nodup_dedup _) hncar
              · intro v _ hvn
                rw [henq₁, Function.update_noteq hvn]
              · rw [henq₁, Function.update_same, henq]
                show dist + 1 < qcost
                omega
            rcases ih enq₁ (counter + 1)
              (queue ++ [⟨dist + 1 + h, counter, n, dist + 1, some unode⟩])
              hrest with hlt | ⟨heq, hblt⟩ | ⟨heq, _⟩
            · exact Or.inl (by omega)
            · exact Or.inr (Or.inl ⟨by omega, by omega⟩)
            · rw [heq]
              exact Or.inr (Or.inl ⟨hA, hB⟩)
      | none =>
          have hres : pushNeighbors hfun unode dist (n :: rest) enq counter queue =
              pushNeighbors hfun unode dist rest
                (Function.update enq n (some (dist + 1, hfun n))) (counter + 1)
                (queue ++ [⟨dist + 1 + hfun n, counter, n, dist + 1, some unode⟩]) := by
            simp only [pushNeighbors, henq]
          rw [hres]
          set enq₁ := Function.update enq n (some (dist + 1, hfun n)) with henq₁
          have hA : (carrier g).countP (fun v => (enq₁ v).isNone) <
              (carrier g).countP (fun v => (enq v).isNone) := by
            apply countP_lt_of_flip (x := n)
            · intro a ha
              by_cases han : a = n
              · subst han
                rw [henq₁, Function.update_same] at ha
                exact absurd ha (by simp)
              · rw [henq₁, Function.update_noteq han] at ha
                exact ha
            · exact hncar
            · rw [henq]; rfl
            · rw [henq₁, Function.update_same]; rfl
          rcases ih enq₁ (counter + 1)
            (queue ++ [⟨dist + 1 + hfun n, counter, n, dist + 1, some unode⟩])
            hrest with hlt | ⟨heq, _⟩ | ⟨heq, _⟩
          · exact Or.inl (by omega)
          · exact Or.inl (by omega)
          · rw [heq]
            exact Or.inl hA

theorem astarExpand_eq (g : SGraph) (hfun : Nat → Nat) (e : AEntry)
    (q' : List AEntry) (s : AState) :
    astarExpand g hfun e q' s =
      ⟨(pushNeighbors hfun e.node e.dist (g.neighbors e.node) s.enqueued s.counter q').2.2,
        (pushNeighbors hfun e.node e.dist (g.neighbors e.node) s.enqueued s.counter q').1,
        Function.update s.explored e.node (some e.parent),
        (pushNeighbors hfun e.node e.dist (g.neighbors e.node) s.enqueued s.counter q').2.1⟩ := by
  unfold astarExpand
  rcases pushNeighbors hfun e.node e.dist (g.neighbors e.node) s.enqueued s.counter q'
    with ⟨a, b, c⟩
  rfl

theorem astarStep_next_facts (g : SGraph) (target : Nat) (hfun : Nat → Nat)
    (s s' : AState) (h : astarStep g target hfun s = .next s') :
    measureA g s' < measureA g s ∨
      (measureA g s' = measureA g s ∧ measureB g s' < measureB g s) ∨
      (measureA g s' = measureA g s ∧ measureB g s' = measureB g s ∧
        s'.queue.length < s.queue.length) := by
  unfold astarStep at h
  cases hpop : popMin s.queue with
  | none => rw [hpop] at h; exact absurd h (by simp)
  | some p =>
      obtain ⟨e, q'⟩ := p
      rw [hpop] at h
      dsimp only at h
      have hqlen : q'.length < s.queue.length := by
        rw [popMin_length hpop]; omega
      have hexpand : astarExpand g hfun e q' s = s' →
          measureA g s' < measureA g s ∨
            (measureA g s' = measureA g s ∧ measureB g s' < measureB g s) ∨
            (measureA g s' = measureA g s ∧ measureB g s' = measureB g s ∧
              s'.queue.length < s.queue.length) := by
        intro hex
        rw [← hex, astarExpand_eq]
        rcases pushNeighbors_measure g hfun e.node e.dist (g.neighbors e.node)
          s.enqueued s.counter q' (neighbors_subset_carrier g e.node)
          with hlt | ⟨heq, hblt⟩ | ⟨heq, hqeq⟩
        · exact Or.inl hlt
        · exact Or.inr (Or.inl ⟨heq, hblt⟩)
        · refine Or.inr (Or.inr ⟨?_, ?_, ?_⟩)
          · unfold measureA
            rw [heq]
          · unfold measureB
            rw [heq]
          · dsimp only
            rw [hqeq]
            exact hqlen
      by_cases htgt : e.node = target
      · rw [if_pos htgt] at h; exact absurd h (by simp)
      · rw [if_neg htgt] at h
        cases hexp : s.explored e.node with
        | some parentOpt =>
            rw [hexp] at h
            dsimp only at h
            by_cases hpo : parentOpt = none
            · rw [if_pos hpo] at h
              obtain rfl := (AStepResult.next.injEq .. ▸ h)
              exact Or.inr (Or.inr ⟨rfl, rfl, hqlen⟩)
            · rw [if_neg hpo] at h
              cases henq : s.enqueued e.node with
              | some pq =>
                  obtain ⟨qcost, hh⟩ := pq
                  rw [henq] at h
                  dsimp only at h
                  by_cases hstale : qcost < e.dist
                  · rw [if_pos hstale] at h
                    obtain rfl := (AStepResult.next.injEq .. ▸ h)
                    exact Or.inr (Or.inr ⟨rfl, rfl, hqlen⟩)
                  · rw [if_neg hstale] at h
                    exact hexpand (AStepResult.next.injEq .. ▸ h)
              | none =>
                  rw [henq] at h
                  exact hexpand (AStepResult.next.injEq .. ▸ h)
        | none =>
            rw [hexp] at h
            exact hexpand (AStepResult.next.injEq .. ▸ h)

/-- The `while queue:` loop of `networkx.astar_path`, by well-founded
recursion on (never-enqueued carrier nodes, total enqueued cost, queue
length). -/
def astarLoop (g : SGraph) (target : Nat) (hfun : Nat → Nat) (s : AState) :
    Option (List Nat) :=
  match h : astarStep g target hfun s with
  | .done r => r
  | .next s' => astarLoop g target hfun s'
termination_by (measureA g s, measureB g s, s.queue.length)
decreasing_by
  rcases astarStep_next_facts g target hfun s s' h with hlt | ⟨ha, hb⟩ | ⟨ha, hb, hq⟩
  · exact Prod.Lex.left _ _ hlt
  · rw [ha]
    exact Prod.Lex.right _ (Prod.Lex.left _ _ hb)
  · rw [ha, hb]
    exact Prod.Lex.right _ (Prod.Lex.right _ hq)

/-- `networkx.astar_path(graph, source, target, heuristic)` with unit edge
weights: the initial queue holds `(h(source), 0, source, 0, None)`. -/
def astarPath (g : SGraph) (source target : Nat) (hfun : Nat → Nat) :
    Option (List Nat) :=
  astarLoop g target hfun
    ⟨[⟨hfun source, 0, source, 0, none⟩], fun _ => none, fun _ => none, 1⟩

/-- Invariant of the A-star search state, with an explicit ghost
"exploration depth" `D` that strictly decreases along parent pointers. -/
structure AInvD (g : SGraph) (source target : Nat) (s : AState)
    (D : Nat → Nat) : Prop where
  expl_chain : ∀ v p, s.explored v = some (some p) →
    g.Adj p v ∧ (s.explored p).isSome ∧ D p < D v
  expl_source : ∀ v, s.explored v = some none → v = source
  queue_parent_none : ∀ e ∈ s.queue, e.parent = none → e.node = source
  queue_parent_some : ∀ e ∈ s.queue, ∀ p, e.parent = some p →
    g.Adj p e.node ∧ (s.explored p).isSome ∧ D p < e.dist ∧
      (p = e.node → e.node = source)
  enq_le_D : ∀ v c h, v ≠ source → s.enqueued v = some (c, h) →
    (s.explored v).isSome → c ≤ D v
  queue_enq_le : ∀ e ∈ s.queue, e.node ≠ source →
    ∀ c h, s.enqueued e.node = some (c, h) → c ≤ e.dist
  expl_nonsource_enq : ∀ v, (s.explored v).isSome → v ≠ source →
    (s.enqueued v).isSome
  expl_source_none : s.explored source = none ∨ s.explored source = some none
  queue_node_enq : ∀ e ∈ s.queue, e.node = source ∨ (s.enqueued e.node).isSome
  closure : ∀ v, (s.explored v).isSome → ∀ w ∈ g.neighbors v,
    (s.enqueued w).isSome ∨ w = source
  pushed_live : ∀ v, ((s.enqueued v).isSome ∨ v = source) →
    (s.explored v).isSome ∨ ∃ e ∈ s.queue, e.node = v
  target_unexplored : s.explored target = none

/-- The search invariant. -/
def AInv (g : SGraph) (source target : Nat) (s : AState) : Prop :=
  ∃ D, AInvD g source target s D

/-- The invariant holds in the initial state. -/
theorem AInv_init (g : SGraph) (source target : Nat) (hfun : Nat → Nat) :
    AInv g source target
      ⟨[⟨hfun source, 0, source, 0, none⟩], fun _ => none, fun _ => none, 1⟩ := by
  refine ⟨fun _ => 0, ?_, ?_, ?_, ?_, ?_, ?_, ?_, ?_, ?_, ?_, ?_, ?_⟩
  · intro v p h; exact absurd h (by simp)
  · intro v h; exact absurd h (by simp)
  · intro e he _
    rcases List.mem_singleton.mp he with rfl
    rfl
  · intro e he p hp
    rcases List.mem_singleton.mp he with rfl
    exact absurd hp (by simp)
  · intro v c h _ henq; exact absurd henq (by simp)
  · intro e _ _ c h henq; exact absurd henq (by simp)
  · intro v hv; exact absurd hv (by simp)
  · exact Or.inl rfl
  · intro e he
    rcases List.mem_singleton.mp he with rfl
    exact Or.inl rfl
  · intro v hv; exact absurd hv (by simp)
  · intro v hv
    rcases hv with hv | rfl
    · exact absurd hv (by simp)
    · exact Or.inr ⟨⟨hfun v, 0, v, 0, none⟩, List.mem_singleton.mpr rfl, rfl⟩
  · rfl

/-- Every entry of a list is the popped minimum or survives in the rest. -/
theorem popMin_mem_or {l : List AEntry} {e : AEntry} {rest : List AEntry}
    (h : popMin l = some (e, rest)) : ∀ x ∈ l, x = e ∨ x ∈ rest := by
  induction l generalizing e rest with
  | nil => exact absurd h (by simp [popMin])
  | cons a tail ih =>
      simp only [popMin] at h
      cases htail : popMin tail with
      | none =>
          rw [htail] at h
          obtain rfl : tail = [] := (popMin_none_iff tail).mp htail
          obtain ⟨rfl, rfl⟩ := Prod.mk.injEq .. ▸ (Option.some_injective _ h)
          intro x hx
          rcases List.mem_cons.mp hx with rfl | hx'
          · exact Or.inl rfl
          · exact absurd hx' (by simp)
      | some p =>
          obtain ⟨m, rest'⟩ := p
          rw [htail] at h
          dsimp only at h
          by_cases hb : a.before m
          · rw [if_pos hb] at h
            obtain ⟨rfl, rfl⟩ := Prod.mk.injEq .. ▸ (Option.some_injective _ h)
            intro x hx
            rcases List.mem_cons.mp hx with rfl | hx'
            · exact Or.inl rfl
            · exact Or.inr hx'
          · rw [if_neg hb] at h
            obtain ⟨rfl, rfl⟩ := Prod.mk.injEq .. ▸ (Option.some_injective _ h)
            intro x hx
            rcases List.mem_cons.mp hx with rfl | hx'
            · exact Or.inr (List.mem_cons_self x rest')
            · rcases ih htail x hx' with rfl | hx''
              · exact Or.inl rfl
              · exact Or.inr (List.mem_cons_of_mem a hx'')

/-- Under the invariant, any explored node forces the start node to be
explored: parent chains descend in `D` and end at the start node. -/
theorem AInvD.explored_source {g : SGraph} {source target : Nat} {s : AState}
    {D : Nat → Nat} (hinv : AInvD g source target s D) :
    ∀ v, (s.explored v).isSome → (s.explored source).isSome := by
  have : ∀ d v, D v ≤ d → (s.explored v).isSome → (s.explored source).isSome := by
    intro d
    induction d with
    | zero =>
        intro v hd hv
        cases hexp : s.explored v with
        | none => rw [hexp] at hv; exact absurd hv (by simp)
        | some po =>
            cases po with
            | none => exact (hinv.expl_source v hexp) ▸ (hexp ▸ (by simp))
            | some p =>
                have := (hinv.expl_chain v p hexp).2.2
                omega
    | succ k ih =>
        intro v hd hv
        cases hexp : s.explored v with
        | none => rw [hexp] at hv; exact absurd hv (by simp)
        | some po =>
            cases po with
            | none => exact (hinv.expl_source v hexp) ▸ (hexp ▸ (by simp))
            | some p =>
                obtain ⟨_, hpe, hDp⟩ := hinv.expl_chain v p hexp
                exact ih p (by omega) hpe
  exact fun v hv => this (D v) v (le_refl _) hv

/-- The queue/enqueued part of the invariant, relative to the parent map
and depth map already updated for the node `unode` being expanded at
distance `udist`. -/
structure PushInv (g : SGraph) (source unode udist : Nat)
    (explored : Nat → Option (Option Nat)) (D : Nat → Nat)
    (enq : Nat → Option (Nat × Nat)) (queue : List AEntry) : Prop where
  q1 : ∀ x ∈ queue, x.parent = none → x.node = source
  q2 : ∀ x ∈ queue, ∀ p, x.parent = some p →
    g.Adj p x.node ∧ (explored p).isSome ∧ D p < x.dist ∧
      (p = x.node → x.node = source)
  q3 : ∀ v c h, v ≠ source → enq v = some (c, h) → (explored v).isSome →
    c ≤ D v
  q4 : ∀ x ∈ queue, x.node ≠ source → ∀ c h, enq x.node = some (c, h) →
    c ≤ x.dist
  q5 : ∀ v, (explored v).isSome → v ≠ source → (enq v).isSome
  q6 : ∀ x ∈ queue, x.node = source ∨ (enq x.node).isSome
  q8 : ∀ v, ((enq v).isSome ∨ v = source) →
    (explored v).isSome ∨ ∃ x ∈ queue, x.node = v
  q10 : unode ≠ source → ∀ c h, enq unode = some (c, h) → c ≤ udist

/-- Pushing the neighbours of `unode` preserves the queue/enqueued
invariant, covers every pushed neighbour in `enqueued`, and only grows
`enqueued` and the queue. -/
theorem pushNeighbors_preserve (g : SGraph) (source : Nat) (hfun : Nat → Nat)
    (unode udist : Nat) (explored : Nat → Option (Option Nat)) (D : Nat → Nat)
    (hexp : (explored unode).isSome) (hD : D unode = udist) :
    ∀ (ns : List Nat) (enq : Nat → Option (Nat × Nat)) (counter : Nat)
      (queue : List AEntry), (∀ n ∈ ns, g.Adj unode n) →
      PushInv g source unode udist explored D enq queue →
      PushInv g source unode udist explored D
          (pushNeighbors hfun unode udist ns enq counter queue).1
          (pushNeighbors hfun unode udist ns enq counter queue).2.2 ∧
        (∀ n ∈ ns,
          ((pushNeighbors hfun unode udist ns enq counter queue).1 n).isSome) ∧
        (∀ v, (enq v).isSome →
          ((pushNeighbors hfun unode udist ns enq counter queue).1 v).isSome) ∧
        (∀ x ∈ queue, x ∈ (pushNeighbors hfun unode udist ns enq counter queue).2.2) := by
  intro ns
  induction ns with
  | nil =>
      intro enq counter queue _ hpi
      exact ⟨hpi, by simp, fun v hv => hv, fun x hx => hx⟩
  | cons n rest ih =>
      intro enq counter queue hns hpi
      have hadj : g.Adj unode n := hns n (by simp)
      have hrest : ∀ x ∈ rest, g.Adj unode x :=
        fun x hx => hns x (List.mem_cons_of_mem n hx)
      -- shared facts for both push branches
      have hstep : ∀ (h : Nat) (hcost : ∀ qc hh, enq n = some (qc, hh) →
            udist + 1 < qc),
          PushInv g source unode udist explored D
            (Function.update enq n (some (udist + 1, h)))
            (queue ++ [⟨udist + 1 + h, counter, n, udist + 1, some unode⟩]) := by
        intro h hcost
        set enq₁ := Function.update enq n (some (udist + 1, h)) with henq₁
        have henq₁n : enq₁ n = some (udist + 1, h) := by
          rw [henq₁, Function.update_same]
        have henq₁other : ∀ v, v ≠ n → enq₁ v = enq v := by
          intro v hv; rw [henq₁, Function.update_noteq hv]
        have hnus : n = unode → unode = source := by
          intro heq
          by_cases hus : unode = source
          · exact hus
          · exfalso
            have h10 := hpi.q10 hus
            cases henqu : enq unode with
            | none =>
                have h5 := hpi.q5 unode hexp hus
                rw [henqu] at h5
                exact absurd h5 (by simp)
            | some pq =>
                obtain ⟨qc, hh⟩ := pq
                have hle := h10 qc hh henqu
                have hlt := hcost qc hh (heq ▸ henqu)
                omega
        refine ⟨?_, ?_, ?_, ?_, ?_, ?_, ?_, ?_⟩
        · intro x hx hxp
          rcases List.mem_append.mp hx with hx' | hx'
          · exact hpi.q1 x hx' hxp
          · rcases List.mem_singleton.mp hx' with rfl
            exact absurd hxp (by simp)
        · intro x hx p hxp
          rcases List.mem_append.mp hx with hx' | hx'
          · exact hpi.q2 x hx' p hxp
          · rcases List.mem_singleton.mp hx' with rfl
            have hp : unode = p := Option.some_injective _ hxp
            subst hp
            refine ⟨hadj, hexp, ?_, ?_⟩
            · show D unode < udist + 1
              rw [hD]; omega
            · intro hpn
              show n = source
              have h1 : n = unode := hpn.symm
              rw [h1]
              exact hnus h1
        · intro v c hh hvs henqv hexpv
          by_cases hvn : v = n
          · subst hvn
            rw [henq₁n] at henqv
            obtain ⟨rfl, rfl⟩ := Prod.mk.injEq .. ▸ (Option.some_injective _ henqv)
            by_cases hvu : v = unode
            · exact absurd (hnus hvu) (hvu ▸ hvs)
            · have h5 := hpi.q5 v hexpv hvs
              cases henqv₀ : enq v with
              | none => rw [henqv₀] at h5; exact absurd h5 (by simp)
              | some pq =>
                  obtain ⟨qc, hh'⟩ := pq
                  have h3 := hpi.q3 v qc hh' hvs henqv₀ hexpv
                  have hlt := hcost qc hh' henqv₀
                  omega
          · rw [henq₁other v hvn] at henqv
            exact hpi.q3 v c hh hvs henqv hexpv
        · intro x hx hxs c hh henqx
          rcases List.mem_append.mp hx with hx' | hx'
          · by_cases hxn : x.node = n
            · rw [hxn, henq₁n] at henqx
              obtain ⟨rfl, rfl⟩ := Prod.mk.injEq .. ▸ (Option.some_injective _ henqx)
              rcases hpi.q6 x hx' with hs | he
              · exact absurd hs hxs
              · cases henqx₀ : enq x.node with
                | none => rw [henqx₀] at he; exact absurd he (by simp)
                | some pq =>
                    obtain ⟨qc, hh'⟩ := pq
                    have h4 := hpi.q4 x hx' hxs qc hh' henqx₀
                    have hlt := hcost qc hh' (hxn ▸ henqx₀)
                    omega
            · rw [henq₁other _ hxn] at henqx
              exact hpi.q4 x hx' hxs c hh henqx
          · rcases List.mem_singleton.mp hx' with rfl
            rw [show (⟨udist + 1 + h, counter, n, udist + 1, some unode⟩ : AEntry).node
              = n from rfl, henq₁n] at henqx
            obtain ⟨rfl, rfl⟩ := Prod.mk.injEq .. ▸ (Option.some_injective _ henqx)
            exact le_refl _
        · intro v hv hvs
          by_cases hvn : v = n
          · subst hvn; rw [henq₁n]; rfl
          · rw [henq₁other v hvn]
            exact hpi.q5 v hv hvs
        · intro x hx
          rcases List.mem_append.mp hx with hx' | hx'
          · rcases hpi.q6 x hx' with hs | he
            · exact Or.inl hs
            · right
              by_cases hxn : x.node = n
              · rw [hxn, henq₁n]; rfl
              · rw [henq₁other _ hxn]; exact he
          · rcases List.mem_singleton.mp hx' with rfl
            right
            rw [show (⟨udist + 1 + h, counter, n, udist + 1, some unode⟩ : AEntry).node
              = n from rfl, henq₁n]
            rfl
        · intro v hv
          by_cases hvn : v = n
          · subst hvn
            exact Or.inr ⟨⟨udist + 1 + h, counter, v, udist + 1, some unode⟩,
              List.mem_append_right _ (by simp), rfl⟩
          · rw [henq₁other v hvn] at hv
            rcases hpi.q8 v hv with he | ⟨x, hx, hxv⟩
            · exact Or.inl he
            · exact Or.inr ⟨x, List.mem_append_left _ hx, hxv⟩
        · intro hus c hh henqu
          by_cases hun : unode = n
          · exact absurd (hnus hun.symm) hus
          · rw [henq₁other unode hun] at henqu
            exact hpi.q10 hus c hh henqu
      cases henq : enq n with
      | some p =>
          obtain ⟨qcost, h⟩ := p
          by_cases hle : qcost ≤ udist + 1
          · have hres : pushNeighbors hfun unode udist (n :: rest) enq counter queue =
                pushNeighbors hfun unode udist rest enq counter queue := by
              simp only [pushNeighbors, henq, if_pos hle]
            rw [hres]
            obtain ⟨hpi', hcov, hmono, hsub⟩ := ih enq counter queue hrest hpi
            refine ⟨hpi', ?_, hmono, hsub⟩
            intro x hx
            rcases List.mem_cons.mp hx with rfl | hx'
            · exact hmono x (by rw [henq]; rfl)
            · exact hcov x hx'
          · have hres : pushNeighbors hfun unode udist (n :: rest) enq counter queue =
                pushNeighbors hfun unode udist rest
                  (Function.update enq n (some (udist + 1, h))) (counter + 1)
                  (queue ++ [⟨udist + 1 + h, counter, n, udist + 1, some unode⟩]) := by
              simp only [pushNeighbors, henq, if_neg hle]
            rw [hres]
            have hpi₁ := hstep h (by
              intro qc hh hq
              rw [henq] at hq
              obtain ⟨rfl, rfl⟩ := Prod.mk.injEq .. ▸ (Option.some_injective _ hq)
              omega)
            obtain ⟨hpi', hcov, hmono, hsub⟩ :=
              ih (Function.update enq n (some (udist + 1, h))) (counter + 1)
                (queue ++ [⟨udist + 1 + h, counter, n, udist + 1, some unode⟩])
                hrest hpi₁
            refine ⟨hpi', ?_, ?_, ?_⟩
            · intro x hx
              rcases List.mem_cons.mp hx with rfl | hx'
              · exact hmono x (by rw [Function.update_same]; rfl)
              · exact hcov x hx'
            · intro v hv
              apply hmono
              by_cases hvn : v = n
              · subst hvn; rw [Function.update_same]; rfl
              · rw [Function.update_noteq hvn]; exact hv
            · intro x hx
              exact hsub x (List.mem_append_left _ hx)
      | none =>
          have hres : pushNeighbors hfun unode udist (n :: rest) enq counter queue =
              pushNeighbors hfun unode udist rest
                (Function.update enq n (some (udist + 1, hfun n))) (counter + 1)
                (queue ++ [⟨udist + 1 + hfun n, counter, n, udist + 1, some unode⟩]) := by
            simp only [pushNeighbors, henq]
          rw [hres]
          have hpi₁ := hstep (hfun n) (by
            intro qc hh hq
            rw [henq] at hq
            exact absurd hq (by simp))
          obtain ⟨hpi', hcov, hmono, hsub⟩ :=
            ih (Function.update enq n (some (udist + 1, hfun n))) (counter + 1)
              (queue ++ [⟨udist + 1 + hfun n, counter, n, udist + 1, some unode⟩])
              hrest hpi₁
          refine ⟨hpi', ?_, ?_, ?_⟩
          · intro x hx
            rcases List.mem_cons.mp hx with rfl | hx'
            · exact hmono x (by rw [Function.update_same]; rfl)
            · exact hcov x hx'
          · intro v hv
            apply hmono
            by_cases hvn : v = n
            · subst hvn; rw [Function.update_same]; rfl
            · rw [Function.update_noteq hvn]; exact hv
          · intro x hx
            exact hsub x (List.mem_append_left _ hx)

/-- One search iteration preserves the invariant. -/
theorem astarStep_preserves (g : SGraph) (source target : Nat)
    (hfun : Nat → Nat) (s s' : AState)
    (h : astarStep g target hfun s = .next s')
    (hinv : AInv g source target s) : AInv g source target s' := by
  obtain ⟨D, hI⟩ := hinv
  unfold astarStep at h
  cases hpop : popMin s.queue with
  | none => rw [hpop] at h; exact absurd h (by simp)
  | some pr =>
      obtain ⟨e, q'⟩ := pr
      rw [hpop] at h
      dsimp only at h
      have he_mem := popMin_mem hpop
      have hq'sub := popMin_rest_subset hpop
      have hmem_or := popMin_mem_or hpop
      have hskip : (s.explored e.node).isSome →
          AInv g source target ⟨q', s.enqueued, s.explored, s.counter⟩ := by
        intro hse
        refine ⟨D, ?_, hI.expl_source, ?_, ?_, hI.enq_le_D, ?_,
          hI.expl_nonsource_enq, hI.expl_source_none, ?_, hI.closure, ?_,
          hI.target_unexplored⟩
        · exact hI.expl_chain
        · exact fun x hx => hI.queue_parent_none x (hq'sub x hx)
        · exact fun x hx => hI.queue_parent_some x (hq'sub x hx)
        · exact fun x hx => hI.queue_enq_le x (hq'sub x hx)
        · exact fun x hx => hI.queue_node_enq x (hq'sub x hx)
        · intro v hv
          rcases hI.pushed_live v hv with he' | ⟨x, hx, hxv⟩
          · exact Or.inl he'
          · rcases hmem_or x hx with rfl | hx'
            · exact Or.inl (hxv ▸ hse)
            · exact Or.inr ⟨x, hx', hxv⟩
      have hexpand : (s.explored e.node = none ∨ e.dist ≤ D e.node) →
          (s.explored e.node = none ∨ e.node ≠ source) →
          AInv g source target (astarExpand g hfun e q' s) := by
        intro hbound hnsrc
        rw [astarExpand_eq]
        set explored' := Function.update s.explored e.node (some e.parent)
          with hexplored'
        set D' := Function.update D e.node e.dist with hD'
        have hexp' : (explored' e.node).isSome := by
          rw [hexplored', Function.update_same]; rfl
        have hexp'_mono : ∀ v, (s.explored v).isSome → (explored' v).isSome := by
          intro v hv
          by_cases hvn : v = e.node
          · subst hvn; exact hexp'
          · rw [hexplored', Function.update_noteq hvn]; exact hv
        have hexp'_other : ∀ v, v ≠ e.node → explored' v = s.explored v := by
          intro v hv; rw [hexplored', Function.update_noteq hv]
        have hDe : D' e.node = e.dist := by rw [hD', Function.update_same]
        have hD'_other : ∀ v, v ≠ e.node → D' v = D v := by
          intro v hv; rw [hD', Function.update_noteq hv]
        have hDle : (s.explored e.node).isSome → e.dist ≤ D e.node := by
          intro hse
          rcases hbound with hb | hb
          · rw [hb] at hse; exact absurd hse (by simp)
          · exact hb
        have hpi : PushInv g source e.node e.dist explored' D' s.enqueued q' := by
          refine ⟨?_, ?_, ?_, ?_, ?_, ?_, ?_, ?_⟩
          · exact fun x hx => hI.queue_parent_none x (hq'sub x hx)
          · intro x hx p hxp
            obtain ⟨hadj, hpe, hpd, hps⟩ :=
              hI.queue_parent_some x (hq'sub x hx) p hxp
            refine ⟨hadj, hexp'_mono p hpe, ?_, hps⟩
            by_cases hpn : p = e.node
            · subst hpn
              rw [hDe]
              exact lt_of_le_of_lt (hDle hpe) hpd
            · rw [hD'_other p hpn]; exact hpd
          · intro v c hh hvs henqv hexpv
            by_cases hvn : v = e.node
            · subst hvn
              rw [hDe]
              exact hI.queue_enq_le e he_mem hvs c hh henqv
            · rw [hD'_other v hvn]
              rw [hexp'_other v hvn] at hexpv
              exact hI.enq_le_D v c hh hvs henqv hexpv
          · exact fun x hx => hI.queue_enq_le x (hq'sub x hx)
          · intro v hv hvs
            by_cases hvn : v = e.node
            · subst hvn
              rcases hI.queue_node_enq e he_mem with hs | he'
              · exact absurd hs hvs
              · exact he'
            · rw [hexp'_other v hvn] at hv
              exact hI.expl_nonsource_enq v hv hvs
          · exact fun x hx => hI.queue_node_enq x (hq'sub x hx)
          · intro v hv
            rcases hI.pushed_live v hv with he' | ⟨x, hx, hxv⟩
            · exact Or.inl (hexp'_mono v he')
            · rcases hmem_or x hx with rfl | hx'
              · exact Or.inl (hxv ▸ hexp')
              · exact Or.inr ⟨x, hx', hxv⟩
          · intro hvs c hh henqu
            exact hI.queue_enq_le e he_mem hvs c hh henqu
        obtain ⟨hpi', hcov, hmono, _⟩ :=
          pushNeighbors_preserve g source hfun e.node e.dist explored' D'
            hexp' hDe (g.neighbors e.node) s.enqueued s.counter q'
            (fun n hn => SGraph.mem_neighbors.mp hn) hpi
        refine ⟨D', ?_, ?_, hpi'.q1, hpi'.q2, hpi'.q3, hpi'.q4, hpi'.q5, ?_,
          hpi'.q6, ?_, hpi'.q8, ?_⟩
        · -- explored chain
          intro v p hvp
          dsimp only at hvp
          by_cases hvn : v = e.node
          · subst hvn
            rw [hexplored', Function.update_same] at hvp
            have hep : e.parent = some p := Option.some_injective _ hvp
            obtain ⟨hadj, hpe, hpd, hps⟩ :=
              hI.queue_parent_some e he_mem p hep
            refine ⟨hadj, hexp'_mono p hpe, ?_⟩
            by_cases hpn : p = e.node
            · exfalso
              rcases hnsrc with hb | hns
              · rw [← hpn] at hb
                rw [hb] at hpe
                exact absurd hpe (by simp)
              · exact hns (hpn ▸ (hps hpn))
            · rw [hD'_other p hpn, hDe]
              exact hpd
          · rw [hexp'_other v hvn] at hvp
            obtain ⟨hadj, hpe, hpd⟩ := hI.expl_chain v p hvp
            refine ⟨hadj, hexp'_mono p hpe, ?_⟩
            rw [hD'_other v hvn]
            by_cases hpn : p = e.node
            · subst hpn
              rw [hDe]
              exact lt_of_le_of_lt (hDle hpe) hpd
            · rw [hD'_other p hpn]
              exact hpd
        · -- explored source marker
          intro v hv
          dsimp only at hv
          by_cases hvn : v = e.node
          · subst hvn
            rw [hexplored', Function.update_same] at hv
            exact hI.queue_parent_none e he_mem (Option.some_injective _ hv)
          · rw [hexp'_other v hvn] at hv
            exact hI.expl_source v hv
        · -- the source keeps a `None` parent
          dsimp only
          by_cases hsn : e.node = source
          · rcases hnsrc with hb | hns
            · right
              have hep : e.parent = none := by
                cases hep : e.parent with
                | none => rfl
                | some p =>
                    obtain ⟨_, hpe, _⟩ :=
                      hI.queue_parent_some e he_mem p hep
                    have := hI.explored_source p hpe
                    rw [← hsn, hb] at this
                    exact absurd this (by simp)
              rw [← hsn, hexplored', Function.update_same, hep]
            · exact absurd hsn hns
          · rcases hI.expl_source_none with hb | hb
            · left
              rw [hexp'_other source (fun hh => hsn hh.symm)]
              exact hb
            · right
              rw [hexp'_other source (fun hh => hsn hh.symm)]
              exact hb
        · -- closure
          intro v hv w hw
          dsimp only at hv
          by_cases hvn : v = e.node
          · subst hvn
            left
            exact hcov w hw
          · rw [hexp'_other v hvn] at hv
            rcases hI.closure v hv w hw with he' | hs
            · exact Or.inl (hmono w he')
            · exact Or.inr hs
        · -- target stays unexplored
          dsimp only
          have hnt : e.node ≠ target := by
            intro heq
            rw [if_pos heq] at h
            exact absurd h (by simp)
          rw [hexp'_other target (fun hh => hnt hh.symm)]
          exact hI.target_unexplored
      by_cases htgt : e.node = target
      · rw [if_pos htgt] at h; exact absurd h (by simp)
      · rw [if_neg htgt] at h
        cases hexp : s.explored e.node with
        | some parentOpt =>
            rw [hexp] at h
            dsimp only at h
            by_cases hpo : parentOpt = none
            · rw [if_pos hpo] at h
              obtain rfl := (AStepResult.next.injEq .. ▸ h)
              exact hskip (by rw [hexp]; rfl)
            · rw [if_neg hpo] at h
              have hns : e.node ≠ source := by
                intro heq
                rcases hI.expl_source_none with hb | hb
                · rw [heq, hb] at hexp; exact absurd hexp (by simp)
                · rw [heq, hb] at hexp
                  exact hpo (Option.some_injective _ hexp.symm).symm.symm
              cases henq : s.enqueued e.node with
              | some pq =>
                  obtain ⟨qcost, hh⟩ := pq
                  rw [henq] at h
                  dsimp only at h
                  by_cases hstale : qcost < e.dist
                  · rw [if_pos hstale] at h
                    obtain rfl := (AStepResult.next.injEq .. ▸ h)
                    exact hskip (by rw [hexp]; rfl)
                  · rw [if_neg hstale] at h
                    obtain rfl := (AStepResult.next.injEq .. ▸ h)
                    apply hexpand _ (Or.inr hns)
                    right
                    have h3 := hI.enq_le_D e.node qcost hh hns henq
                      (by rw [hexp]; rfl)
                    omega
              | none =>
                  rw [henq] at h
                  obtain rfl := (AStepResult.next.injEq .. ▸ h)
                  exfalso
                  have h5 := hI.expl_nonsource_enq e.node (by rw [hexp]; rfl) hns
                  rw [henq] at h5
                  exact absurd h5 (by simp)
        | none =>
            rw [hexp] at h
            obtain rfl := (AStepResult.next.injEq .. ▸ h)
            exact hexpand (Or.inl hexp) (Or.inl hexp)

/-- Walking the parent map from an explored node produces a path that
starts at the source, keeps the accumulator's last element, and follows
edges of the graph. -/
theorem walkParents_spec {g : SGraph} {source target : Nat} {s : AState}
    {D : Nat → Nat} (hI : AInvD g source target s D) :
    ∀ (fuel : Nat) (cur : Nat) (acc : List Nat), (s.explored cur).isSome →
      D cur < fuel → acc ≠ [] → List.Chain' g.Adj (cur :: acc) →
      ∃ p, walkParents s.explored (some cur) acc fuel = some p ∧
        p.head? = some source ∧ p.getLast? = acc.getLast? ∧
        List.Chain' g.Adj p := by
  intro fuel
  induction fuel with
  | zero => intro cur acc _ hD; omega
  | succ k ih =>
      intro cur acc hcur hD hacc hchain
      cases hexp : s.explored cur with
      | none => rw [hexp] at hcur; exact absurd hcur (by simp)
      | some pp =>
          cases pp with
          | none =>
              have hsrc : cur = source := hI.expl_source cur hexp
              refine ⟨cur :: acc, ?_, ?_, ?_, hchain⟩
              · rw [walkParents, hexp]
                show walkParents s.explored none (cur :: acc) k = some (cur :: acc)
                rw [walkParents]
              · rw [List.head?_cons, hsrc]
              · cases acc with
                | nil => exact absurd rfl hacc
                | cons a t => rw [List.getLast?_cons_cons]
          | some p2 =>
              obtain ⟨hadj, hpe, hpd⟩ := hI.expl_chain cur p2 hexp
              have hres : walkParents s.explored (some cur) acc (k + 1) =
                  walkParents s.explored (some p2) (cur :: acc) k := by
                rw [walkParents, hexp]
              rw [hres]
              obtain ⟨p, hp, hhead, hlast, hchain'⟩ :=
                ih p2 (cur :: acc) hpe (by omega) (by simp)
                  (List.chain'_cons.mpr ⟨hadj, hchain⟩)
              refine ⟨p, hp, hhead, ?_, hchain'⟩
              rw [hlast]
              cases acc with
              | nil => exact absurd rfl hacc
              | cons a t => rw [List.getLast?_cons_cons]

/-- Under the invariant, the queue cannot run empty while the target is
reachable from the source. -/
theorem AInv_not_stuck {g : SGraph} {source target : Nat} {s : AState}
    {D : Nat → Nat} (hI : AInvD g source target s D)
    (hreach : g.Reaches source target) (hq : s.queue = []) : False := by
  have hP : ∀ v, g.Reaches source v → (s.explored v).isSome ∧ v ≠ target := by
    intro v hr
    induction hr with
    | refl =>
        have hlive := hI.pushed_live source (Or.inr rfl)
        rcases hlive with he | ⟨x, hx, _⟩
        · refine ⟨he, ?_⟩
          intro heq
          rw [heq, hI.target_unexplored] at he
          exact absurd he (by simp)
        · rw [hq] at hx
          exact absurd hx (by simp)
    | tail h₁ h₂ ih =>
        rename_i b c
        obtain ⟨hbe, _⟩ := ih
        have hcn : c ∈ g.neighbors b := SGraph.mem_neighbors.mpr h₂
        have hpush := hI.closure b hbe c hcn
        have hlive := hI.pushed_live c hpush
        rcases hlive with he | ⟨x, hx, _⟩
        · refine ⟨he, ?_⟩
          intro heq
          rw [heq, hI.target_unexplored] at he
          exact absurd he (by simp)
        · rw [hq] at hx
          exact absurd hx (by simp)
  exact (hP target hreach).2 rfl

/-- Soundness and completeness of the search loop: from an invariant state,
if the target is reachable from the source, the loop returns a path from
the source to the target along graph edges. -/
theorem astarLoop_correct (g : SGraph) (source target : Nat)
    (hfun : Nat → Nat) (hreach : g.Reaches source target) :
    ∀ s, AInv g source target s →
      ∃ p, astarLoop g target hfun s = some p ∧ p.head? = some source ∧
        p.getLast? = some target ∧ List.Chain' g.Adj p := by
  have hwf : WellFounded (fun s₁ s₂ : AState =>
      Prod.Lex (· < ·) (Prod.Lex (· < ·) (· < ·))
        (measureA g s₁, measureB g s₁, s₁.queue.length)
        (measureA g s₂, measureB g s₂, s₂.queue.length)) :=
    InvImage.wf _ ((Nat.lt_wfRel.wf).prod_lex ((Nat.lt_wfRel.wf).prod_lex
      (Nat.lt_wfRel.wf)))
  intro s
  induction s using hwf.induction with
  | _ s ih =>
      intro hinv
      obtain ⟨D, hI⟩ := hinv
      rw [astarLoop]
      cases hstep : astarStep g target hfun s with
      | next s' =>
          refine ih s' ?_ (astarStep_preserves g source target hfun s s' hstep ⟨D, hI⟩)
          rcases astarStep_next_facts g target hfun s s' hstep with
            hlt | ⟨ha, hb⟩ | ⟨ha, hb, hqlen⟩
          · exact Prod.Lex.left _ _ hlt
          · rw [ha]
            exact Prod.Lex.right _ (Prod.Lex.left _ _ hb)
          · rw [ha, hb]
            exact Prod.Lex.right _ (Prod.Lex.right _ hqlen)
      | done r =>
          unfold astarStep at hstep
          cases hpop : popMin s.queue with
          | none =>
              exact absurd ((popMin_none_iff s.queue).mp hpop)
                (fun hq => AInv_not_stuck hI hreach hq)
          | some pr =>
              obtain ⟨e, q'⟩ := pr
              rw [hpop] at hstep
              dsimp only at hstep
              by_cases htgt : e.node = target
              · rw [if_pos htgt] at hstep
                have hr : r = walkParents s.explored e.parent [e.node]
                    (e.dist + 1) := (AStepResult.done.injEq .. ▸ hstep).symm
                have he_mem := popMin_mem hpop
                cases hep : e.parent with
                | none =>
                    have hsrc : e.node = source :=
                      hI.queue_parent_none e he_mem hep
                    refine ⟨[e.node], ?_, ?_, ?_, ?_⟩
                    · rw [hr, hep, walkParents]
                    · rw [List.head?_cons, hsrc]
                    · rw [List.getLast?_singleton, htgt]
                    · simp
                | some p2 =>
                    obtain ⟨hadj, hpe, hpd, _⟩ :=
                      hI.queue_parent_some e he_mem p2 hep
                    obtain ⟨p, hp, hhead, hlast, hchain⟩ :=
                      walkParents_spec hI (e.dist + 1) p2 [e.node] hpe
                        (by omega) (by simp)
                        (List.chain'_cons.mpr ⟨hadj, List.chain'_singleton _⟩)
                    refine ⟨p, ?_, hhead, ?_, hchain⟩
                    · rw [hr, hep, hp]
                    · rw [hlast, List.getLast?_singleton, htgt]
              · rw [if_neg htgt] at hstep
                exfalso
                cases hexp : s.explored e.node with
                | some parentOpt =>
                    rw [hexp] at hstep
                    dsimp only at hstep
                    by_cases hpo : parentOpt = none
                    · rw [if_pos hpo] at hstep
                      exact absurd hstep (by simp)
                    · rw [if_neg hpo] at hstep
                      cases henq : s.enqueued e.node with
                      | some pq =>
                          obtain ⟨qcost, hh⟩ := pq
                          rw [henq] at hstep
                          dsimp only at hstep
                          by_cases hstale : qcost < e.dist
                          · rw [if_pos hstale] at hstep
                            exact absurd hstep (by simp)
                          · rw [if_neg hstale] at hstep
                            exact absurd hstep (by simp)
                      | none =>
                          rw [henq] at hstep
                          exact absurd hstep (by simp)
                | none =>
                    rw [hexp] at hstep
                    exact absurd hstep (by simp)

/-- `astar_path`: starting from the initial queue, the search returns a
path from the source to the target whenever the target is reachable. -/
theorem astarPath_correct (g : SGraph) (source target : Nat)
    (hfun : Nat → Nat) (hreach : g.Reaches source target) :
    ∃ p, astarPath g source target hfun = some p ∧ p.head? = some source ∧
      p.getLast? = some target ∧ List.Chain' g.Adj p :=
  astarLoop_correct g source target hfun hreach _
    (AInv_init g source target hfun)

/-- `penalty_astar` (`search.py` lines 66-72): run `astar_path` with the
penalty dictionary as heuristic, then increment the penalty of every node
on the returned path (`for node in path: penalty[node] += 1`). -/
def penaltyAstar (g : SGraph) (source target : Nat) (penalty : Nat → Nat) :
    Option (List Nat × (Nat → Nat)) :=
  match astarPath g source target penalty with
  | none => none
  | some path =>
      some (path,
        path.foldl (fun pen node => Function.update pen node (pen node + 1))
          penalty)

/-- `first_step_on_path` (`search.py` lines 87-90); an empty path raises in
Python and is given the dummy head 0 here (every path produced by
`astar_path` is nonempty). -/
def firstStepOnPath (path : List Nat) : Nat :=
  if path.length ≤ 1 then path.headD 0 else path.getD 1 0

/-- The cop loop of `disjoint_search_steps` (`search.py` lines 75-84): one
`penalty_astar` search per cop, threading the penalty dictionary. -/
def disjointLoop (g : SGraph) (robberPosition : Nat) :
    List Nat → (Nat → Nat) → Option (List Nat)
  | [], _ => some []
  | copPosition :: rest, penalty =>
      match penaltyAstar g copPosition robberPosition penalty with
      | none => none
      | some (path, penalty') =>
          match disjointLoop g robberPosition rest penalty' with
          | none => none
          | some moves => some (firstStepOnPath path :: moves)

/-- `disjoint_search_steps` (`search.py` lines 75-84), starting from the
all-zero `defaultdict` penalty. -/
def disjointSearchSteps (g : SGraph) (copPositions : List Nat)
    (robberPosition : Nat) : Option (List Nat) :=
  disjointLoop g robberPosition copPositions (fun _ => 0)

theorem firstStepOnPath_legal (g : SGraph) {p : List Nat} {src : Nat}
    (hhead : p.head? = some src) (hchain : List.Chain' g.Adj p) :
    firstStepOnPath p = src ∨ g.Adj src (firstStepOnPath p) := by
  cases p with
  | nil => exact absurd hhead (by simp)
  | cons a t =>
      obtain rfl : a = src := by
        rw [List.head?_cons] at hhead
        exact Option.some_injective _ hhead
      cases t with
      | nil => exact Or.inl rfl
      | cons b t' =>
          right
          have hadj : g.Adj a b := (List.chain'_cons.mp hchain).1
          have : firstStepOnPath (a :: b :: t') = b := by
            unfold firstStepOnPath
            rw [if_neg (by simp)]
            rfl
          rw [this]
          exact hadj

theorem disjointLoop_legal (g : SGraph) (robberPosition : Nat) :
    ∀ (copPositions : List Nat) (penalty : Nat → Nat),
      (∀ c ∈ copPositions, g.Reaches c robberPosition) →
      ∃ move, disjointLoop g robberPosition copPositions penalty = some move ∧
        move.length = copPositions.length ∧
        ∀ i, i < copPositions.length →
          move.getD i 0 = copPositions.getD i 0 ∨
            g.Adj (copPositions.getD i 0) (move.getD i 0) := by
  intro copPositions
  induction copPositions with
  | nil =>
      intro penalty _
      exact ⟨[], rfl, rfl, fun i hi => absurd hi (by simp)⟩
  | cons c rest ih =>
      intro penalty hreach
      obtain ⟨p, hp, hhead, _, hchain⟩ :=
        astarPath_correct g c robberPosition penalty (hreach c (by simp))
      obtain ⟨moves, hmoves, hlen, hstep⟩ :=
        ih (p.foldl (fun pen node => Function.update pen node (pen node + 1))
          penalty) (fun x hx => hreach x (List.mem_cons_of_mem c hx))
      refine ⟨firstStepOnPath p :: moves, ?_, by simp [hlen], ?_⟩
      · rw [disjointLoop]
        unfold penaltyAstar
        rw [hp]
        dsimp only
        rw [hmoves]
      · intro i hi
        cases i with
        | zero =>
            simp only [List.getD_cons_zero]
            exact firstStepOnPath_legal g hhead hchain
        | succ k =>
            simp only [List.getD_cons_succ]
            exact hstep k (by simp at hi; omega)

/-- C1: on a connected graph with all cop positions and the robber position
among its nodes, `disjoint_search_steps` always produces a move list of the
same length as the cop list whose entries are each cop's position or one of
its neighbours. -/
theorem disjointSearchSteps_legal (g : SGraph) (copPositions : List Nat)
    (robberPosition : Nat) (hne : copPositions ≠ [])
    (hcops : ∀ c ∈ copPositions, c ∈ g.nodes)
    (hrob : robberPosition ∈ g.nodes)
    (hconn : ∀ u ∈ g.nodes, ∀ v ∈ g.nodes, g.Reaches u v) :
    ∃ move, disjointSearchSteps g copPositions robberPosition = some move ∧
      move.length = copPositions.length ∧
      ∀ i, i < copPositions.length →
        move.getD i 0 = copPositions.getD i 0 ∨
          g.Adj (copPositions.getD i 0) (move.getD i 0) :=
  disjointLoop_legal g robberPosition copPositions (fun _ => 0)
    (fun c hc => hconn c (hcops c hc) robberPosition hrob)

/-- Witness for C1 at a concrete input: a single cop on node 0 pursuing the
robber on node 1 across the single edge of a two-node graph. -/
theorem disjointSearchSteps_legal_witness :
    ([0] : List Nat) ≠ [] ∧
      (∀ c ∈ ([0] : List Nat), c ∈ (⟨[0, 1], [(0, 1)]⟩ : SGraph).nodes) ∧
      (1 : Nat) ∈ (⟨[0, 1], [(0, 1)]⟩ : SGraph).nodes ∧
      ∃ move, disjointSearchSteps ⟨[0, 1], [(0, 1)]⟩ [0] 1 = some move ∧
        move.length = ([0] : List Nat).length ∧
        ∀ i, i < ([0] : List Nat).length →
          move.getD i 0 = ([0] : List Nat).getD i 0 ∨
            SGraph.Adj ⟨[0, 1], [(0, 1)]⟩ (([0] : List Nat).getD i 0)
              (move.getD i 0) := by
  have hadj : SGraph.Adj ⟨[0, 1], [(0, 1)]⟩ 0 1 := Or.inl (by simp)
  have hconn : ∀ u ∈ (⟨[0, 1], [(0, 1)]⟩ : SGraph).nodes,
      ∀ v ∈ (⟨[0, 1], [(0, 1)]⟩ : SGraph).nodes,
      SGraph.Reaches ⟨[0, 1], [(0, 1)]⟩ u v := by
    intro u hu v hv
    fin_cases hu <;> fin_cases hv
    · exact Relation.ReflTransGen.refl
    · exact Relation.ReflTransGen.single hadj
    · exact Relation.ReflTransGen.single (SGraph.adj_symm hadj)
    · exact Relation.ReflTransGen.refl
  exact ⟨by simp, by simp, by simp,
    disjointSearchSteps_legal ⟨[0, 1], [(0, 1)]⟩ [0] 1 (by simp)
      (by simp) (by simp) hconn⟩

theorem penalty_foldl_count : ∀ (path : List Nat) (pen : Nat → Nat) (v : Nat),
    (path.foldl (fun pen node => Function.update pen node (pen node + 1)) pen) v
      = pen v + path.count v := by
  intro path
  induction path with
  | nil => intro pen v; simp
  | cons a rest ih =>
      intro pen v
      rw [List.foldl_cons, ih]
      by_cases hva : a = v
      · subst hva
        rw [Function.update_same, List.count_cons_self]
        omega
      · rw [Function.update_noteq (fun hh => hva hh.symm),
          List.count_cons_of_ne (fun hh => hva hh.symm)]

/-- C8 (amended): after `penalty_astar` plans a path, the penalty
dictionary is incremented exactly on the nodes of that path (once per
occurrence); the penalty of every node not on the path — including the
neighbours of path nodes — is unchanged. -/
theorem penaltyAstar_penalty_update (g : SGraph) (source target : Nat)
    (penalty : Nat → Nat) (path : List Nat) (penalty' : Nat → Nat)
    (h : penaltyAstar g source target penalty = some (path, penalty')) :
    (∀ v, penalty' v = penalty v + path.count v) ∧
      (∀ v ∈ path, penalty v < penalty' v) ∧
      (∀ v, v ∉ path → penalty' v = penalty v) := by
  unfold penaltyAstar at h
  cases hpath : astarPath g source target penalty with
  | none => rw [hpath] at h; exact absurd h (by simp)
  | some p =>
      rw [hpath] at h
      dsimp only at h
      obtain ⟨rfl, rfl⟩ := Prod.mk.injEq .. ▸ (Option.some_injective _ h)
      refine ⟨fun v => penalty_foldl_count p penalty v, ?_, ?_⟩
      · intro v hv
        rw [penalty_foldl_count]
        have := List.count_pos_iff_mem.mpr hv
        omega
      · intro v hv
        rw [penalty_foldl_count, List.count_eq_zero_of_not_mem hv]
        omega

/-- C8 counterexample: on the star `0 — 1 — 2`, `1 — 3` with source 0 and
target 2, `penalty_astar` plans the path `[0, 1, 2]`; node 3 is a
neighbour of the path node 1, yet its penalty stays 0 — the source
increments only the nodes on the path, not their neighbours. -/
theorem penaltyAstar_neighbor_unchanged :
    (penaltyAstar ⟨[0, 1, 2, 3], [(0, 1), (1, 2), (1, 3)]⟩ 0 2
        (fun _ => 0)).map Prod.fst = some [0, 1, 2] ∧
      (penaltyAstar ⟨[0, 1, 2, 3], [(0, 1), (1, 2), (1, 3)]⟩ 0 2
          (fun _ => 0)).map (fun pr => pr.2 3) = some 0 ∧
      SGraph.Adj ⟨[0, 1, 2, 3], [(0, 1), (1, 2), (1, 3)]⟩ 1 3 ∧
      (1 : Nat) ∈ ([0, 1, 2] : List Nat) ∧
      (3 : Nat) ∉ ([0, 1, 2] : List Nat) := by
  have hpath : astarPath ⟨[0, 1, 2, 3], [(0, 1), (1, 2), (1, 3)]⟩ 0 2
      (fun _ => 0) = some [0, 1, 2] := by
    simp [astarPath, astarLoop, astarStep, popMin, AEntry.before, astarExpand,
      pushNeighbors, SGraph.neighbors, List.filterMap, Function.update,
      walkParents]
  refine ⟨?_, ?_, Or.inl (by simp), by simp, by simp⟩
  · unfold penaltyAstar
    rw [hpath]
    rfl
  · unfold penaltyAstar
    rw [hpath]
    simp [Function.update]

/-- Witness for C8 (amended) at the same concrete input: the planned path
is `[0, 1, 2]` and the resulting penalties are 1 on its nodes and 0
elsewhere. -/
theorem penaltyAstar_penalty_update_witness :
    ∃ penalty', penaltyAstar ⟨[0, 1, 2, 3], [(0, 1), (1, 2), (1, 3)]⟩ 0 2
        (fun _ => 0) = some ([0, 1, 2], penalty') ∧
      (∀ v, penalty' v = (fun _ => 0) v + ([0, 1, 2] : List Nat).count v) ∧
      (∀ v ∈ ([0, 1, 2] : List Nat), (fun _ : Nat => 0) v < penalty' v) ∧
      (∀ v, v ∉ ([0, 1, 2] : List Nat) → penalty' v = (fun _ => 0) v) := by
  have hpath : astarPath ⟨[0, 1, 2, 3], [(0, 1), (1, 2), (1, 3)]⟩ 0 2
      (fun _ => 0) = some [0, 1, 2] := by
    simp [astarPath, astarLoop, astarStep, popMin, AEntry.before, astarExpand,
      pushNeighbors, SGraph.neighbors, List.filterMap, Function.update,
      walkParents]
  have hpa : penaltyAstar ⟨[0, 1, 2, 3], [(0, 1), (1, 2), (1, 3)]⟩ 0 2
      (fun _ => 0) = some ([0, 1, 2],
        ([0, 1, 2] : List Nat).foldl
          (fun pen node => Function.update pen node (pen node + 1))
          (fun _ => 0)) := by
    unfold penaltyAstar
    rw [hpath]
  exact ⟨_, hpa,
    penaltyAstar_penalty_update ⟨[0, 1, 2, 3], [(0, 1), (1, 2), (1, 3)]⟩ 0 2
      (fun _ => 0) [0, 1, 2] _ hpa⟩

/-! ### Vertex pooling (`src/engine/modules/abstraction/pooling.py`)

The source maps the graph's nodes to dense indices `0 .. n-1`, runs a
union-find with union by rank and path compression over the indices, and
contracts edges in non-decreasing order of the geometric mean of the
endpoint degrees (ties broken by the index pair, as `heapq` orders the
`(mean, u, v)` tuples lexicographically).  The float geometric mean
`sqrt(deg u * deg v)` is strictly increasing in `deg u * deg v`, so the
processing order is embedded with the integer key `deg u * deg v`.  The
`heapify`/`heappop` stream is embedded as processing the sorted tuple
list.  Python's unbounded `while` loops in `find` get an explicit fuel of
`n`, which suffices for any union-find forest on `n` elements. -/

/-- The root lookup without mutation: follow parent pointers. -/
def specRoot (parents : Nat → Nat) : Nat → Nat → Nat
  | v, 0 => v
  | v, fuel + 1 => if parents v = v then v else specRoot parents (parents v) fuel

/-- `find` (`pooling.py` lines 63-75): follow parent pointers to the root,
with path compression (`_v = uf_parents[_v] = uf_parents[uf_parents[_v]]`:
repoint to the grandparent and move there).  Returns the rewritten parent
map and the root. -/
def ufFind (parents : Nat → Nat) (v : Nat) : Nat → (Nat → Nat) × Nat
  | 0 => (parents, v)
  | fuel + 1 =>
      if parents v = v then (parents, v)
      else
        ufFind (Function.update parents v (parents (parents v)))
          (parents (parents v)) fuel

/-- `union` (`pooling.py` lines 41-61): find both roots, then join by
rank. -/
def ufUnion (parents rank : Nat → Nat) (fuel u v : Nat) :
    (Nat → Nat) × (Nat → Nat) :=
  let fu := ufFind parents u fuel
  let fv := ufFind fu.1 v fuel
  let ru := fu.2
  let rv := fv.2
  if rank rv < rank ru then (Function.update fv.1 rv ru, rank)
  else if rank ru < rank rv then (Function.update fv.1 ru rv, rank)
  else (Function.update fv.1 rv ru, Function.update rank ru (rank ru + 1))

/-- The mutable state of `abstract_vertex_pooling`: the union-find arrays,
the marks, and `n_abstract_nodes`. -/
structure PoolState where
  parents : Nat → Nat
  rank : Nat → Nat
  marked : Nat → Bool
  count : Nat

/-- `perform_vertex_pooling` (`pooling.py` lines 97-127): pop edge tuples
in heap order while too many abstract nodes remain; contract an edge when
both endpoints are unmarked (strict mode) or exactly one is (loose mode),
then mark both endpoints. -/
def poolPhase (strict : Bool) (n target : Nat) :
    List (Nat × Nat × Nat) → PoolState → PoolState
  | [], st => st
  | (_, u, v) :: rest, st =>
      if st.count ≤ target then st
      else if (strict && (st.marked u || st.marked v)) ||
          (!strict && !(st.marked u ^^ st.marked v)) then
        poolPhase strict n target rest st
      else
        let uf := ufUnion st.parents st.rank n u v
        poolPhase strict n target rest
          ⟨uf.1, uf.2, fun w => if w = u ∨ w = v then true else st.marked w,
            st.count - 1⟩

/-- Lexicographic order on `(mean-degree key, u, v)` tuples: the order in
which `heappop` delivers them. -/
def tupleLE (a b : Nat × Nat × Nat) : Prop :=
  a.1 < b.1 ∨ (a.1 = b.1 ∧ (a.2.1 < b.2.1 ∨ (a.2.1 = b.2.1 ∧ a.2.2 ≤ b.2.2)))

instance : DecidableRel tupleLE := fun a b => by
  unfold tupleLE; infer_instance

/-- `abstract_vertex_pooling` (`pooling.py` lines 9-155): phase 1 contracts
strictly, phase 2 (if needed) contracts unmarked nodes into marked
neighbours; the returned mapping sends each node to the position of its
root in the deduplicated root enumeration (`uf_roots` / `root_indices`).
The extraction calls `find` per node; its path compression provably leaves
every root unchanged, so the rewritten parent maps are not threaded
between the extraction calls. -/
def pvNodeIdx (g : SGraph) (v : Nat) : Nat := g.nodes.indexOf v

def pvDeg (g : SGraph) (i : Nat) : Nat :=
  (g.neighbors (g.nodes.getD i 0)).length

/-- `target_n_abstract_nodes = math.ceil(n_nodes / 2)`. -/
def pvTarget (g : SGraph) : Nat := (g.nodes.length + 1) / 2

/-- The phase-1 heap contents: one tuple per non-loop edge, in heap-pop
order. -/
def pvTuples1 (g : SGraph) : List (Nat × Nat × Nat) :=
  (g.edges.filterMap (fun e =>
    if e.1 ≠ e.2 then
      some (pvDeg g (pvNodeIdx g e.1) * pvDeg g (pvNodeIdx g e.2),
        pvNodeIdx g e.1, pvNodeIdx g e.2)
    else none)).insertionSort tupleLE

/-- The state after phase 1 (strict pooling over all non-loop edges). -/
def pvSt1 (g : SGraph) : PoolState :=
  poolPhase true g.nodes.length (pvTarget g) (pvTuples1 g)
    ⟨id, fun _ => 1, fun _ => false, g.nodes.length⟩

/-- The phase-2 heap contents: one tuple per (unmarked node, marked
neighbour) pair, in heap-pop order. -/
def pvTuples2 (g : SGraph) : List (Nat × Nat × Nat) :=
  (((List.range g.nodes.length).filter (fun i => !(pvSt1 g).marked i)).flatMap
    (fun ui => (g.neighbors (g.nodes.getD ui 0)).filterMap (fun w =>
      if (pvSt1 g).marked (pvNodeIdx g w) then
        some (pvDeg g ui * pvDeg g (pvNodeIdx g w), ui, pvNodeIdx g w)
      else none))).insertionSort tupleLE

/-- The state after phase 2 (loose pooling, entered only if phase 1 left
too many abstract nodes). -/
def pvSt2 (g : SGraph) : PoolState :=
  if pvTarget g < (pvSt1 g).count then
    poolPhase false g.nodes.length (pvTarget g) (pvTuples2 g) (pvSt1 g)
  else pvSt1 g

/-- `uf_roots` in iteration order: the roots of the parent-array values,
deduplicated. -/
def pvRoots (g : SGraph) : List Nat :=
  (((List.range g.nodes.length).map (pvSt2 g).parents).map
    (fun v => (ufFind (pvSt2 g).parents v g.nodes.length).2)).dedup

/-- `abstract_vertex_pooling` (`pooling.py` lines 9-155): phase 1 contracts
pairs of unmarked adjacent nodes, phase 2 (if needed) contracts unmarked
nodes into marked neighbours; each node is mapped to the position of its
union-find root in the `uf_roots` enumeration.  The extraction calls
`find` per node; path compression provably never changes a root, so the
rewritten parent maps are not threaded between those final calls. -/
def abstractVertexPooling (g : SGraph) : Nat → Nat :=
  fun v => (pvRoots g).indexOf
    ((ufFind (pvSt2 g).parents (pvNodeIdx g v) g.nodes.length).2)

/-- The union-find forest invariant: parent pointers stay inside
`0 .. n-1`, fix everything outside, and admit a measure that strictly
decreases towards the roots (so there are no cycles). -/
def UFInv (n : Nat) (parents : Nat → Nat) : Prop :=
  (∀ v, v < n → parents v < n) ∧ (∀ v, ¬ v < n → parents v = v) ∧
  ∃ Dp : Nat → Nat, ∀ v, parents v ≠ v → Dp (parents v) < Dp v

/-- `r` is the set representative of `w`: reachable along parent pointers
and itself a fixed point. -/
def Root (parents : Nat → Nat) (w r : Nat) : Prop :=
  Relation.ReflTransGen (fun a b => parents a = b) w r ∧ parents r = r

theorem reach_of_fix {parents : Nat → Nat} {w r : Nat} (hw : parents w = w)
    (h : Relation.ReflTransGen (fun a b => parents a = b) w r) : r = w := by
  induction h with
  | refl => rfl
  | tail _ hstep ih => rw [← hstep, ih, hw]

theorem Root_fix_iff {parents : Nat → Nat} {w s : Nat} (hw : parents w = w) :
    Root parents w s ↔ s = w :=
  ⟨fun h => reach_of_fix hw h.1, fun h => by subst h; exact ⟨.refl, hw⟩⟩

theorem Root.parent {parents : Nat → Nat} {w r : Nat} (h : Root parents w r) :
    Root parents (parents w) r := by
  rcases h with ⟨hreach, hfix⟩
  rcases hreach.cases_head with heq | ⟨c, hc, hcr⟩
  · subst heq; rw [hfix]; exact ⟨.refl, hfix⟩
  · rw [hc]; exact ⟨hcr, hfix⟩

theorem Root_parent_iff {parents : Nat → Nat} {w s : Nat} :
    Root parents (parents w) s ↔ Root parents w s :=
  ⟨fun h => ⟨.head rfl h.1, h.2⟩, Root.parent⟩

theorem root_unique_aux {parents : Nat → Nat} {r₁ : Nat} :
    ∀ {w}, Relation.ReflTransGen (fun a b => parents a = b) w r₁ →
    parents r₁ = r₁ → ∀ {r₂}, Root parents w r₂ → r₁ = r₂ := by
  intro w hreach
  induction hreach using Relation.ReflTransGen.head_induction_on with
  | refl => intro hfix r₂ h₂; exact (reach_of_fix hfix h₂.1).symm
  | head hstep _ ih => intro hfix r₂ h₂; exact ih hfix (hstep ▸ h₂.parent)

theorem Root.unique {parents : Nat → Nat} {w r₁ r₂ : Nat}
    (h₁ : Root parents w r₁) (h₂ : Root parents w r₂) : r₁ = r₂ :=
  root_unique_aux h₁.1 h₁.2 h₂

theorem iterate_parents_lt {n : Nat} {parents : Nat → Nat}
    (h : UFInv n parents) {v : Nat} (hv : v < n) :
    ∀ k, parents^[k] v < n := by
  intro k
  induction k with
  | zero => simpa
  | succ k ih => rw [Function.iterate_succ_apply']; exact h.1 _ ih

theorem dp_chain {parents : Nat → Nat} {Dp : Nat → Nat}
    (hDp : ∀ v, parents v ≠ v → Dp (parents v) < Dp v) (v : Nat) :
    ∀ k, Dp (parents^[k] v) ≤ Dp v := by
  intro k
  induction k with
  | zero => simp
  | succ k ih =>
      rw [Function.iterate_succ_apply']
      by_cases hfix : parents (parents^[k] v) = parents^[k] v
      · rw [hfix]; exact ih
      · exact le_of_lt (lt_of_lt_of_le (hDp _ hfix) ih)

theorem dp_chain_strict {parents : Nat → Nat} {Dp : Nat → Nat}
    (hDp : ∀ v, parents v ≠ v → Dp (parents v) < Dp v) (v : Nat) :
    ∀ d i, (∀ k, k < i + d + 1 → parents (parents^[k] v) ≠ parents^[k] v) →
      Dp (parents^[i + d + 1] v) < Dp (parents^[i] v) := by
  intro d
  induction d with
  | zero =>
      intro i hnf
      rw [Function.iterate_succ_apply']
      exact hDp _ (hnf i (by omega))
  | succ d ih =>
      intro i hnf
      have h1 : Dp (parents^[i + d + 2] v) < Dp (parents^[i + d + 1] v) := by
        have := hnf (i + d + 1) (by omega)
        rw [show i + d + 2 = (i + d + 1) + 1 by omega, Function.iterate_succ_apply']
        exact hDp _ this
      exact lt_trans (by simpa [show i + (d+1) + 1 = i + d + 2 by omega] using h1)
        (ih i (fun k hk => hnf k (by omega)))

theorem exists_fix {n : Nat} {parents : Nat → Nat} (h : UFInv n parents)
    (v : Nat) : ∃ k, k ≤ n ∧ parents (parents^[k] v) = parents^[k] v := by
  by_cases hv : v < n
  · by_contra hcon
    push_neg at hcon
    obtain ⟨Dp, hDp⟩ := h.2.2
    have hinj : Function.Injective
        (fun i : Fin (n+1) => (⟨parents^[i.1] v, iterate_parents_lt h hv i.1⟩ : Fin n)) := by
      intro i j hij
      have hval : parents^[i.1] v = parents^[j.1] v := congrArg Fin.val hij
      rcases Nat.lt_trichotomy i.1 j.1 with hlt | heq | hgt
      · exfalso
        have hs := dp_chain_strict hDp v (j.1 - i.1 - 1) i.1
          (fun k hk => hcon k (by omega))
        rw [show i.1 + (j.1 - i.1 - 1) + 1 = j.1 by omega, hval] at hs
        exact lt_irrefl _ hs
      · exact Fin.ext heq
      · exfalso
        have hs := dp_chain_strict hDp v (i.1 - j.1 - 1) j.1
          (fun k hk => hcon k (by omega))
        rw [show j.1 + (i.1 - j.1 - 1) + 1 = i.1 by omega, ← hval] at hs
        exact lt_irrefl _ hs
    have hcard := Fintype.card_le_of_injective _ hinj
    simp only [Fintype.card_fin] at hcard
    omega
  · exact ⟨0, Nat.zero_le n, by simpa using h.2.1 v hv⟩

theorem specRoot_spec {parents : Nat → Nat} :
    ∀ (fuel : Nat) (v : Nat),
      (∃ k, k ≤ fuel ∧ parents (parents^[k] v) = parents^[k] v) →
      Root parents v (specRoot parents v fuel) := by
  intro fuel
  induction fuel with
  | zero =>
      rintro v ⟨k, hk, hfix⟩
      obtain rfl : k = 0 := Nat.le_zero.mp hk
      simp only [Function.iterate_zero, id_eq] at hfix
      exact ⟨.refl, hfix⟩
  | succ fuel ih =>
      rintro v ⟨k, hk, hfix⟩
      by_cases hv : parents v = v
      · simp only [specRoot, if_pos hv]
        exact ⟨.refl, hv⟩
      · have hk0 : k ≠ 0 := by
          rintro rfl
          simp only [Function.iterate_zero, id_eq] at hfix
          exact hv hfix
        obtain ⟨k', rfl⟩ : ∃ k', k = k' + 1 := ⟨k - 1, by omega⟩
        have hc : ∃ m, m ≤ fuel ∧
            parents (parents^[m] (parents v)) = parents^[m] (parents v) :=
          ⟨k', by omega, by rw [← Function.iterate_succ_apply]; exact hfix⟩
        have hroot := ih (parents v) hc
        simp only [specRoot, if_neg hv]
        exact ⟨.head rfl hroot.1, hroot.2⟩

/-- The representative computed with fuel `n`: enough fuel for any
union-find forest on `n` elements. -/
def rootFn (n : Nat) (parents : Nat → Nat) (v : Nat) : Nat :=
  specRoot parents v n

theorem rootFn_root {n : Nat} {parents : Nat → Nat} (h : UFInv n parents)
    (v : Nat) : Root parents v (rootFn n parents v) :=
  specRoot_spec n v (exists_fix h v)

theorem root_eq_rootFn {n : Nat} {parents : Nat → Nat} (h : UFInv n parents)
    {v r : Nat} (hr : Root parents v r) : rootFn n parents v = r :=
  Root.unique (rootFn_root h v) hr

theorem rootFn_parent {n : Nat} {parents : Nat → Nat} (h : UFInv n parents)
    (v : Nat) : rootFn n parents (parents v) = rootFn n parents v :=
  root_eq_rootFn h (rootFn_root h v).parent |>.symm ▸
    (root_eq_rootFn h ((rootFn_root h v).parent)).trans rfl

theorem rootFn_fix {n : Nat} {parents : Nat → Nat} (h : UFInv n parents)
    {r : Nat} (hr : parents r = r) : rootFn n parents r = r :=
  root_eq_rootFn h ⟨.refl, hr⟩

theorem rootFn_isFix {n : Nat} {parents : Nat → Nat} (h : UFInv n parents)
    (v : Nat) : parents (rootFn n parents v) = rootFn n parents v :=
  (rootFn_root h v).2

theorem reach_lt {n : Nat} {parents : Nat → Nat} (h : UFInv n parents)
    {v r : Nat} (hv : v < n)
    (hr : Relation.ReflTransGen (fun a b => parents a = b) v r) : r < n := by
  induction hr with
  | refl => exact hv
  | tail _ hstep ih => exact hstep ▸ h.1 _ ih

theorem rootFn_lt {n : Nat} {parents : Nat → Nat} (h : UFInv n parents)
    {v : Nat} (hv : v < n) : rootFn n parents v < n :=
  reach_lt h hv (rootFn_root h v).1

theorem update_compress_spec {n : Nat} {parents : Nat → Nat}
    (h : UFInv n parents) {v : Nat} (hv : parents v ≠ v) :
    UFInv n (Function.update parents v (parents (parents v))) ∧
    (∀ w s, Root (Function.update parents v (parents (parents v))) w s ↔
      Root parents w s) := by
  obtain ⟨hrange, hout, Dp, hDp⟩ := h
  have hvn : v < n := by
    by_contra hvn
    exact hv (hout v hvn)
  have hDgv : Dp (parents (parents v)) < Dp v := by
    by_cases hpf : parents (parents v) = parents v
    · rw [hpf]; exact hDp v hv
    · exact lt_trans (hDp (parents v) hpf) (hDp v hv)
  have hgv : parents (parents v) ≠ v := fun hgveq => by
    rw [hgveq] at hDgv; exact lt_irrefl _ hDgv
  have hp'v : Function.update parents v (parents (parents v)) v = parents (parents v) :=
    Function.update_same v _ parents
  have hp' : ∀ w, w ≠ v → Function.update parents v (parents (parents v)) w = parents w :=
    fun w hw => Function.update_noteq hw _ parents
  have hinv' : UFInv n (Function.update parents v (parents (parents v))) := by
    refine ⟨?_, ?_, Dp, ?_⟩
    · intro w hw
      by_cases hwv : w = v
      · rw [hwv, hp'v]
        exact hrange _ (hrange _ hvn)
      · rw [hp' w hwv]
        exact hrange _ hw
    · intro w hw
      have hwv : w ≠ v := fun heq => hw (heq ▸ hvn)
      rw [hp' w hwv]
      exact hout w hw
    · intro w hw
      by_cases hwv : w = v
      · rw [hwv] at hw ⊢
        rw [hp'v] at hw ⊢
        exact hDgv
      · rw [hp' w hwv] at hw ⊢
        exact hDp w hw
  refine ⟨hinv', ?_⟩
  have step : ∀ w,
      (∀ w', Dp w' < Dp w → ∀ s,
        (Root (Function.update parents v (parents (parents v))) w' s ↔ Root parents w' s)) →
      ∀ s, (Root (Function.update parents v (parents (parents v))) w s ↔
        Root parents w s) := by
    intro w ihm s
    by_cases hwv : w = v
    · rw [hwv] at ihm ⊢
      have h1 : Root (Function.update parents v (parents (parents v))) v s ↔
          Root (Function.update parents v (parents (parents v))) (parents (parents v)) s := by
        constructor
        · intro hr
          have h2 := hr.parent
          rwa [hp'v] at h2
        · intro hr
          exact ⟨.head hp'v hr.1, hr.2⟩
      rw [h1, ihm _ hDgv s, Root_parent_iff, Root_parent_iff]
    · by_cases hfix : parents w = w
      · have hfix' : Function.update parents v (parents (parents v)) w = w := by
          rw [hp' w hwv]; exact hfix
        rw [Root_fix_iff hfix, Root_fix_iff hfix']
      · have hDw : Dp (parents w) < Dp w := hDp w hfix
        have h1 : Root (Function.update parents v (parents (parents v))) w s ↔
            Root (Function.update parents v (parents (parents v))) (parents w) s := by
          constructor
          · intro hr
            have h2 := hr.parent
            rwa [hp' w hwv] at h2
          · intro hr
            exact ⟨.head (hp' w hwv) hr.1, hr.2⟩
        rw [h1, ihm _ hDw s, Root_parent_iff]
  have key : ∀ m w, Dp w ≤ m → ∀ s,
      (Root (Function.update parents v (parents (parents v))) w s ↔ Root parents w s) := by
    intro m
    induction m with
    | zero =>
        intro w hw s
        exact step w (fun w' hw' => absurd (lt_of_lt_of_le hw' hw) (Nat.not_lt_zero _)) s
    | succ m ih =>
        intro w hw s
        exact step w (fun w' hw' s' => ih w' (by omega) s') s
  exact fun w s => key (Dp w) w le_rfl s

theorem ufFind_spec {n : Nat} :
    ∀ (fuel : Nat) (parents : Nat → Nat) (v : Nat), UFInv n parents →
    (∃ k, k ≤ fuel ∧ parents (parents^[k] v) = parents^[k] v) →
    Root parents v (ufFind parents v fuel).2 ∧
    UFInv n (ufFind parents v fuel).1 ∧
    (∀ w s, Root (ufFind parents v fuel).1 w s ↔ Root parents w s) := by
  intro fuel
  induction fuel with
  | zero =>
      rintro parents v h ⟨k, hk, hfix⟩
      obtain rfl : k = 0 := Nat.le_zero.mp hk
      simp only [Function.iterate_zero, id_eq] at hfix
      simp only [ufFind]
      exact ⟨⟨.refl, hfix⟩, h, fun w s => by simp⟩
  | succ fuel ih =>
      rintro parents v h ⟨k, hk, hfix⟩
      by_cases hv : parents v = v
      · simp only [ufFind, if_pos hv]
        exact ⟨⟨.refl, hv⟩, h, fun w s => by simp⟩
      · simp only [ufFind, if_neg hv]
        obtain ⟨hinv1, hequiv1⟩ := update_compress_spec h hv
        obtain ⟨hrange, hout, Dp, hDp⟩ := h
        have hk0 : k ≠ 0 := by
          rintro rfl
          simp only [Function.iterate_zero, id_eq] at hfix
          exact hv hfix
        obtain ⟨k', rfl⟩ : ∃ k', k = k' + 1 := ⟨k - 1, by omega⟩
        have hDpv : Dp (parents v) < Dp v := hDp v hv
        have hDg : Dp (parents (parents v)) < Dp v := by
          by_cases hpf : parents (parents v) = parents v
          · rw [hpf]; exact hDpv
          · exact lt_trans (hDp _ hpf) hDpv
        have hAvoid : ∀ j, parents^[j] (parents (parents v)) ≠ v := by
          intro j heq
          have h1 : Dp (parents^[j] (parents (parents v))) ≤ Dp (parents (parents v)) :=
            dp_chain hDp _ j
          rw [heq] at h1
          omega
        have hIter : ∀ j,
            (Function.update parents v (parents (parents v)))^[j] (parents (parents v)) =
              parents^[j] (parents (parents v)) := by
          intro j
          induction j with
          | zero => rfl
          | succ j ihj =>
              rw [Function.iterate_succ_apply', Function.iterate_succ_apply', ihj,
                Function.update_noteq (hAvoid j)]
        have hsq : parents^[2] v = parents (parents v) := by
          simp [Function.iterate_succ_apply']
        have hchain : ∃ m, m ≤ fuel ∧
            (Function.update parents v (parents (parents v)))
              ((Function.update parents v (parents (parents v)))^[m] (parents (parents v))) =
            (Function.update parents v (parents (parents v)))^[m] (parents (parents v)) := by
          by_cases hpvfix : parents (parents v) = parents v
          · refine ⟨0, Nat.zero_le _, ?_⟩
            have h0 : parents (parents v) ≠ v := by simpa using hAvoid 0
            simp only [Function.iterate_zero, id_eq]
            rw [Function.update_noteq h0, hpvfix]
            exact hpvfix
          · have hk1 : k' ≠ 0 := by
              rintro rfl
              simp only [Function.iterate_succ, Function.iterate_zero, Function.comp_apply,
                id_eq] at hfix
              exact hpvfix hfix
            obtain ⟨k'', rfl⟩ : ∃ m, k' = m + 1 := ⟨k' - 1, by omega⟩
            have hfix2 : parents (parents^[k''] (parents (parents v))) =
                parents^[k''] (parents (parents v)) := by
              have h2 : parents^[k'' + 1 + 1] v = parents^[k''] (parents (parents v)) := by
                rw [show k'' + 1 + 1 = k'' + 2 by omega, Function.iterate_add_apply, hsq]
              rw [← h2]
              exact hfix
            refine ⟨k'', by omega, ?_⟩
            rw [hIter k'', Function.update_noteq (hAvoid k'')]
            exact hfix2
        obtain ⟨hroot2, hinv2, hequiv2⟩ :=
          ih (Function.update parents v (parents (parents v))) (parents (parents v))
            hinv1 hchain
        refine ⟨?_, hinv2, fun w s => (hequiv2 w s).trans (hequiv1 w s)⟩
        have hgr := (hequiv1 _ _).mp hroot2
        exact ⟨.head rfl (.head rfl hgr.1), hgr.2⟩

theorem ufFind_full {n : Nat} {parents : Nat → Nat} (h : UFInv n parents)
    (v : Nat) :
    (ufFind parents v n).2 = rootFn n parents v ∧
    UFInv n (ufFind parents v n).1 ∧
    (∀ w s, Root (ufFind parents v n).1 w s ↔ Root parents w s) := by
  obtain ⟨hroot, hinv, hequiv⟩ := ufFind_spec n parents v h (exists_fix h v)
  exact ⟨Root.unique hroot (rootFn_root h v), hinv, hequiv⟩

theorem rootFn_congr {n : Nat} {p p' : Nat → Nat} (h : UFInv n p)
    (h' : UFInv n p') (hequiv : ∀ w s, Root p' w s ↔ Root p w s) (w : Nat) :
    rootFn n p' w = rootFn n p w :=
  (root_eq_rootFn h ((hequiv w _).mp (rootFn_root h' w))).symm

theorem update_attach_spec {n : Nat} {parents : Nat → Nat} (h : UFInv n parents)
    {ra rb : Nat} (hra : parents ra = ra) (hrb : parents rb = rb)
    (hne : ra ≠ rb) (hran : ra < n) (hrbn : rb < n) :
    UFInv n (Function.update parents rb ra) ∧
    ∀ w, rootFn n (Function.update parents rb ra) w =
      (if rootFn n parents w = rb then ra else rootFn n parents w) := by
  obtain ⟨hrange, hout, Dp, hDp⟩ := h
  have hinv : UFInv n parents := ⟨hrange, hout, Dp, hDp⟩
  have hp'b : Function.update parents rb ra rb = ra := Function.update_same _ _ _
  have hp' : ∀ w, w ≠ rb → Function.update parents rb ra w = parents w :=
    fun w hw => Function.update_noteq hw _ _
  have hfra : rootFn n parents ra = ra := rootFn_fix hinv hra
  have hfrb : rootFn n parents rb = rb := rootFn_fix hinv hrb
  have hstep : ∀ w, Function.update parents rb ra w ≠ w →
      (Dp (Function.update parents rb ra w) +
        (if rootFn n parents (Function.update parents rb ra w) = rb then Dp ra + 1 else 0)) <
      Dp w + (if rootFn n parents w = rb then Dp ra + 1 else 0) := by
    intro w hw
    by_cases hwb : w = rb
    · rw [hwb] at hw ⊢
      rw [hp'b] at hw ⊢
      rw [hfra, hfrb, if_neg hne, if_pos rfl]
      omega
    · rw [hp' w hwb] at hw ⊢
      rw [rootFn_parent hinv w]
      have hd := hDp w hw
      split_ifs <;> omega
  have hinv' : UFInv n (Function.update parents rb ra) := by
    refine ⟨?_, ?_,
      fun x => Dp x + (if rootFn n parents x = rb then Dp ra + 1 else 0), ?_⟩
    · intro w hw
      by_cases hwb : w = rb
      · rw [hwb, hp'b]; exact hran
      · rw [hp' w hwb]; exact hrange w hw
    · intro w hw
      have hwb : w ≠ rb := fun heq => hw (heq ▸ hrbn)
      rw [hp' w hwb]; exact hout w hw
    · exact fun w hw => hstep w hw
  refine ⟨hinv', ?_⟩
  have hstep2 : ∀ w,
      (∀ w', Dp w' < Dp w → ∀ s, Root parents w' s →
        Root (Function.update parents rb ra) w' (if s = rb then ra else s)) →
      ∀ s, Root parents w s →
        Root (Function.update parents rb ra) w (if s = rb then ra else s) := by
    intro w ihm s hws
    by_cases hfix : parents w = w
    · have hsw : s = w := reach_of_fix hfix hws.1
      subst hsw
      by_cases hwb : s = rb
      · rw [if_pos hwb, hwb]
        have hra' : Function.update parents rb ra ra = ra := by
          rw [hp' ra hne]; exact hra
        exact ⟨.head hp'b .refl, hra'⟩
      · rw [if_neg hwb]
        exact ⟨.refl, by rw [hp' s hwb]; exact hfix⟩
    · have hwb : w ≠ rb := fun heq => hfix (heq ▸ hrb)
      have hres := ihm (parents w) (hDp w hfix) s hws.parent
      exact ⟨.head (hp' w hwb) hres.1, hres.2⟩
  have hkey : ∀ m w, Dp w ≤ m → ∀ s, Root parents w s →
      Root (Function.update parents rb ra) w (if s = rb then ra else s) := by
    intro m
    induction m with
    | zero =>
        intro w hw s hws
        exact hstep2 w
          (fun w' hw' => absurd (lt_of_lt_of_le hw' hw) (Nat.not_lt_zero _)) s hws
    | succ m ih =>
        intro w hw s hws
        exact hstep2 w (fun w' hw' s' hws' => ih w' (by omega) s' hws') s hws
  intro w
  exact root_eq_rootFn hinv' (hkey (Dp w) w le_rfl _ (rootFn_root hinv w))

theorem ufUnion_spec {n : Nat} {parents rank : Nat → Nat} (h : UFInv n parents)
    {u v : Nat} (hu : u < n) (hv : v < n)
    (hne : rootFn n parents u ≠ rootFn n parents v) :
    UFInv n (ufUnion parents rank n u v).1 ∧
    ∃ r, (r = rootFn n parents u ∨ r = rootFn n parents v) ∧
      ∀ w, rootFn n (ufUnion parents rank n u v).1 w =
        (if rootFn n parents w = rootFn n parents u ∨
            rootFn n parents w = rootFn n parents v
          then r else rootFn n parents w) := by
  obtain ⟨e1, hinv1, heq1⟩ := ufFind_full h u
  obtain ⟨e2, hinv2, heq2⟩ := ufFind_full hinv1 v
  have hcong1 : ∀ w, rootFn n (ufFind parents u n).1 w = rootFn n parents w :=
    rootFn_congr h hinv1 heq1
  have hcong2 : ∀ w, rootFn n (ufFind (ufFind parents u n).1 v n).1 w =
      rootFn n parents w := fun w => by
    rw [rootFn_congr hinv1 hinv2 heq2 w, hcong1 w]
  have he2' : (ufFind (ufFind parents u n).1 v n).2 = rootFn n parents v := by
    rw [e2, hcong1 v]
  -- the two roots are fixed points of the twice-compressed parent map
  have hfixu : (ufFind (ufFind parents u n).1 v n).1 (rootFn n parents u) =
      rootFn n parents u := by
    have h1 : Root parents (rootFn n parents u) (rootFn n parents u) :=
      ⟨.refl, rootFn_isFix h u⟩
    exact ((heq2 _ _).trans (heq1 _ _)).mpr h1 |>.2
  have hfixv : (ufFind (ufFind parents u n).1 v n).1 (rootFn n parents v) =
      rootFn n parents v := by
    have h1 : Root parents (rootFn n parents v) (rootFn n parents v) :=
      ⟨.refl, rootFn_isFix h v⟩
    exact ((heq2 _ _).trans (heq1 _ _)).mpr h1 |>.2
  have hun : rootFn n parents u < n := rootFn_lt h hu
  have hvn : rootFn n parents v < n := rootFn_lt h hv
  simp only [ufUnion, e1, he2']
  split_ifs with hr1 hr2
  · -- rank rv < rank ru : attach rv under ru
    obtain ⟨hinva, hform⟩ := update_attach_spec hinv2 hfixu hfixv hne hun hvn
    refine ⟨hinva, rootFn n parents u, Or.inl rfl, fun w => ?_⟩
    rw [hform w, hcong2 w]
    by_cases hc1 : rootFn n parents w = rootFn n parents u
    · rw [if_neg (hc1 ▸ hne), if_pos (Or.inl hc1)]
      exact hc1
    · by_cases hc2 : rootFn n parents w = rootFn n parents v
      · rw [if_pos hc2, if_pos (Or.inr hc2)]
      · rw [if_neg hc2, if_neg (by push_neg; exact ⟨hc1, hc2⟩)]
  · -- rank ru < rank rv : attach ru under rv
    obtain ⟨hinva, hform⟩ := update_attach_spec hinv2 hfixv hfixu (Ne.symm hne) hvn hun
    refine ⟨hinva, rootFn n parents v, Or.inr rfl, fun w => ?_⟩
    rw [hform w, hcong2 w]
    by_cases hc1 : rootFn n parents w = rootFn n parents u
    · rw [if_pos hc1, if_pos (Or.inl hc1)]
    · by_cases hc2 : rootFn n parents w = rootFn n parents v
      · rw [if_neg (hc2 ▸ (Ne.symm hne)), if_pos (Or.inr hc2)]
        exact hc2
      · rw [if_neg hc1, if_neg (by push_neg; exact ⟨hc1, hc2⟩)]
  · -- equal ranks : attach rv under ru
    obtain ⟨hinva, hform⟩ := update_attach_spec hinv2 hfixu hfixv hne hun hvn
    refine ⟨hinva, rootFn n parents u, Or.inl rfl, fun w => ?_⟩
    rw [hform w, hcong2 w]
    by_cases hc1 : rootFn n parents w = rootFn n parents u
    · rw [if_neg (hc1 ▸ hne), if_pos (Or.inl hc1)]
      exact hc1
    · by_cases hc2 : rootFn n parents w = rootFn n parents v
      · rw [if_pos hc2, if_pos (Or.inr hc2)]
      · rw [if_neg hc2, if_neg (by push_neg; exact ⟨hc1, hc2⟩)]

/-- The number of distinct union-find classes among the indices
`0 .. n-1`. -/
def rootsCount (n : Nat) (parents : Nat → Nat) : Nat :=
  ((Finset.range n).image (rootFn n parents)).card

theorem rootsCount_merge {n : Nat} {p p' : Nat → Nat} {ra rb r : Nat}
    (hr : r = ra ∨ r = rb)
    (hform : ∀ w, rootFn n p' w =
      (if rootFn n p w = ra ∨ rootFn n p w = rb then r else rootFn n p w))
    {a b : Nat} (han : a < n) (hbn : b < n)
    (hfa : rootFn n p a = ra) (hfb : rootFn n p b = rb) (hne : ra ≠ rb) :
    rootsCount n p' = rootsCount n p - 1 := by
  have hmema : ra ∈ (Finset.range n).image (rootFn n p) :=
    Finset.mem_image.mpr ⟨a, Finset.mem_range.mpr han, hfa⟩
  have hmemb : rb ∈ (Finset.range n).image (rootFn n p) :=
    Finset.mem_image.mpr ⟨b, Finset.mem_range.mpr hbn, hfb⟩
  have himg : (Finset.range n).image (rootFn n p') =
      ((Finset.range n).image (rootFn n p)).image
        (fun x => if x = ra ∨ x = rb then r else x) := by
    rw [Finset.image_image]
    apply Finset.image_congr
    intro x _
    exact hform x
  rcases hr with rfl | rfl
  · have herase : ((Finset.range n).image (rootFn n p)).image
        (fun x => if x = r ∨ x = rb then r else x) =
        ((Finset.range n).image (rootFn n p)).erase rb := by
      ext y
      simp only [Finset.mem_erase]
      constructor
      · intro hmem
        obtain ⟨x, hxT, rfl⟩ := Finset.mem_image.mp hmem
        by_cases hx : x = r ∨ x = rb
        · rw [if_pos hx]
          exact ⟨hne, hmema⟩
        · rw [if_neg hx]
          push_neg at hx
          exact ⟨hx.2, hxT⟩
      · rintro ⟨hyrb, hyT⟩
        by_cases hy : y = r
        · exact Finset.mem_image.mpr ⟨r, hmema, by rw [if_pos (Or.inl rfl), hy]⟩
        · exact Finset.mem_image.mpr
            ⟨y, hyT, by rw [if_neg (by push_neg; exact ⟨hy, hyrb⟩)]⟩
    unfold rootsCount
    rw [himg, herase, Finset.card_erase_of_mem hmemb]
  · have herase : ((Finset.range n).image (rootFn n p)).image
        (fun x => if x = ra ∨ x = r then r else x) =
        ((Finset.range n).image (rootFn n p)).erase ra := by
      ext y
      simp only [Finset.mem_erase]
      constructor
      · intro hmem
        obtain ⟨x, hxT, rfl⟩ := Finset.mem_image.mp hmem
        by_cases hx : x = ra ∨ x = r
        · rw [if_pos hx]
          exact ⟨Ne.symm hne, hmemb⟩
        · rw [if_neg hx]
          push_neg at hx
          exact ⟨hx.1, hxT⟩
      · rintro ⟨hyra, hyT⟩
        by_cases hy : y = r
        · exact Finset.mem_image.mpr ⟨r, hmemb, by rw [if_pos (Or.inr rfl), hy]⟩
        · exact Finset.mem_image.mpr
            ⟨y, hyT, by rw [if_neg (by push_neg; exact ⟨hyra, hy⟩)]⟩
    unfold rootsCount
    rw [himg, herase, Finset.card_erase_of_mem hmema]

/-- The number of not-yet-contracted indices. -/
def unmarkedCount (n : Nat) (marked : Nat → Bool) : Nat :=
  ((List.range n).filter (fun i => !marked i)).length

theorem filter_mark_one {u : Nat} {marked : Nat → Bool} :
    ∀ (l : List Nat), l.Nodup → u ∈ l → marked u = false →
      (l.filter (fun i => !(if i = u then true else marked i))).length + 1 =
        (l.filter (fun i => !marked i)).length := by
  intro l
  induction l with
  | nil => intro _ h; exact absurd h (List.not_mem_nil u)
  | cons a l ih =>
      intro hnd hmem hmu
      rcases List.mem_cons.mp hmem with heq | hmem'
      · subst heq
        rw [List.filter_cons, List.filter_cons]
        have h1 : (!(if u = u then true else marked u)) = false := by simp
        have h2 : (!marked u) = true := by rw [hmu]; rfl
        rw [h1, h2]
        have h3 : l.filter (fun i => !(if i = u then true else marked i)) =
            l.filter (fun i => !marked i) := by
          apply List.filter_congr
          intro i hi
          have hia : i ≠ u := fun hia => (List.nodup_cons.mp hnd).1 (hia ▸ hi)
          rw [if_neg hia]
        rw [h3]
        simp
      · have hau : a ≠ u := fun heq =>
          (List.nodup_cons.mp hnd).1 (heq ▸ hmem')
        rw [List.filter_cons, List.filter_cons]
        have hpa : (!(if a = u then true else marked a)) = (!marked a) := by
          rw [if_neg hau]
        rw [hpa]
        have hih := ih (List.nodup_cons.mp hnd).2 hmem' hmu
        cases hma : (!marked a) with
        | false => simp only [hma, Bool.false_eq_true, if_false]; exact hih
        | true =>
            simp only [hma, if_true]
            simp only [List.length_cons]
            omega

theorem unmarkedCount_mark_strict {n u v : Nat} {marked : Nat → Bool}
    (hun : u < n) (hvn : v < n) (huv : u ≠ v)
    (hmu : marked u = false) (hmv : marked v = false) :
    unmarkedCount n (fun w => if w = u ∨ w = v then true else marked w) + 2 =
      unmarkedCount n marked := by
  have hnd : (List.range n).Nodup := List.nodup_range n
  have humem : u ∈ List.range n := List.mem_range.mpr hun
  have hvmem : v ∈ List.range n := List.mem_range.mpr hvn
  have h1 : unmarkedCount n (fun w => if w = u then true else marked w) + 1 =
      unmarkedCount n marked := by
    unfold unmarkedCount
    exact filter_mark_one (List.range n) hnd humem hmu
  have h2 : unmarkedCount n
        (fun w => if w = v then true else (if w = u then true else marked w)) + 1 =
      unmarkedCount n (fun w => if w = u then true else marked w) := by
    unfold unmarkedCount
    have hmv' : (fun w => if w = u then true else marked w) v = false := by
      show (if v = u then true else marked v) = false
      rw [if_neg (Ne.symm huv)]
      exact hmv
    have hres := @filter_mark_one v (fun w => if w = u then true else marked w)
      (List.range n) hnd hvmem hmv'
    simpa using hres
  have h3 : (fun w => if w = u ∨ w = v then true else marked w) =
      (fun w => if w = v then true else (if w = u then true else marked w)) := by
    funext w
    by_cases hwv : w = v
    · rw [if_pos (Or.inr hwv), if_pos hwv]
    · by_cases hwu : w = u
      · rw [if_pos (Or.inl hwu), if_neg hwv, if_pos hwu]
      · rw [if_neg (by push_neg; exact ⟨hwu, hwv⟩), if_neg hwv, if_neg hwu]
  rw [h3]
  omega

theorem unmarkedCount_mark_loose {n u v : Nat} {marked : Nat → Bool}
    (hun : u < n) (hmu : marked u = false) (hmv : marked v = true) :
    unmarkedCount n (fun w => if w = u ∨ w = v then true else marked w) + 1 =
      unmarkedCount n marked := by
  have hnd : (List.range n).Nodup := List.nodup_range n
  have humem : u ∈ List.range n := List.mem_range.mpr hun
  have h3 : (fun w => if w = u ∨ w = v then true else marked w) =
      (fun w => if w = u then true else marked w) := by
    funext w
    by_cases hwu : w = u
    · rw [if_pos (Or.inl hwu), if_pos hwu]
    · by_cases hwv : w = v
      · rw [if_pos (Or.inr hwv), if_neg hwu, hwv, hmv]
      · rw [if_neg (by push_neg; exact ⟨hwu, hwv⟩), if_neg hwu]
  rw [h3]
  unfold unmarkedCount
  exact filter_mark_one (List.range n) hnd humem hmu

/-- The invariant carried through both pooling phases: the union-find is a
forest, `n_abstract_nodes` equals the number of union-find classes, the
target has not been overshot, and every unmarked index is still a
singleton class. -/
def PoolInv (n target : Nat) (st : PoolState) : Prop :=
  UFInv n st.parents ∧
  st.count = rootsCount n st.parents ∧
  target ≤ st.count ∧
  (∀ i, i < n → st.marked i = false →
    rootFn n st.parents i = i ∧
    ∀ w, w < n → rootFn n st.parents w = i → w = i)

theorem poolPhase_spec {n target : Nat} (strict : Bool) :
    ∀ (tuples : List (Nat × Nat × Nat)) (st : PoolState), PoolInv n target st →
    (∀ t ∈ tuples, t.2.1 < n ∧ t.2.2 < n ∧ t.2.1 ≠ t.2.2 ∧
      (strict = false → st.marked t.2.2 = true)) →
    PoolInv n target (poolPhase strict n target tuples st) ∧
    (∀ i, st.marked i = true →
      (poolPhase strict n target tuples st).marked i = true) ∧
    (poolPhase strict n target tuples st).count ≤ st.count ∧
    unmarkedCount n st.marked =
      unmarkedCount n (poolPhase strict n target tuples st).marked +
        (if strict then 2 else 1) *
          (st.count - (poolPhase strict n target tuples st).count) ∧
    ((poolPhase strict n target tuples st).count = target ∨
      ∀ t ∈ tuples,
        (if strict
          then ((poolPhase strict n target tuples st).marked t.2.1 ||
            (poolPhase strict n target tuples st).marked t.2.2)
          else (poolPhase strict n target tuples st).marked t.2.1) = true) := by
  intro tuples
  induction tuples with
  | nil =>
      intro st hinv _
      simp only [poolPhase]
      refine ⟨hinv, fun i hi => hi, le_rfl, by simp, Or.inr ?_⟩
      intro t ht
      exact absurd ht (List.not_mem_nil t)
  | cons t rest ih =>
      obtain ⟨key, u, v⟩ := t
      intro st hinv hval
      simp only [poolPhase]
      by_cases hstop : st.count ≤ target
      · rw [if_pos hstop]
        have hct : st.count = target := le_antisymm hstop hinv.2.2.1
        exact ⟨hinv, fun i hi => hi, le_rfl, by simp, Or.inl hct⟩
      · rw [if_neg hstop]
        obtain ⟨hu, hv, huv, hloose⟩ := hval (key, u, v) (List.mem_cons_self _ _)
        by_cases hskip : ((strict && (st.marked u || st.marked v)) ||
            (!strict && !(st.marked u ^^ st.marked v))) = true
        · rw [if_pos hskip]
          have hres := ih st hinv (fun t ht => hval t (List.mem_cons_of_mem _ ht))
          refine ⟨hres.1, hres.2.1, hres.2.2.1, hres.2.2.2.1, ?_⟩
          rcases hres.2.2.2.2 with hleft | hright
          · exact Or.inl hleft
          · refine Or.inr ?_
            intro t ht
            rcases List.mem_cons.mp ht with heq | hmem
            · subst heq
              cases strict
              · simp only [Bool.false_eq_true, if_false]
                simp only [Bool.false_and, Bool.false_or, Bool.true_and,
                  Bool.not_false, Bool.not_eq_true'] at hskip
                have hmv : st.marked v = true := hloose rfl
                have hmu : st.marked u = true := by
                  cases hmu' : st.marked u
                  · rw [hmu', hmv] at hskip
                    simp at hskip
                  · rfl
                exact hres.2.1 u hmu
              · simp only [Bool.true_and, Bool.not_true, Bool.false_and,
                  Bool.or_false] at hskip
                rw [if_pos rfl]
                rcases Bool.or_eq_true_iff.mp hskip with hmu | hmv
                · rw [hres.2.1 u hmu]
                  simp
                · rw [hres.2.1 v hmv]
                  simp
            · exact hright t hmem
        · rw [if_neg hskip]
          -- the contraction branch: u is unmarked; in strict mode so is v,
          -- in loose mode v is marked
          have hmu : st.marked u = false ∧
              ((strict = true ∧ st.marked v = false) ∨
               (strict = false ∧ st.marked v = true)) := by
            cases strict
            · have hmv : st.marked v = true := hloose rfl
              simp only [Bool.false_and, Bool.false_or, Bool.true_and,
                Bool.not_false, Bool.not_eq_true'] at hskip
              cases hmu' : st.marked u
              · exact ⟨rfl, Or.inr ⟨rfl, hmv⟩⟩
              · exfalso
                rw [hmu', hmv] at hskip
                simp at hskip
            · simp only [Bool.true_and, Bool.not_true, Bool.false_and,
                Bool.or_false, Bool.or_eq_true_iff, not_or,
                Bool.not_eq_true] at hskip
              exact ⟨hskip.1, Or.inl ⟨rfl, hskip.2⟩⟩
          obtain ⟨hmuf, hcase⟩ := hmu
          obtain ⟨hfixu, hsingu⟩ := hinv.2.2.2 u hu hmuf
          have hne : rootFn n st.parents u ≠ rootFn n st.parents v := by
            intro heq
            rw [hfixu] at heq
            exact huv (hsingu v hv heq.symm).symm
          obtain ⟨hinvU, r, hrOr, hform⟩ :=
            @ufUnion_spec n st.parents st.rank hinv.1 u v hu hv hne
          have hmerge : rootsCount n (ufUnion st.parents st.rank n u v).1 =
              rootsCount n st.parents - 1 :=
            rootsCount_merge hrOr hform hu hv rfl rfl hne
          have hinv' : PoolInv n target
              ⟨(ufUnion st.parents st.rank n u v).1,
               (ufUnion st.parents st.rank n u v).2,
               fun w => if w = u ∨ w = v then true else st.marked w,
               st.count - 1⟩ := by
            refine ⟨hinvU, ?_, ?_, ?_⟩
            · show st.count - 1 = rootsCount n (ufUnion st.parents st.rank n u v).1
              rw [hmerge, hinv.2.1]
            · show target ≤ st.count - 1
              omega
            · intro i hin hmi
              dsimp only at hmi ⊢
              have hiu : i ≠ u := by
                intro heq
                rw [if_pos (Or.inl heq)] at hmi
                exact Bool.noConfusion hmi
              have hiv : i ≠ v := by
                intro heq
                rw [if_pos (Or.inr heq)] at hmi
                exact Bool.noConfusion hmi
              rw [if_neg (by push_neg; exact ⟨hiu, hiv⟩)] at hmi
              obtain ⟨hfixi, hsingi⟩ := hinv.2.2.2 i hin hmi
              have hru : rootFn n st.parents u = u := hfixu
              have hrvne : rootFn n st.parents v ≠ i := by
                intro heq
                exact hiv (hsingi v hv heq).symm
              constructor
              · rw [hform i, hfixi]
                rw [if_neg ?_]
                intro hcw
                rcases hcw with hl | hr
                · exact hiu (hl.trans hru)
                · exact hrvne hr.symm
              · intro w hwn hweq
                rw [hform w] at hweq
                by_cases hcw : rootFn n st.parents w = rootFn n st.parents u ∨
                    rootFn n st.parents w = rootFn n st.parents v
                · rw [if_pos hcw] at hweq
                  exfalso
                  rcases hrOr with hr1 | hr2
                  · rw [hr1, hru] at hweq
                    exact hiu hweq.symm
                  · rw [hr2] at hweq
                    exact hrvne hweq
                · rw [if_neg hcw] at hweq
                  exact hsingi w hwn hweq
          have hval' : ∀ t ∈ rest, t.2.1 < n ∧ t.2.2 < n ∧ t.2.1 ≠ t.2.2 ∧
              (strict = false →
                (if t.2.2 = u ∨ t.2.2 = v then true else st.marked t.2.2) = true) := by
            intro t ht
            obtain ⟨h1, h2, h3, h4⟩ := hval t (List.mem_cons_of_mem _ ht)
            refine ⟨h1, h2, h3, fun hs => ?_⟩
            by_cases hc : t.2.2 = u ∨ t.2.2 = v
            · rw [if_pos hc]
            · rw [if_neg hc]
              exact h4 hs
          have hres := ih _ hinv' hval'
          have hmark' : ∀ i, st.marked i = true →
              (if i = u ∨ i = v then true else st.marked i) = true := by
            intro i hi
            by_cases hc : i = u ∨ i = v
            · rw [if_pos hc]
            · rw [if_neg hc]; exact hi
          have hacct : unmarkedCount n
              (fun w => if w = u ∨ w = v then true else st.marked w) +
              (if strict then 2 else 1) * 1 = unmarkedCount n st.marked := by
            rcases hcase with ⟨hs, hmvf⟩ | ⟨hs, hmvt⟩ <;> subst hs
            · simp only [eq_self_iff_true, if_true, Nat.mul_one]
              exact unmarkedCount_mark_strict hu hv huv hmuf hmvf
            · simp only [Bool.false_eq_true, if_false, Nat.mul_one]
              exact unmarkedCount_mark_loose hu hmuf hmvt
          refine ⟨hres.1, ?_, ?_, ?_, ?_⟩
          · intro i hi
            exact hres.2.1 i (hmark' i hi)
          · have h2 := hres.2.2.1
            dsimp only at h2 ⊢
            omega
          · have h1 := hres.2.2.2.1
            have h2 := hres.2.2.1
            dsimp only at h1 h2 ⊢
            rcases hcase with ⟨hs, h3⟩ | ⟨hs, h3⟩ <;> subst hs <;>
              simp only [eq_self_iff_true, if_true, Bool.false_eq_true, if_false,
                Nat.mul_one] at h1 h2 hacct ⊢ <;>
              omega
          · rcases hres.2.2.2.2 with hleft | hright
            · exact Or.inl hleft
            · refine Or.inr ?_
              intro t ht
              rcases List.mem_cons.mp ht with heq | hmem
              · subst heq
                have hmufin : (poolPhase strict n target rest
                    ⟨(ufUnion st.parents st.rank n u v).1,
                     (ufUnion st.parents st.rank n u v).2,
                     fun w => if w = u ∨ w = v then true else st.marked w,
                     st.count - 1⟩).marked u = true :=
                  hres.2.1 u (by dsimp only; rw [if_pos (Or.inl rfl)])
                cases strict
                · simp only [Bool.false_eq_true, if_false]
                  exact hmufin
                · simp only [eq_self_iff_true, if_true]
                  rw [hmufin]
                  simp
              · exact hright t hmem

theorem specRoot_id : ∀ (fuel v : Nat), specRoot id v fuel = v := by
  intro fuel v
  cases fuel with
  | zero => rfl
  | succ fuel => simp [specRoot]

theorem UFInv_id (n : Nat) : UFInv n id :=
  ⟨fun v hv => hv, fun _ _ => rfl, fun _ => 0, fun v hv => absurd rfl hv⟩

theorem rootsCount_id (n : Nat) : rootsCount n id = n := by
  unfold rootsCount
  have h1 : (Finset.range n).image (rootFn n id) = Finset.range n := by
    have h2 : rootFn n id = fun v => v := funext (fun v => specRoot_id n v)
    rw [h2, Finset.image_id']
  rw [h1, Finset.card_range]

theorem PoolInv_init {n target : Nat} (ht : target ≤ n) :
    PoolInv n target (⟨id, fun _ => 1, fun _ => false, n⟩ : PoolState) := by
  refine ⟨UFInv_id n, ?_, ht, ?_⟩
  · show n = rootsCount n id
    rw [rootsCount_id]
  · intro i hin _
    dsimp only
    refine ⟨specRoot_id n i, ?_⟩
    intro w _ hw
    show w = i
    rw [show rootFn n id w = w from specRoot_id n w] at hw
    exact hw

theorem unmarkedCount_init (n : Nat) :
    unmarkedCount n (fun _ => false) = n := by
  unfold unmarkedCount
  simp

theorem pvTuples1_mem {g : SGraph} {t : Nat × Nat × Nat}
    (ht : t ∈ pvTuples1 g) :
    ∃ e ∈ g.edges, e.1 ≠ e.2 ∧ t.2.1 = pvNodeIdx g e.1 ∧
      t.2.2 = pvNodeIdx g e.2 := by
  unfold pvTuples1 at ht
  rw [(List.perm_insertionSort tupleLE _).mem_iff] at ht
  obtain ⟨e, he, hsome⟩ := List.mem_filterMap.mp ht
  by_cases hne : e.1 ≠ e.2
  · rw [if_pos hne] at hsome
    obtain rfl := Option.some_injective _ hsome
    exact ⟨e, he, hne, rfl, rfl⟩
  · rw [if_neg hne] at hsome
    exact absurd hsome Option.noConfusion

theorem pvTuples1_complete {g : SGraph} {e : Nat × Nat} (he : e ∈ g.edges)
    (hne : e.1 ≠ e.2) :
    (pvDeg g (pvNodeIdx g e.1) * pvDeg g (pvNodeIdx g e.2),
      pvNodeIdx g e.1, pvNodeIdx g e.2) ∈ pvTuples1 g := by
  unfold pvTuples1
  rw [(List.perm_insertionSort tupleLE _).mem_iff]
  exact List.mem_filterMap.mpr ⟨e, he, by rw [if_pos hne]⟩

theorem pvTuples1_valid {g : SGraph} (hnodup : g.nodes.Nodup)
    (hclosed : ∀ e ∈ g.edges, e.1 ∈ g.nodes ∧ e.2 ∈ g.nodes)
    {t : Nat × Nat × Nat} (ht : t ∈ pvTuples1 g) :
    t.2.1 < g.nodes.length ∧ t.2.2 < g.nodes.length ∧ t.2.1 ≠ t.2.2 := by
  obtain ⟨e, he, hne, h1, h2⟩ := pvTuples1_mem ht
  obtain ⟨hm1, hm2⟩ := hclosed e he
  refine ⟨?_, ?_, ?_⟩
  · rw [h1]
    exact List.indexOf_lt_length.mpr hm1
  · rw [h2]
    exact List.indexOf_lt_length.mpr hm2
  · rw [h1, h2]
    intro heq
    exact hne ((List.indexOf_inj hm1 hm2).mp heq)

theorem getD_mem {l : List Nat} {i : Nat} (hi : i < l.length) :
    l.getD i 0 ∈ l := by
  rw [List.getD_eq_getElem l 0 hi]
  exact List.getElem_mem hi

theorem indexOf_getD {l : List Nat} (hnd : l.Nodup) {i : Nat}
    (hi : i < l.length) : l.indexOf (l.getD i 0) = i := by
  have hmem := getD_mem hi
  have hlt : l.indexOf (l.getD i 0) < l.length := List.indexOf_lt_length.mpr hmem
  have hget : l.get ⟨l.indexOf (l.getD i 0), hlt⟩ = l.getD i 0 :=
    List.indexOf_get hlt
  have hgetD : l.getD i 0 = l.get ⟨i, hi⟩ := by
    rw [List.getD_eq_getElem l 0 hi]
    rfl
  have h2 : l.get ⟨l.indexOf (l.getD i 0), hlt⟩ = l.get ⟨i, hi⟩ := by
    rw [hget, hgetD]
  have h3 := (List.Nodup.get_inj_iff hnd).mp h2
  exact congrArg Fin.val h3

theorem reaches_first_step {g : SGraph} {a b : Nat} (h : g.Reaches a b) :
    a ≠ b → ∃ c, g.Adj a c ∧ c ≠ a := by
  induction h using Relation.ReflTransGen.head_induction_on with
  | refl => intro hne; exact absurd rfl hne
  | @head x y hstep hrest ih =>
      intro hne
      by_cases hxy : y = x
      · subst hxy
        exact ih hne
      · exact ⟨y, hstep, hxy⟩

theorem neighbors_mem_nodes {g : SGraph}
    (hclosed : ∀ e ∈ g.edges, e.1 ∈ g.nodes ∧ e.2 ∈ g.nodes)
    {x w : Nat} (hw : w ∈ g.neighbors x) : w ∈ g.nodes := by
  rcases SGraph.mem_neighbors.mp hw with h | h
  · exact (hclosed _ h).2
  · exact (hclosed _ h).1

theorem pvTuples2_mem {g : SGraph} {t : Nat × Nat × Nat}
    (ht : t ∈ pvTuples2 g) :
    ∃ ui, ui < g.nodes.length ∧ (pvSt1 g).marked ui = false ∧
      ∃ w ∈ g.neighbors (g.nodes.getD ui 0),
        (pvSt1 g).marked (pvNodeIdx g w) = true ∧
        t = (pvDeg g ui * pvDeg g (pvNodeIdx g w), ui, pvNodeIdx g w) := by
  unfold pvTuples2 at ht
  rw [(List.perm_insertionSort tupleLE _).mem_iff] at ht
  obtain ⟨ui, hui, hin⟩ := List.mem_flatMap.mp ht
  obtain ⟨huir, huim⟩ := List.mem_filter.mp hui
  obtain ⟨w, hw, hsome⟩ := List.mem_filterMap.mp hin
  by_cases hm : (pvSt1 g).marked (pvNodeIdx g w) = true
  · rw [if_pos hm] at hsome
    have heq := Option.some_injective _ hsome
    exact ⟨ui, List.mem_range.mp huir, by simpa using huim, w, hw, hm, heq.symm⟩
  · rw [if_neg hm] at hsome
    exact absurd hsome Option.noConfusion

theorem pvTuples2_complete {g : SGraph} {ui w : Nat}
    (hui : ui < g.nodes.length) (hmui : (pvSt1 g).marked ui = false)
    (hw : w ∈ g.neighbors (g.nodes.getD ui 0))
    (hmw : (pvSt1 g).marked (pvNodeIdx g w) = true) :
    (pvDeg g ui * pvDeg g (pvNodeIdx g w), ui, pvNodeIdx g w) ∈ pvTuples2 g := by
  unfold pvTuples2
  rw [(List.perm_insertionSort tupleLE _).mem_iff]
  refine List.mem_flatMap.mpr ⟨ui, ?_, ?_⟩
  · exact List.mem_filter.mpr ⟨List.mem_range.mpr hui, by simp [hmui]⟩
  · exact List.mem_filterMap.mpr ⟨w, hw, by rw [if_pos hmw]⟩

theorem pvSt2_count (g : SGraph) (hnodup : g.nodes.Nodup)
    (hclosed : ∀ e ∈ g.edges, e.1 ∈ g.nodes ∧ e.2 ∈ g.nodes)
    (hconn : ∀ u ∈ g.nodes, ∀ v ∈ g.nodes, g.Reaches u v) :
    PoolInv g.nodes.length (pvTarget g) (pvSt2 g) ∧
      (pvSt2 g).count = pvTarget g := by
  have htn : pvTarget g ≤ g.nodes.length := by
    show (g.nodes.length + 1) / 2 ≤ g.nodes.length
    omega
  have hval1 : ∀ t ∈ pvTuples1 g, t.2.1 < g.nodes.length ∧
      t.2.2 < g.nodes.length ∧ t.2.1 ≠ t.2.2 ∧
      (true = false →
        (⟨id, fun _ => 1, fun _ => false, g.nodes.length⟩ : PoolState).marked t.2.2
          = true) := by
    intro t ht
    obtain ⟨h1, h2, h3⟩ := pvTuples1_valid hnodup hclosed ht
    exact ⟨h1, h2, h3, fun h => Bool.noConfusion h⟩
  have hR1 := poolPhase_spec true (pvTuples1 g)
    ⟨id, fun _ => 1, fun _ => false, g.nodes.length⟩ (PoolInv_init htn) hval1
  have hinv1 : PoolInv g.nodes.length (pvTarget g) (pvSt1 g) := hR1.1
  have hcnt1 : (pvSt1 g).count ≤ g.nodes.length := hR1.2.2.1
  have hacct1 : g.nodes.length = unmarkedCount g.nodes.length (pvSt1 g).marked +
      2 * (g.nodes.length - (pvSt1 g).count) := by
    have h := hR1.2.2.2.1
    dsimp only at h
    rw [unmarkedCount_init] at h
    have hif : (if (true : Bool) then 2 else 1) = 2 := rfl
    rw [hif] at h
    exact h
  unfold pvSt2
  by_cases hc : pvTarget g < (pvSt1 g).count
  · rw [if_pos hc]
    -- phase 1 exhausted its heap: every non-loop edge has a marked endpoint
    have hall1 : ∀ t ∈ pvTuples1 g,
        ((pvSt1 g).marked t.2.1 || (pvSt1 g).marked t.2.2) = true := by
      rcases hR1.2.2.2.2 with hleft | hright
      · exact absurd (show (pvSt1 g).count = pvTarget g from hleft) (by omega)
      · intro t ht
        simpa using hright t ht
    have hval2 : ∀ t ∈ pvTuples2 g, t.2.1 < g.nodes.length ∧
        t.2.2 < g.nodes.length ∧ t.2.1 ≠ t.2.2 ∧
        (false = false → (pvSt1 g).marked t.2.2 = true) := by
      intro t ht
      obtain ⟨ui, huin, hmui, w, hw, hmw, rfl⟩ := pvTuples2_mem ht
      have hwn : w ∈ g.nodes := neighbors_mem_nodes hclosed hw
      refine ⟨huin, List.indexOf_lt_length.mpr hwn, ?_, fun _ => hmw⟩
      intro heq
      dsimp only at heq
      rw [heq] at hmui
      rw [hmui] at hmw
      exact Bool.noConfusion hmw
    have hR2 := poolPhase_spec false (pvTuples2 g) (pvSt1 g) hinv1 hval2
    refine ⟨hR2.1, ?_⟩
    have hcnt2 : (poolPhase false g.nodes.length (pvTarget g) (pvTuples2 g)
        (pvSt1 g)).count ≤ (pvSt1 g).count := hR2.2.2.1
    have htgt2 : pvTarget g ≤ (poolPhase false g.nodes.length (pvTarget g)
        (pvTuples2 g) (pvSt1 g)).count := hR2.1.2.2.1
    rcases hR2.2.2.2.2 with hleft | hright
    · exact hleft
    · -- no early stop: every unmarked node got pooled into a marked
      -- neighbour, so nothing is unmarked any more
      have hn2 : 2 ≤ g.nodes.length := by
        have h1 : (g.nodes.length + 1) / 2 < g.nodes.length :=
          lt_of_lt_of_le hc hcnt1
        omega
      have hcover : ∀ i, i < g.nodes.length → (pvSt1 g).marked i = false →
          (poolPhase false g.nodes.length (pvTarget g) (pvTuples2 g)
            (pvSt1 g)).marked i = true := by
        intro i hin hmi
        have ha : g.nodes.getD i 0 ∈ g.nodes := getD_mem hin
        have hidxa : pvNodeIdx g (g.nodes.getD i 0) = i := indexOf_getD hnodup hin
        -- a second node distinct from nodes[i]
        have hb : ∃ b ∈ g.nodes, b ≠ g.nodes.getD i 0 := by
          have h0n : 0 < g.nodes.length := by omega
          have h1n : 1 < g.nodes.length := by omega
          by_cases h0 : g.nodes.getD 0 0 = g.nodes.getD i 0
          · refine ⟨g.nodes.getD 1 0, getD_mem h1n, ?_⟩
            intro heq
            have e0 := indexOf_getD hnodup h0n
            have e1 := indexOf_getD hnodup h1n
            rw [heq, ← h0, e0] at e1
            exact absurd e1 (by omega)
          · exact ⟨g.nodes.getD 0 0, getD_mem h0n, h0⟩
        obtain ⟨b, hbmem, hbne⟩ := hb
        obtain ⟨c, hadj, hca⟩ :=
          reaches_first_step (hconn _ ha b hbmem) (Ne.symm hbne)
        have hcn : c ∈ g.nodes := by
          rcases hadj with h | h
          · exact (hclosed _ h).2
          · exact (hclosed _ h).1
        have hcne : g.nodes.getD i 0 ≠ c := Ne.symm hca
        -- the phase-1 tuple of the edge {nodes[i], c} shows c is marked
        have hmc : (pvSt1 g).marked (pvNodeIdx g c) = true := by
          rcases hadj with h | h
          · have := hall1 _ (pvTuples1_complete h hcne)
            dsimp only at this
            rw [hidxa] at this
            rw [hmi] at this
            simpa using this
          · have := hall1 _ (pvTuples1_complete h (Ne.symm hcne))
            dsimp only at this
            rw [hidxa] at this
            rw [hmi] at this
            simpa using this
        have hmem2 := pvTuples2_complete hin hmi
          (SGraph.mem_neighbors.mpr hadj) hmc
        have := hright _ hmem2
        simpa using this
      have hum2 : unmarkedCount g.nodes.length
          (poolPhase false g.nodes.length (pvTarget g) (pvTuples2 g)
            (pvSt1 g)).marked = 0 := by
        unfold unmarkedCount
        rw [List.length_eq_zero]
        rw [List.filter_eq_nil]
        intro i hi
        rw [List.mem_range] at hi
        simp only [Bool.not_eq_true', Bool.not_eq_false]
        cases hmmi : (pvSt1 g).marked i with
        | false => exact hcover i hi hmmi
        | true => exact hR2.2.1 i hmmi
      have hacct2 : unmarkedCount g.nodes.length (pvSt1 g).marked =
          unmarkedCount g.nodes.length
            (poolPhase false g.nodes.length (pvTarget g) (pvTuples2 g)
              (pvSt1 g)).marked +
          1 * ((pvSt1 g).count - (poolPhase false g.nodes.length (pvTarget g)
            (pvTuples2 g) (pvSt1 g)).count) := by
        have h := hR2.2.2.2.1
        have hif : (if (false : Bool) then 2 else 1) = 1 := rfl
        rw [hif] at h
        exact h
      have htv : pvTarget g = (g.nodes.length + 1) / 2 := rfl
      rw [hum2] at hacct2
      omega
  · rw [if_neg hc]
    push_neg at hc
    exact ⟨hinv1, le_antisymm hc hinv1.2.2.1⟩

theorem pooling_image_card {g : SGraph} (hnodup : g.nodes.Nodup)
    (hinv : PoolInv g.nodes.length (pvTarget g) (pvSt2 g)) :
    ((g.nodes.map (abstractVertexPooling g)).dedup).length = (pvSt2 g).count := by
  have hUF : UFInv g.nodes.length (pvSt2 g).parents := hinv.1
  have hfind : ∀ x, (ufFind (pvSt2 g).parents x g.nodes.length).2 =
      rootFn g.nodes.length (pvSt2 g).parents x := fun x => (ufFind_full hUF x).1
  have hroots : pvRoots g =
      ((List.range g.nodes.length).map
        (rootFn g.nodes.length (pvSt2 g).parents)).dedup := by
    unfold pvRoots
    congr 1
    rw [List.map_map]
    apply List.map_congr_left
    intro i _
    simp only [Function.comp_apply]
    rw [hfind ((pvSt2 g).parents i)]
    exact rootFn_parent hUF i
  have hFin : ((List.range g.nodes.length).map
      (rootFn g.nodes.length (pvSt2 g).parents)).toFinset =
      (Finset.range g.nodes.length).image
        (rootFn g.nodes.length (pvSt2 g).parents) := by
    ext x
    simp [List.mem_map, List.mem_range, Finset.mem_image, Finset.mem_range]
  have hmemL : ∀ x, x ∈ ((List.range g.nodes.length).map
      (rootFn g.nodes.length (pvSt2 g).parents)).dedup ↔
      x ∈ (Finset.range g.nodes.length).image
        (rootFn g.nodes.length (pvSt2 g).parents) := by
    intro x
    rw [List.mem_dedup, ← List.mem_toFinset, hFin]
  have hmap : g.nodes.map (abstractVertexPooling g) =
      g.nodes.map (fun v =>
        (((List.range g.nodes.length).map
          (rootFn g.nodes.length (pvSt2 g).parents)).dedup).indexOf
          (rootFn g.nodes.length (pvSt2 g).parents (pvNodeIdx g v))) := by
    apply List.map_congr_left
    intro v _
    unfold abstractVertexPooling
    rw [hroots, hfind]
  have htfm : (g.nodes.map (fun v =>
      (((List.range g.nodes.length).map
        (rootFn g.nodes.length (pvSt2 g).parents)).dedup).indexOf
        (rootFn g.nodes.length (pvSt2 g).parents (pvNodeIdx g v)))).toFinset =
      g.nodes.toFinset.image (fun v =>
      (((List.range g.nodes.length).map
        (rootFn g.nodes.length (pvSt2 g).parents)).dedup).indexOf
        (rootFn g.nodes.length (pvSt2 g).parents (pvNodeIdx g v))) := by
    ext x
    simp [List.mem_map, Finset.mem_image]
  rw [hmap, ← List.card_toFinset, htfm]
  have himgidx : g.nodes.toFinset.image (pvNodeIdx g) =
      Finset.range g.nodes.length := by
    ext j
    simp only [Finset.mem_image, Finset.mem_range, List.mem_toFinset]
    constructor
    · rintro ⟨v, hv, rfl⟩
      exact List.indexOf_lt_length.mpr hv
    · intro hj
      exact ⟨g.nodes.getD j 0, getD_mem hj, indexOf_getD hnodup hj⟩
  have hsplit : ((g.nodes.toFinset.image (pvNodeIdx g)).image
        (rootFn g.nodes.length (pvSt2 g).parents)).image
        (fun r => (((List.range g.nodes.length).map
          (rootFn g.nodes.length (pvSt2 g).parents)).dedup).indexOf r) =
      g.nodes.toFinset.image (fun v =>
        (((List.range g.nodes.length).map
          (rootFn g.nodes.length (pvSt2 g).parents)).dedup).indexOf
          (rootFn g.nodes.length (pvSt2 g).parents (pvNodeIdx g v))) := by
    rw [Finset.image_image, Finset.image_image]
    rfl
  rw [← hsplit, himgidx]
  have hinj : Set.InjOn (fun r => (((List.range g.nodes.length).map
      (rootFn g.nodes.length (pvSt2 g).parents)).dedup).indexOf r)
      ((Finset.range g.nodes.length).image
        (rootFn g.nodes.length (pvSt2 g).parents)) := by
    intro x hx y hy hxy
    have hxL := (hmemL x).mpr (Finset.mem_coe.mp hx)
    have hyL := (hmemL y).mpr (Finset.mem_coe.mp hy)
    exact (List.indexOf_inj hxL hyL).mp hxy
  rw [Finset.card_image_of_injOn hinj]
  exact (hinv.2.1).symm

/-- C2: on a connected graph (nodes listed without duplicates, every edge
endpoint a node, every pair of nodes connected), `abstract_vertex_pooling`
maps the nodes onto exactly `⌈|V|/2⌉ = (|V|+1)/2` distinct abstract-node
ids: the two contraction phases always reach the target size. -/
theorem abstractVertexPooling_cardinality (g : SGraph)
    (hne : g.nodes ≠ []) (hnodup : g.nodes.Nodup)
    (hclosed : ∀ e ∈ g.edges, e.1 ∈ g.nodes ∧ e.2 ∈ g.nodes)
    (hconn : ∀ u ∈ g.nodes, ∀ v ∈ g.nodes, g.Reaches u v) :
    ((g.nodes.map (abstractVertexPooling g)).dedup).length =
      (g.nodes.length + 1) / 2 := by
  obtain ⟨hinv, hcount⟩ := pvSt2_count g hnodup hclosed hconn
  rw [pooling_image_card hnodup hinv, hcount]
  rfl

/-- Witness for C2: the triangle on nodes 0, 1, 2 is pooled onto exactly
`⌈3/2⌉ = 2` abstract nodes. -/
theorem abstractVertexPooling_cardinality_witness :
    (([0, 1, 2] : List Nat) ≠ []) ∧
    ((([0, 1, 2] : List Nat).map
      (abstractVertexPooling ⟨[0, 1, 2], [(0, 1), (1, 2), (2, 0)]⟩)).dedup).length
      = 2 := by
  refine ⟨by decide, ?_⟩
  have h := abstractVertexPooling_cardinality
    ⟨[0, 1, 2], [(0, 1), (1, 2), (2, 0)]⟩ (by decide) (by decide) (by decide) ?_
  · exact h
  · intro u hu v hv
    fin_cases hu <;> fin_cases hv
    · exact Relation.ReflTransGen.refl
    · exact Relation.ReflTransGen.single (Or.inl (by decide))
    · exact Relation.ReflTransGen.single (Or.inr (by decide))
    · exact Relation.ReflTransGen.single (Or.inr (by decide))
    · exact Relation.ReflTransGen.refl
    · exact Relation.ReflTransGen.single (Or.inl (by decide))
    · exact Relation.ReflTransGen.single (Or.inl (by decide))
    · exact Relation.ReflTransGen.single (Or.inr (by decide))
    · exact Relation.ReflTransGen.refl

/-! ### Graph abstraction and hierarchy
(`src/engine/modules/abstraction/graph.py` lines 25-47,
`src/engine/modules/abstraction/hierarchy.py` lines 27-35) -/

/-- The fields of `GraphAbstraction` relevant to the hierarchy: the
quotient graph, the pooling map of the input graph, and the composed
literal mapping from the original graph's nodes. -/
structure GraphAbstractionS where
  graph : SGraph
  vertexMapping : Nat → Nat
  literalVertexMapping : Nat → Nat

/-- `GraphAbstraction.__init__`: pool the input graph, build the quotient
graph (`add_nodes_from(vertex_mapping.values())`,
`add_edges_from((vm[u], vm[v]) for u, v in graph.edges if vm[u] != vm[v])`)
and compose the literal mapping
(`{node: vm[prior[node]] for node in prior}`). -/
def graphAbstraction (g : SGraph) (prior : Nat → Nat) : GraphAbstractionS :=
  let vm := abstractVertexPooling g
  { graph :=
      { nodes := (g.nodes.map vm).dedup
        edges := g.edges.filterMap (fun e =>
          if vm e.1 ≠ vm e.2 then some (vm e.1, vm e.2) else none) }
    vertexMapping := vm
    literalVertexMapping := fun v => vm (prior v) }

/-- `ABSTRACTION_SIZE_THRESHOLD = 5`. -/
def ABSTRACTION_SIZE_THRESHOLD : Nat := 5

/-- The `while abstraction.n_nodes > ABSTRACTION_SIZE_THRESHOLD` loop of
`AbstractionHierarchy.__init__`, with explicit fuel (each pooled
contraction of a connected graph with more than 5 nodes is strictly
smaller, so the node count of the starting graph bounds the number of
iterations). -/
def hierarchyLoop : Nat → GraphAbstractionS → List GraphAbstractionS
  | 0, _ => []
  | fuel + 1, a =>
      if ABSTRACTION_SIZE_THRESHOLD < a.graph.nodes.length then
        let a' := graphAbstraction a.graph a.literalVertexMapping
        a' :: hierarchyLoop fuel a'
      else []

/-- `AbstractionHierarchy.__init__`: the first entry is
`GraphAbstraction(graph, {node: node for node in graph.nodes})` — which
already pools — followed by repeated contraction while more than
`ABSTRACTION_SIZE_THRESHOLD` nodes remain. -/
def abstractionHierarchy (g : SGraph) : List GraphAbstractionS :=
  graphAbstraction g (fun v => v) ::
    hierarchyLoop g.nodes.length (graphAbstraction g (fun v => v))

/-- C4 counterexample: on the connected two-node graph, the first
hierarchy entry `GraphAbstraction(G, {node: node})` is NOT the identity
abstraction: its graph is the one-node quotient (not `G`) and its literal
vertex mapping sends node 1 to the abstract node 0 (not to itself),
because `GraphAbstraction.__init__` pools immediately. -/
theorem abstractionHierarchy_identity_false :
    ((abstractionHierarchy ⟨[0, 1], [(0, 1)]⟩).headD
        ⟨⟨[], []⟩, fun v => v, fun v => v⟩).graph ≠
      (⟨[0, 1], [(0, 1)]⟩ : SGraph) ∧
    ((abstractionHierarchy ⟨[0, 1], [(0, 1)]⟩).headD
        ⟨⟨[], []⟩, fun v => v, fun v => v⟩).literalVertexMapping 1 ≠ 1 := by
  constructor
  · intro h
    have h2 := congrArg SGraph.nodes h
    revert h2
    decide
  · decide

/-- The hypotheses under which the pooling analysis applies: non-empty
duplicate-free node list, edges between listed nodes, connectivity. -/
def GoodGraph (g : SGraph) : Prop :=
  g.nodes ≠ [] ∧ g.nodes.Nodup ∧
  (∀ e ∈ g.edges, e.1 ∈ g.nodes ∧ e.2 ∈ g.nodes) ∧
  (∀ u ∈ g.nodes, ∀ v ∈ g.nodes, g.Reaches u v)

theorem pooling_nodes_card {g : SGraph} (hnodup : g.nodes.Nodup)
    (hclosed : ∀ e ∈ g.edges, e.1 ∈ g.nodes ∧ e.2 ∈ g.nodes)
    (hconn : ∀ u ∈ g.nodes, ∀ v ∈ g.nodes, g.Reaches u v) :
    ((g.nodes.map (abstractVertexPooling g)).dedup).length =
      (g.nodes.length + 1) / 2 := by
  obtain ⟨hinv, hcount⟩ := pvSt2_count g hnodup hclosed hconn
  rw [pooling_image_card hnodup hinv, hcount]
  rfl

theorem quotient_reaches {g : SGraph} (vm : Nat → Nat) {u v : Nat}
    (h : g.Reaches u v) :
    SGraph.Reaches
      ⟨(g.nodes.map vm).dedup,
       g.edges.filterMap (fun e =>
         if vm e.1 ≠ vm e.2 then some (vm e.1, vm e.2) else none)⟩
      (vm u) (vm v) := by
  induction h with
  | refl => exact .refl
  | @tail b c hreach hstep ih =>
      by_cases heq : vm b = vm c
      · rw [← heq]
        exact ih
      · refine ih.tail ?_
        rcases hstep with he | he
        · exact Or.inl (List.mem_filterMap.mpr ⟨(b, c), he, by rw [if_pos heq]⟩)
        · refine Or.inr (List.mem_filterMap.mpr ⟨(c, b), he, ?_⟩)
          rw [if_pos (Ne.symm heq)]

theorem graphAbstraction_good {g : SGraph} (hg : GoodGraph g)
    (prior : Nat → Nat) :
    GoodGraph (graphAbstraction g prior).graph ∧
    (graphAbstraction g prior).graph.nodes.length = (g.nodes.length + 1) / 2 := by
  obtain ⟨hne, hnodup, hclosed, hconn⟩ := hg
  refine ⟨⟨?_, ?_, ?_, ?_⟩, ?_⟩
  · show (g.nodes.map (abstractVertexPooling g)).dedup ≠ []
    intro h
    rw [List.dedup_eq_nil] at h
    exact hne (List.map_eq_nil.mp h)
  · exact List.nodup_dedup _
  · intro e he
    obtain ⟨e0, he0, hsome⟩ := List.mem_filterMap.mp he
    by_cases hc : abstractVertexPooling g e0.1 ≠ abstractVertexPooling g e0.2
    · rw [if_pos hc] at hsome
      obtain rfl := Option.some_injective _ hsome
      constructor
      · exact List.mem_dedup.mpr (List.mem_map.mpr ⟨e0.1, (hclosed e0 he0).1, rfl⟩)
      · exact List.mem_dedup.mpr (List.mem_map.mpr ⟨e0.2, (hclosed e0 he0).2, rfl⟩)
    · rw [if_neg hc] at hsome
      exact absurd hsome Option.noConfusion
  · intro x hx y hy
    obtain ⟨u, hu, rfl⟩ := List.mem_map.mp (List.mem_dedup.mp hx)
    obtain ⟨v, hv, rfl⟩ := List.mem_map.mp (List.mem_dedup.mp hy)
    exact quotient_reaches (abstractVertexPooling g) (hconn u hu v hv)
  · exact pooling_nodes_card hnodup hclosed hconn

theorem hierarchyLoop_spec :
    ∀ (fuel : Nat) (a : GraphAbstractionS), GoodGraph a.graph →
      a.graph.nodes.length ≤ fuel →
      List.Chain' (fun x y => y = graphAbstraction x.graph x.literalVertexMapping)
        (a :: hierarchyLoop fuel a) ∧
      (∀ i, i + 1 < (a :: hierarchyLoop fuel a).length →
        ABSTRACTION_SIZE_THRESHOLD <
          ((a :: hierarchyLoop fuel a).getD i
            ⟨⟨[], []⟩, fun v => v, fun v => v⟩).graph.nodes.length) ∧
      (∀ b, (a :: hierarchyLoop fuel a).getLast? = some b →
        b.graph.nodes.length ≤ ABSTRACTION_SIZE_THRESHOLD) := by
  intro fuel
  induction fuel with
  | zero =>
      intro a hg hle
      exfalso
      obtain ⟨hane, _, _, _⟩ := hg
      rw [Nat.le_zero] at hle
      exact hane (List.length_eq_zero.mp hle)
  | succ fuel ih =>
      intro a hg hle
      by_cases h5 : ABSTRACTION_SIZE_THRESHOLD < a.graph.nodes.length
      · simp only [hierarchyLoop, if_pos h5]
        obtain ⟨hg', hsz⟩ := graphAbstraction_good hg a.literalVertexMapping
        have hle' : (graphAbstraction a.graph a.literalVertexMapping).graph.nodes.length
            ≤ fuel := by
          rw [hsz]
          have h6 : 5 < a.graph.nodes.length := h5
          omega
        obtain ⟨hch, hmid, hlast⟩ :=
          ih (graphAbstraction a.graph a.literalVertexMapping) hg' hle'
        refine ⟨?_, ?_, ?_⟩
        · rw [List.chain'_cons]
          exact ⟨rfl, hch⟩
        · intro i hi
          cases i with
          | zero =>
              rw [List.getD_cons_zero]
              exact h5
          | succ i =>
              rw [List.getD_cons_succ]
              exact hmid i (by simpa using hi)
        · intro b hb
          rw [List.getLast?_cons_cons] at hb
          exact hlast b hb
      · simp only [hierarchyLoop, if_neg h5]
        refine ⟨List.chain'_singleton a, ?_, ?_⟩
        · intro i hi
          simp at hi
        · intro b hb
          simp only [List.getLast?_singleton] at hb
          obtain rfl := Option.some_injective _ hb
          omega

/-- C4 (amended): for a connected graph the hierarchy starts with
`GraphAbstraction(G, {node: node})` — the pooled contraction of `G`, not
an identity level — every later entry is the pooled contraction of its
predecessor's graph, every entry except the last has more than
`ABSTRACTION_SIZE_THRESHOLD = 5` nodes, and the last entry has at most 5
nodes. -/
theorem abstractionHierarchy_spec (g : SGraph)
    (hne : g.nodes ≠ []) (hnodup : g.nodes.Nodup)
    (hclosed : ∀ e ∈ g.edges, e.1 ∈ g.nodes ∧ e.2 ∈ g.nodes)
    (hconn : ∀ u ∈ g.nodes, ∀ v ∈ g.nodes, g.Reaches u v) :
    (abstractionHierarchy g).headD ⟨⟨[], []⟩, fun v => v, fun v => v⟩ =
      graphAbstraction g (fun v => v) ∧
    List.Chain' (fun x y => y = graphAbstraction x.graph x.literalVertexMapping)
      (abstractionHierarchy g) ∧
    (∀ i, i + 1 < (abstractionHierarchy g).length →
      ABSTRACTION_SIZE_THRESHOLD <
        ((abstractionHierarchy g).getD i
          ⟨⟨[], []⟩, fun v => v, fun v => v⟩).graph.nodes.length) ∧
    (∀ b, (abstractionHierarchy g).getLast? = some b →
      b.graph.nodes.length ≤ ABSTRACTION_SIZE_THRESHOLD) := by
  have hg : GoodGraph g := ⟨hne, hnodup, hclosed, hconn⟩
  obtain ⟨hg0, hsz0⟩ := graphAbstraction_good hg (fun v => v)
  have hle0 : (graphAbstraction g (fun v => v)).graph.nodes.length ≤
      g.nodes.length := by
    rw [hsz0]
    have h1 : 1 ≤ g.nodes.length := by
      cases hN : g.nodes with
      | nil => exact absurd hN hne
      | cons x l => simp
    omega
  obtain ⟨hch, hmid, hlast⟩ := hierarchyLoop_spec g.nodes.length _ hg0 hle0
  exact ⟨rfl, hch, hmid, hlast⟩

/-- Witness for C4: on the connected two-node graph the hierarchy applies
and its last entry is within the size threshold. -/
theorem abstractionHierarchy_spec_witness :
    (([0, 1] : List Nat) ≠ []) ∧
    (∀ b, (abstractionHierarchy ⟨[0, 1], [(0, 1)]⟩).getLast? = some b →
      b.graph.nodes.length ≤ ABSTRACTION_SIZE_THRESHOLD) := by
  refine ⟨by decide, ?_⟩
  have h := abstractionHierarchy_spec ⟨[0, 1], [(0, 1)]⟩ (by decide) (by decide)
    (by decide) ?_
  · exact h.2.2.2
  · intro u hu v hv
    fin_cases hu <;> fin_cases hv
    · exact Relation.ReflTransGen.refl
    · exact Relation.ReflTransGen.single (Or.inl (by decide))
    · exact Relation.ReflTransGen.single (Or.inr (by decide))
    · exact Relation.ReflTransGen.refl
